import Mathlib

/-!
Verification of the range-query and disjoint-set data-structure suite of the
repository (src/src/data_structures/mod.rs): the lazy sum segment tree, the
generic fold segment tree, the Fenwick (binary indexed) tree, and union-find.

Modelling conventions:
* Rust i64 values are modelled as Int (the claims are about exact sums;
  overflow of i64 would abort the Rust program rather than produce a value).
* Rust usize indices are modelled as Nat; the two's-complement bit trick
  `idx & (!idx + 1)` of the Fenwick tree is modelled exactly, with the 64-bit
  wrap-around made explicit (mod 2^64).
* Backing vectors are modelled as total functions Nat -> Int / Nat -> Nat;
  in every operation below all reads and writes stay within the bounds of the
  corresponding Rust Vec (tree/lazy of length 4*size, Fenwick tree of length
  n+1, union-find arrays of length n) on the domains the claims quantify over.
  For the one claim about out-of-bounds behaviour, instrumented variants with
  explicit bounds checks (returning Option) are defined alongside.
* Recursive methods are written with an explicit fuel parameter so that every
  definition is structurally recursive and executable; the public wrappers
  pass fuel that provably dominates the recursion depth of the Rust original.
-/

/-! ## Fenwick tree (src/src/data_structures/mod.rs, lines 360-422) -/

/-- `FenwickTree { tree: Vec<i64>, n: usize }`; `tree` has length `n + 1`
(valid indices `0..=n`). -/
structure FenwickTree where
  tree : Nat → Int
  n : Nat

/-- `idx & (!idx + 1)` on usize: `!idx` is `2^64 - 1 - idx`, the `+ 1` wraps
modulo `2^64`. -/
def lowbit (idx : Nat) : Nat :=
  idx &&& ((2 ^ 64 - 1 - idx + 1) % 2 ^ 64)

/-- `FenwickTree::new(size)`: `vec![0; size + 1]`. -/
def FenwickTree.new (size : Nat) : FenwickTree :=
  { tree := fun _ => 0, n := size }

/-- The `while idx <= self.n` loop of `FenwickTree::update`. -/
def FenwickTree.updateLoop (fuel : Nat) (tree : Nat → Int) (n idx : Nat)
    (delta : Int) : Nat → Int :=
  match fuel with
  | 0 => tree
  | fuel + 1 =>
    if idx ≤ n then
      FenwickTree.updateLoop fuel (Function.update tree idx (tree idx + delta))
        n (idx + lowbit idx) delta
    else tree

/-- `FenwickTree::update(idx, delta)`: converts to 1-indexed and walks up by
lowest set bits.  The loop index strictly increases each iteration, so
`n + 1` iterations always dominate the Rust loop. -/
def FenwickTree.update (t : FenwickTree) (idx : Nat) (delta : Int) :
    FenwickTree :=
  { t with tree := FenwickTree.updateLoop (t.n + 1) t.tree t.n (idx + 1) delta }

/-- `FenwickTree::from_array`: point updates in order. -/
def FenwickTree.from_array (arr : List Int) : FenwickTree :=
  arr.enum.foldl (fun t iv => t.update iv.1 iv.2) (FenwickTree.new arr.length)

/-- The `while idx > 0` loop of `FenwickTree::prefix_sum`. -/
def FenwickTree.prefixLoop (fuel : Nat) (tree : Nat → Int) (idx : Nat)
    (sum : Int) : Int :=
  match fuel with
  | 0 => sum
  | fuel + 1 =>
    if 0 < idx then
      FenwickTree.prefixLoop fuel tree (idx - lowbit idx) (sum + tree idx)
    else sum

/-- `FenwickTree::prefix_sum(idx)`: 1-indexed descent; the loop index strictly
decreases, so `idx + 2` iterations dominate the Rust loop. -/
def FenwickTree.prefix_sum (t : FenwickTree) (idx : Nat) : Int :=
  FenwickTree.prefixLoop (idx + 2) t.tree (idx + 1) 0

/-- `FenwickTree::range_sum(l, r)`. -/
def FenwickTree.range_sum (t : FenwickTree) (l r : Nat) : Int :=
  if l = 0 then t.prefix_sum r
  else t.prefix_sum r - t.prefix_sum (l - 1)

/-! ## Lazy sum segment tree (src/src/data_structures/mod.rs, lines 4-125) -/

/-- `SumSegmentTree { tree: Vec<i64>, lazy: Vec<i64>, original_size: usize }`;
both vectors have length `4 * original_size`. -/
structure SumSegmentTree where
  tree : Nat → Int
  lazy : Nat → Int
  original_size : Nat

/-- `SumSegmentTree::new(size)`. -/
def SumSegmentTree.new (size : Nat) : SumSegmentTree :=
  { tree := fun _ => 0, lazy := fun _ => 0, original_size := size }

/-- `SumSegmentTree::push(node, start, end)`: applies a pending lazy delta to
the node and defers it to the children (when the node is not a leaf). -/
def SumSegmentTree.push (t : SumSegmentTree) (node s e : Nat) :
    SumSegmentTree :=
  if t.lazy node ≠ 0 then
    let range_size : Int := ((e - s + 1 : Nat) : Int)
    let t1 : SumSegmentTree :=
      { t with tree := (Function.update t.tree node
          (t.tree node + t.lazy node * range_size)) }
    let t2 : SumSegmentTree :=
      if s ≠ e then
        let l1 := Function.update t1.lazy (2 * node)
          (t1.lazy (2 * node) + t1.lazy node)
        let l2 := Function.update l1 (2 * node + 1)
          (l1 (2 * node + 1) + l1 node)
        { t1 with lazy := l2 }
      else t1
    { t2 with lazy := Function.update t2.lazy node 0 }
  else t

/-- `SumSegmentTree::build(arr, node, start, end)` with fuel bounding the
recursion depth (the interval length shrinks at every level). -/
def SumSegmentTree.build (fuel : Nat) (t : SumSegmentTree) (arr : List Int)
    (node s e : Nat) : SumSegmentTree :=
  match fuel with
  | 0 => t
  | fuel + 1 =>
    if s = e then
      { t with tree := Function.update t.tree node (arr.getD s 0) }
    else if e < s then t
    else
      let mid := (s + e) / 2
      let t1 := SumSegmentTree.build fuel t arr (2 * node) s mid
      let t2 := SumSegmentTree.build fuel t1 arr (2 * node + 1) (mid + 1) e
      { t2 with tree := (Function.update t2.tree node
          (t2.tree (2 * node) + t2.tree (2 * node + 1))) }

/-- `SumSegmentTree::from_array(arr)`. -/
def SumSegmentTree.from_array (arr : List Int) : SumSegmentTree :=
  let t := SumSegmentTree.new arr.length
  if arr.length ≠ 0 then
    SumSegmentTree.build arr.length t arr 1 0 (arr.length - 1)
  else t

/-- `SumSegmentTree::update_range_helper(node, start, end, l, r, val)`. -/
def SumSegmentTree.update_range_helper (fuel : Nat) (t : SumSegmentTree)
    (node s e l r : Nat) (val : Int) : SumSegmentTree :=
  match fuel with
  | 0 => t
  | fuel + 1 =>
    let t0 := t.push node s e
    if r < s ∨ e < l then t0
    else if l ≤ s ∧ e ≤ r then
      let t1 : SumSegmentTree :=
        { t0 with lazy := Function.update t0.lazy node (t0.lazy node + val) }
      t1.push node s e
    else if e ≤ s then t0
    else
      let mid := (s + e) / 2
      let t1 := SumSegmentTree.update_range_helper fuel t0 (2 * node) s mid l r val
      let t2 := SumSegmentTree.update_range_helper fuel t1 (2 * node + 1) (mid + 1) e l r val
      let t3 := t2.push (2 * node) s mid
      let t4 := t3.push (2 * node + 1) (mid + 1) e
      { t4 with tree := (Function.update t4.tree node
          (t4.tree (2 * node) + t4.tree (2 * node + 1))) }

/-- `SumSegmentTree::update_range(l, r, val)`: guarded by
`l < original_size && r < original_size`; recursion depth is at most
`original_size`. -/
def SumSegmentTree.update_range (t : SumSegmentTree) (l r : Nat) (val : Int) :
    SumSegmentTree :=
  if l < t.original_size ∧ r < t.original_size then
    SumSegmentTree.update_range_helper t.original_size t 1 0
      (t.original_size - 1) l r val
  else t

/-- `SumSegmentTree::update_point_helper(node, start, end, idx, val)`. -/
def SumSegmentTree.update_point_helper (fuel : Nat) (t : SumSegmentTree)
    (node s e idx : Nat) (val : Int) : SumSegmentTree :=
  match fuel with
  | 0 => t
  | fuel + 1 =>
    let t0 := t.push node s e
    if s = e then
      { t0 with tree := Function.update t0.tree node val }
    else if e < s then t0
    else
      let mid := (s + e) / 2
      let t1 :=
        if idx ≤ mid then
          SumSegmentTree.update_point_helper fuel t0 (2 * node) s mid idx val
        else
          SumSegmentTree.update_point_helper fuel t0 (2 * node + 1) (mid + 1) e idx val
      let t2 := t1.push (2 * node) s mid
      let t3 := t2.push (2 * node + 1) (mid + 1) e
      { t3 with tree := (Function.update t3.tree node
          (t3.tree (2 * node) + t3.tree (2 * node + 1))) }

/-- `SumSegmentTree::update_point(idx, val)`. -/
def SumSegmentTree.update_point (t : SumSegmentTree) (idx : Nat) (val : Int) :
    SumSegmentTree :=
  if idx < t.original_size then
    SumSegmentTree.update_point_helper t.original_size t 1 0
      (t.original_size - 1) idx val
  else t

/-- `SumSegmentTree::query_helper(node, start, end, l, r)`: takes `&mut self`
(it pushes lazy tags on the way down), so it returns the new state together
with the queried sum. -/
def SumSegmentTree.query_helper (fuel : Nat) (t : SumSegmentTree)
    (node s e l r : Nat) : SumSegmentTree × Int :=
  match fuel with
  | 0 => (t, 0)
  | fuel + 1 =>
    if r < s ∨ e < l then (t, 0)
    else
      let t0 := t.push node s e
      if l ≤ s ∧ e ≤ r then (t0, t0.tree node)
      else if e ≤ s then (t0, 0)
      else
        let mid := (s + e) / 2
        let p1 := SumSegmentTree.query_helper fuel t0 (2 * node) s mid l r
        let p2 := SumSegmentTree.query_helper fuel p1.1 (2 * node + 1) (mid + 1) e l r
        (p2.1, p1.2 + p2.2)

/-- `SumSegmentTree::query(l, r)`. -/
def SumSegmentTree.query (t : SumSegmentTree) (l r : Nat) :
    SumSegmentTree × Int :=
  if l < t.original_size ∧ r < t.original_size then
    SumSegmentTree.query_helper t.original_size t 1 0 (t.original_size - 1) l r
  else (t, 0)

/-! ## Generic segment tree (src/src/data_structures/mod.rs, lines 127-234) -/

/-- `SegmentTree<T> { tree: Vec<T>, original_size, identity, op }`; `tree` has
length `4 * original_size`. -/
structure SegmentTree (T : Type) where
  tree : Nat → T
  original_size : Nat
  identity : T
  op : T → T → T

/-- `SegmentTree::new(size, identity, op)`. -/
def SegmentTree.new (T : Type) (size : Nat) (identity : T) (op : T → T → T) :
    SegmentTree T :=
  { tree := fun _ => identity, original_size := size,
    identity := identity, op := op }

/-- `SegmentTree::build(arr, node, start, end)`. -/
def SegmentTree.build {T : Type} (fuel : Nat) (st : SegmentTree T)
    (arr : List T) (node s e : Nat) : SegmentTree T :=
  match fuel with
  | 0 => st
  | fuel + 1 =>
    if s = e then
      { st with tree := Function.update st.tree node (arr.getD s st.identity) }
    else if e < s then st
    else
      let mid := (s + e) / 2
      let t1 := SegmentTree.build fuel st arr (2 * node) s mid
      let t2 := SegmentTree.build fuel t1 arr (2 * node + 1) (mid + 1) e
      { t2 with tree := (Function.update t2.tree node
          (t2.op (t2.tree (2 * node)) (t2.tree (2 * node + 1)))) }

/-- `SegmentTree::from_array(arr, identity, op)`. -/
def SegmentTree.from_array {T : Type} (arr : List T) (identity : T)
    (op : T → T → T) : SegmentTree T :=
  let st := SegmentTree.new T arr.length identity op
  if arr.length ≠ 0 then
    SegmentTree.build arr.length st arr 1 0 (arr.length - 1)
  else st

/-- `SegmentTree::query_helper(node, start, end, l, r)` (pure: `&self`). -/
def SegmentTree.query_helper {T : Type} (fuel : Nat) (st : SegmentTree T)
    (node s e l r : Nat) : T :=
  match fuel with
  | 0 => st.identity
  | fuel + 1 =>
    if r < s ∨ e < l then st.identity
    else if l ≤ s ∧ e ≤ r then st.tree node
    else if e ≤ s then st.identity
    else
      let mid := (s + e) / 2
      let left_query := SegmentTree.query_helper fuel st (2 * node) s mid l r
      let right_query := SegmentTree.query_helper fuel st (2 * node + 1) (mid + 1) e l r
      st.op left_query right_query

/-- `SegmentTree::query(l, r)`. -/
def SegmentTree.query {T : Type} (st : SegmentTree T) (l r : Nat) : T :=
  if l < st.original_size ∧ r < st.original_size then
    SegmentTree.query_helper st.original_size st 1 0 (st.original_size - 1) l r
  else st.identity

/-! ## Union-find (src/src/data_structures/mod.rs, lines 591-726) -/

/-- `UnionFind { parent, rank, size: Vec<usize>, components: usize }`; the
three vectors have length `n`. -/
structure UnionFind where
  parent : Nat → Nat
  rank : Nat → Nat
  size : Nat → Nat
  components : Nat
  n : Nat

/-- `UnionFind::new(n)`: `parent[i] = i`, `rank[i] = 0`, `size[i] = 1`. -/
def UnionFind.new (n : Nat) : UnionFind :=
  { parent := fun i => i, rank := fun _ => 0, size := fun _ => 1,
    components := n, n := n }

/-- `UnionFind::find(x)`: recursive root lookup with full path compression
(`self.parent[x] = self.find(self.parent[x])`).  The recursion depth of the
Rust original is bounded by `n` (parent chains have strictly increasing rank,
hence visit distinct elements), so fuel `n + 1` always suffices. -/
def UnionFind.find (fuel : Nat) (uf : UnionFind) (x : Nat) :
    UnionFind × Nat :=
  match fuel with
  | 0 => (uf, x)
  | fuel + 1 =>
    if uf.parent x ≠ x then
      let p := UnionFind.find fuel uf (uf.parent x)
      ({ p.1 with parent := Function.update p.1.parent x p.2 }, p.2)
    else (uf, x)

/-- `UnionFind::union(x, y)`: union by rank; returns whether a merge
happened.  The `match rank_x.cmp(&rank_y)` is modelled by the equivalent
comparison chain. -/
def UnionFind.union (uf : UnionFind) (x y : Nat) : UnionFind × Bool :=
  let p1 := uf.find (uf.n + 1) x
  let p2 := p1.1.find (p1.1.n + 1) y
  let uf2 := p2.1
  let root_x := p1.2
  let root_y := p2.2
  if root_x = root_y then (uf2, false)
  else
    let uf3 :=
      if uf2.rank root_x < uf2.rank root_y then
        { uf2 with parent := Function.update uf2.parent root_x root_y,
                   size := (Function.update uf2.size root_y
                     (uf2.size root_y + uf2.size root_x)) }
      else if uf2.rank root_y < uf2.rank root_x then
        { uf2 with parent := Function.update uf2.parent root_y root_x,
                   size := (Function.update uf2.size root_x
                     (uf2.size root_x + uf2.size root_y)) }
      else
        { uf2 with parent := Function.update uf2.parent root_y root_x,
                   size := (Function.update uf2.size root_x
                     (uf2.size root_x + uf2.size root_y)),
                   rank := (Function.update uf2.rank root_x
                     (uf2.rank root_x + 1)) }
    ({ uf3 with components := uf3.components - 1 }, true)

/-- `UnionFind::connected(x, y)` (takes `&mut self`: both finds compress). -/
def UnionFind.connected (uf : UnionFind) (x y : Nat) : UnionFind × Bool :=
  let p1 := uf.find (uf.n + 1) x
  let p2 := p1.1.find (p1.1.n + 1) y
  (p2.1, p1.2 = p2.2)

/-- `UnionFind::component_count()`. -/
def UnionFind.component_count (uf : UnionFind) : Nat :=
  uf.components

/-- `UnionFind::component_size(x)`. -/
def UnionFind.component_size (uf : UnionFind) (x : Nat) : UnionFind × Nat :=
  let p := uf.find (uf.n + 1) x
  (p.1, p.1.size p.2)

/-! ## Instrumented out-of-bounds checks

The Rust methods index straight into their backing `Vec`s; an index at or
beyond the length aborts (panics) instead of reading.  The following variants
perform exactly the same reads but return `none` at the first read outside
the backing storage, mirroring that abort. -/

/-- The `while idx > 0` loop of `prefix_sum` with checked reads. -/
def FenwickTree.prefixLoopChecked (fuel : Nat) (tree : Nat → Int) (n idx : Nat)
    (sum : Int) : Option Int :=
  match fuel with
  | 0 => some sum
  | fuel + 1 =>
    if 0 < idx then
      if idx < n + 1 then
        FenwickTree.prefixLoopChecked fuel tree n (idx - lowbit idx)
          (sum + tree idx)
      else none
    else some sum

/-- `FenwickTree::prefix_sum` with every read `self.tree[idx]` checked
against the vector length `n + 1` (valid indices `0..=n`). -/
def FenwickTree.prefix_sum_checked (fuel : Nat) (t : FenwickTree) (idx : Nat) :
    Option Int :=
  FenwickTree.prefixLoopChecked fuel t.tree t.n (idx + 1) 0

/-- `UnionFind::find` with every read `self.parent[x]` checked against the
vector length `n`. -/
def UnionFind.find_checked (fuel : Nat) (uf : UnionFind) (x : Nat) :
    Option (UnionFind × Nat) :=
  match fuel with
  | 0 => none
  | fuel + 1 =>
    if x < uf.n then
      if uf.parent x ≠ x then
        match UnionFind.find_checked fuel uf (uf.parent x) with
        | none => none
        | some p => some ({ p.1 with parent := Function.update p.1.parent x p.2 }, p.2)
      else some (uf, x)
    else none

/-! ## The lowest set bit: structural characterisation of `idx & (!idx + 1)` -/

/-- The lowest set bit of a natural number (`0` for `0`), defined by binary
recursion. -/
def lsbN (k : Nat) : Nat :=
  if k = 0 then 0 else if k % 2 = 1 then 1 else 2 * lsbN (k / 2)
decreasing_by exact Nat.div_lt_self (Nat.pos_of_ne_zero (by assumption)) one_lt_two

/-! ## Fenwick tree correctness -/

/-- The brute-force reference array: each `update(idx, delta)` applied
element-wise. -/
def refPointUpdates (a : Nat → Int) : List (Nat × Int) → Nat → Int
  | [] => a
  | u :: us => refPointUpdates (fun i => if i = u.1 then a i + u.2 else a i) us

/-- Run a sequence of `update` calls. -/
def FenwickTree.applyUpdates (t : FenwickTree) (us : List (Nat × Int)) :
    FenwickTree :=
  us.foldl (fun t u => t.update u.1 u.2) t

/-- The Fenwick coverage invariant: internal slot `i` (1-indexed, `1 ≤ i ≤ n`)
holds the sum of the 0-indexed reference elements `i - lsb i, ..., i - 1`. -/
def FenwickTree.Inv (t : FenwickTree) (a : Nat → Int) : Prop :=
  ∀ i, 1 ≤ i → i ≤ t.n → t.tree i = ∑ j ∈ Finset.Ico (i - lsbN i) i, a j

/-! ## Lazy sum segment tree correctness -/

/-- Sum of `f` over the inclusive index interval `[a, b]`. -/
def intervalSum (f : Nat → Int) (a b : Nat) : Int :=
  ∑ i ∈ Finset.Ico a (b + 1), f i

/-- Membership of heap index `j` in the subtree rooted at `root` (node `k`
has children `2k` and `2k+1`): `root` is a binary prefix of `j`. -/
def inSub (root j : Nat) : Prop :=
  ∃ k, j / 2 ^ k = root

/-- The abstract array element at index `i` represented by the subtree rooted
at `node` covering `[s, e]`: the leaf value plus every pending lazy delta on
the path from `node` down to the leaf of `i` (nothing above `node`). -/
def SumSegmentTree.elemVal (t : SumSegmentTree) (node s e i : Nat) : Int :=
  if s = e then t.tree node + t.lazy node
  else if e ≤ s then 0
  else
    t.lazy node +
      (if i ≤ (s + e) / 2 then SumSegmentTree.elemVal t (2 * node) s ((s + e) / 2) i
       else SumSegmentTree.elemVal t (2 * node + 1) ((s + e) / 2 + 1) e i)
termination_by e - s
decreasing_by all_goals omega

/-- The structural invariant of the lazy tree: every internal node's stored
sum equals the sum of the values represented by its two children (the node's
own pending delta is not yet included). -/
def SumSegmentTree.Inv (t : SumSegmentTree) (node s e : Nat) : Prop :=
  if s = e then True
  else if e ≤ s then True
  else
    t.tree node
        = intervalSum (SumSegmentTree.elemVal t (2 * node) s ((s + e) / 2)) s ((s + e) / 2)
          + intervalSum (SumSegmentTree.elemVal t (2 * node + 1) ((s + e) / 2 + 1) e)
              ((s + e) / 2 + 1) e
      ∧ SumSegmentTree.Inv t (2 * node) s ((s + e) / 2)
      ∧ SumSegmentTree.Inv t (2 * node + 1) ((s + e) / 2 + 1) e
termination_by e - s
decreasing_by all_goals omega

/-- The whole-tree abstraction: when the tree is nonempty, the root subtree
satisfies the invariant and represents the array `a`. -/
def SumSegmentTree.Good (t : SumSegmentTree) (a : Nat → Int) : Prop :=
  1 ≤ t.original_size →
    (t.Inv 1 0 (t.original_size - 1)
      ∧ ∀ i, i < t.original_size → t.elemVal 1 0 (t.original_size - 1) i = a i)

/-- Reference semantics of `update_range` (with the wrapper's bounds guard)
on the abstract array. -/
def refRangeAdd (n : Nat) (a : Nat → Int) (l r : Nat) (v : Int) (i : Nat) :
    Int :=
  if (l < n ∧ r < n) ∧ l ≤ i ∧ i ≤ r then a i + v else a i

/-- Reference semantics of `update_point` on the abstract array. -/
def refPointSet (n : Nat) (a : Nat → Int) (idx : Nat) (v : Int) (i : Nat) :
    Int :=
  if idx < n ∧ i = idx then v else a i

/-- Reference semantics of `query` on the abstract array. -/
def refQuery (n : Nat) (a : Nat → Int) (l r : Nat) : Int :=
  if l < n ∧ r < n then ∑ i ∈ Finset.Ico l (r + 1), a i else 0

/-- The operations a caller can issue against a `SumSegmentTree`. -/
inductive SOp where
  | updateRange (l r : Nat) (v : Int)
  | updatePoint (idx : Nat) (v : Int)
  | query (l r : Nat)

/-- Run a list of operations, collecting the outputs of the queries. -/
def SumSegmentTree.runOps (t : SumSegmentTree) :
    List SOp → SumSegmentTree × List Int
  | [] => (t, [])
  | SOp.updateRange l r v :: ops =>
      SumSegmentTree.runOps (t.update_range l r v) ops
  | SOp.updatePoint idx v :: ops =>
      SumSegmentTree.runOps (t.update_point idx v) ops
  | SOp.query l r :: ops =>
      let p := t.query l r
      let q := SumSegmentTree.runOps p.1 ops
      (q.1, p.2 :: q.2)

/-- Reference semantics of one operation on the abstract array. -/
def refStep (n : Nat) (a : Nat → Int) : SOp → (Nat → Int)
  | SOp.updateRange l r v => refRangeAdd n a l r v
  | SOp.updatePoint idx v => refPointSet n a idx v
  | SOp.query _ _ => a

/-- Reference outputs of a list of operations on the abstract array. -/
def refOutputs (n : Nat) (a : Nat → Int) : List SOp → List Int
  | [] => []
  | SOp.updateRange l r v :: ops => refOutputs n (refRangeAdd n a l r v) ops
  | SOp.updatePoint idx v :: ops => refOutputs n (refPointSet n a idx v) ops
  | SOp.query l r :: ops => refQuery n a l r :: refOutputs n a ops

/-- Apply a sequence of `update_range(l, r, delta)` calls. -/
def SumSegmentTree.applyRangeUpdates (t : SumSegmentTree)
    (us : List (Nat × Nat × Int)) : SumSegmentTree :=
  us.foldl (fun t u => t.update_range u.1 u.2.1 u.2.2) t

/-- The reference array: the same range-adds applied element-wise. -/
def refRangeUpdates (a : Nat → Int) : List (Nat × Nat × Int) → Nat → Int
  | [] => a
  | u :: us => refRangeUpdates
      (fun i => if u.1 ≤ i ∧ i ≤ u.2.1 then a i + u.2.2 else a i) us

/-! ## Union-find: roots, well-formedness, termination measure -/

/-- `k`-fold application of a parent map. -/
def iterParent (p : Nat → Nat) : Nat → Nat → Nat
  | 0, x => x
  | k + 1, x => iterParent p k (p x)

/-- The root of `x`: follow parent pointers `n` times (enough under `WF`). -/
def UnionFind.rootOf (uf : UnionFind) (x : Nat) : Nat :=
  iterParent uf.parent uf.n x

/-- Well-formedness: parents stay in range, and rank strictly increases along
every non-trivial parent edge.  Every state the Rust code reaches satisfies
this. -/
def UnionFind.WF (uf : UnionFind) : Prop :=
  (∀ x, x < uf.n → uf.parent x < uf.n)
  ∧ (∀ x, x < uf.n → uf.parent x ≠ x → uf.rank x < uf.rank (uf.parent x))

/-- Number of elements whose rank exceeds `x`'s: a variant bounding the
length of the parent chain above `x`. -/
def UnionFind.rankAbove (uf : UnionFind) (x : Nat) : Nat :=
  ((Finset.range uf.n).filter (fun j => uf.rank x < uf.rank j)).card

/-- The number of roots among `0 .. n-1`. -/
def UnionFind.rootsCard (uf : UnionFind) : Nat :=
  ((Finset.range uf.n).filter (fun j => uf.parent j = j)).card

/-- The `components` field counts the roots. -/
def UnionFind.CInv (uf : UnionFind) : Prop :=
  uf.components = uf.rootsCard

/-- The full postcondition of `find` at a given fuel. -/
def UnionFind.FindSpec (uf : UnionFind) (x fuel : Nat) : Prop :=
  (uf.find fuel x).2 = uf.rootOf x
  ∧ (uf.find fuel x).1.rank = uf.rank
  ∧ (uf.find fuel x).1.size = uf.size
  ∧ (uf.find fuel x).1.components = uf.components
  ∧ (uf.find fuel x).1.n = uf.n
  ∧ (∀ j, ((uf.find fuel x).1.parent j = j ↔ uf.parent j = j))
  ∧ (∀ j, j < uf.n → (uf.find fuel x).1.rootOf j = uf.rootOf j)
  ∧ (uf.find fuel x).1.WF
  ∧ (∀ k, (uf.find fuel x).1.parent (iterParent uf.parent k x) = uf.rootOf x)
  ∧ (∀ fuel', uf.rankAbove x < fuel' → uf.find fuel' x = uf.find fuel x)

/-- Number of `true`s in a list of Booleans (successful unions). -/
def countTrue : List Bool → Nat
  | [] => 0
  | b :: l => cond b 1 0 + countTrue l

/-- Run a sequence of `union` calls, collecting the returned Booleans. -/
def UnionFind.runUnions (uf : UnionFind) : List (Nat × Nat) → UnionFind × List Bool
  | [] => (uf, [])
  | p :: ps =>
    let u := uf.union p.1 p.2
    let rest := u.1.runUnions ps
    (rest.1, u.2 :: rest.2)

/-- States the Rust `UnionFind` can reach: a fresh structure, mutated by
in-range `union` and `find` calls. -/
inductive UnionFind.Reachable : UnionFind → Prop
  | new (n : Nat) : UnionFind.Reachable (UnionFind.new n)
  | union_step {uf : UnionFind} (x y : Nat) (hx : x < uf.n) (hy : y < uf.n)
      (h : UnionFind.Reachable uf) : UnionFind.Reachable (uf.union x y).1
  | find_step {uf : UnionFind} (x : Nat) (hx : x < uf.n)
      (h : UnionFind.Reachable uf) : UnionFind.Reachable (uf.find (uf.n + 1) x).1

/-! ## Theorems -/

theorem lsbN_zero : lsbN 0 = 0 := by rw [lsbN]; simp

theorem lsbN_of_odd {k : Nat} (h : k % 2 = 1) : lsbN k = 1 := by
  rw [lsbN]
  have : k ≠ 0 := by omega
  simp [this, h]

theorem lsbN_of_even {k : Nat} (h0 : k ≠ 0) (h : k % 2 = 0) :
    lsbN k = 2 * lsbN (k / 2) := by
  rw [lsbN]
  simp [h0, h]

theorem lsbN_two_mul {k : Nat} (h : k ≠ 0) : lsbN (2 * k) = 2 * lsbN k := by
  have h2 : (2 * k) % 2 = 0 := by omega
  rw [lsbN_of_even (by omega) h2, Nat.mul_div_cancel_left k (by norm_num)]

theorem lsbN_pos {k : Nat} (h : 1 ≤ k) : 1 ≤ lsbN k := by
  induction k using Nat.strong_induction_on with
  | _ k ih =>
    rcases Nat.even_or_odd k with he | ho
    · obtain ⟨m, hm⟩ := he
      have hm' : k = 2 * m := by omega
      subst hm'
      have hmpos : 1 ≤ m := by omega
      rw [lsbN_two_mul (by omega)]
      have := ih m (by omega) hmpos
      omega
    · rw [lsbN_of_odd (Nat.odd_iff.mp ho)]

theorem lsbN_le {k : Nat} : lsbN k ≤ k := by
  induction k using Nat.strong_induction_on with
  | _ k ih =>
    rcases Nat.eq_zero_or_pos k with h0 | hpos
    · subst h0; rw [lsbN_zero]
    rcases Nat.even_or_odd k with he | ho
    · obtain ⟨m, hm⟩ := he
      have hm' : k = 2 * m := by omega
      subst hm'
      rw [lsbN_two_mul (by omega)]
      have := ih m (by omega)
      omega
    · rw [lsbN_of_odd (Nat.odd_iff.mp ho)]; omega

/-- Stepping a Fenwick index forward (`idx += idx & (!idx+1)`) at least
doubles its lowest set bit. -/
theorem lsbN_add_self {k : Nat} (h : 1 ≤ k) :
    2 * lsbN k ≤ lsbN (k + lsbN k) := by
  induction k using Nat.strong_induction_on with
  | _ k ih =>
    rcases Nat.even_or_odd k with he | ho
    · obtain ⟨m, hm⟩ := he
      have hm' : k = 2 * m := by omega
      subst hm'
      have hmpos : 1 ≤ m := by omega
      rw [lsbN_two_mul (by omega)]
      have hsum : 2 * m + 2 * lsbN m = 2 * (m + lsbN m) := by ring
      rw [hsum, lsbN_two_mul (by have := lsbN_pos hmpos; omega)]
      have := ih m (by omega) hmpos
      omega
    · have ho1 := Nat.odd_iff.mp ho
      rw [lsbN_of_odd ho1]
      have : (k + 1) % 2 = 0 := by omega
      rw [lsbN_of_even (by omega) this]
      have : 1 ≤ lsbN ((k + 1) / 2) := lsbN_pos (by omega)
      omega

/-- Adding a value smaller than the lowest set bit does not change the lowest
set bit of the addend. -/
theorem lsbN_add_of_lt : ∀ j b : Nat, 1 ≤ b → b < lsbN j →
    lsbN (j + b) = lsbN b := by
  intro j
  induction j using Nat.strong_induction_on with
  | _ j ih =>
    intro b hb h
    rcases Nat.eq_zero_or_pos j with h0 | hpos
    · subst h0; rw [lsbN_zero] at h; omega
    rcases Nat.even_or_odd j with he | ho
    · obtain ⟨m, hm⟩ := he
      have hm' : j = 2 * m := by omega
      subst hm'
      have hmpos : 1 ≤ m := by omega
      rw [lsbN_two_mul (by omega)] at h
      rcases Nat.even_or_odd b with hbe | hbo
      · obtain ⟨c, hc⟩ := hbe
        have hc' : b = 2 * c := by omega
        subst hc'
        have hsum : 2 * m + 2 * c = 2 * (m + c) := by ring
        rw [hsum, lsbN_two_mul (by omega), lsbN_two_mul (by omega),
          ih m (by omega) c (by omega) (by omega)]
      · have hb1 := Nat.odd_iff.mp hbo
        have : (2 * m + b) % 2 = 1 := by omega
        rw [lsbN_of_odd this, lsbN_of_odd hb1]
    · have ho1 := Nat.odd_iff.mp ho
      rw [lsbN_of_odd ho1] at h
      omega

/-! Bit-pair lemmas for `&&&`, from `Nat.land_bit`. -/

theorem land_two_mul (a b : Nat) : (2 * a) &&& (2 * b) = 2 * (a &&& b) := by
  have := Nat.land_bit false a false b
  simpa [Nat.bit] using this

theorem land_two_mul_add_one (a b : Nat) :
    (2 * a + 1) &&& (2 * b + 1) = 2 * (a &&& b) + 1 := by
  have := Nat.land_bit true a true b
  simpa [Nat.bit] using this

theorem land_even_odd (a b : Nat) : (2 * a) &&& (2 * b + 1) = 2 * (a &&& b) := by
  have := Nat.land_bit false a true b
  simpa [Nat.bit] using this

theorem land_odd_even (a b : Nat) : (2 * a + 1) &&& (2 * b) = 2 * (a &&& b) := by
  have := Nat.land_bit true a false b
  simpa [Nat.bit] using this

/-- A number and its bitwise complement below `2^t` share no bits. -/
theorem land_compl_eq_zero : ∀ t a, a < 2 ^ t → a &&& (2 ^ t - 1 - a) = 0 := by
  intro t
  induction t with
  | zero => intro a ha; interval_cases a; rfl
  | succ t ih =>
    intro a ha
    rcases Nat.even_or_odd a with he | ho
    · obtain ⟨m, hm⟩ := he
      have hm' : a = 2 * m := by omega
      subst hm'
      have hc : 2 ^ (t + 1) - 1 - 2 * m = 2 * (2 ^ t - 1 - m) + 1 := by
        have h1 : 2 ^ (t + 1) = 2 * 2 ^ t := by ring
        have h2 : m < 2 ^ t := by omega
        omega
      rw [hc, land_even_odd, ih m (by omega)]
    · obtain ⟨m, hm⟩ := ho
      subst hm
      have hc : 2 ^ (t + 1) - 1 - (2 * m + 1) = 2 * (2 ^ t - 1 - m) := by
        have h1 : 2 ^ (t + 1) = 2 * 2 ^ t := by ring
        have h2 : m < 2 ^ t := by omega
        omega
      rw [hc, land_odd_even, ih m (by omega)]

/-- The two's-complement trick: `a &&& (2^w - a)` is the lowest set bit of
`a`, for `1 ≤ a < 2^w`. -/
theorem land_sub_eq_lsbN : ∀ a, ∀ w, 1 ≤ a → a < 2 ^ w →
    a &&& (2 ^ w - a) = lsbN a := by
  intro a
  induction a using Nat.strong_induction_on with
  | _ a ih =>
    intro w h1 hw
    have hwpos : 0 < w := by
      by_contra h
      have : w = 0 := by omega
      subst this
      simp at hw; omega
    rcases Nat.even_or_odd a with he | ho
    · obtain ⟨m, hm⟩ := he
      have hm' : a = 2 * m := by omega
      subst hm'
      have hmpos : 1 ≤ m := by omega
      have hc : 2 ^ w - 2 * m = 2 * (2 ^ (w - 1) - m) := by
        have h1 : 2 ^ w = 2 * 2 ^ (w - 1) := by
          rw [← Nat.pow_succ']
          congr 1
          omega
        omega
      rw [hc, land_two_mul, lsbN_two_mul (by omega)]
      have hmw : m < 2 ^ (w - 1) := by
        have h1 : 2 ^ w = 2 * 2 ^ (w - 1) := by
          rw [← Nat.pow_succ']
          congr 1
          omega
        omega
      rw [ih m (by omega) (w - 1) hmpos hmw]
    · obtain ⟨m, hm⟩ := ho
      subst hm
      have hmw : m < 2 ^ (w - 1) := by
        have h1 : 2 ^ w = 2 * 2 ^ (w - 1) := by
          rw [← Nat.pow_succ']
          congr 1
          omega
        omega
      have hc : 2 ^ w - (2 * m + 1) = 2 * (2 ^ (w - 1) - 1 - m) + 1 := by
        have h1 : 2 ^ w = 2 * 2 ^ (w - 1) := by
          rw [← Nat.pow_succ']
          congr 1
          omega
        omega
      rw [hc, land_two_mul_add_one, land_compl_eq_zero (w - 1) m hmw,
        lsbN_of_odd (by omega)]

/-- The Fenwick step `idx & (!idx + 1)` computes the lowest set bit for every
index below `2^64` (every usize that can index a real `Vec`). -/
theorem lowbit_eq_lsbN {a : Nat} (h1 : 1 ≤ a) (h2 : a < 2 ^ 64) :
    lowbit a = lsbN a := by
  unfold lowbit
  have he : (2 ^ 64 - 1 - a + 1) % 2 ^ 64 = 2 ^ 64 - a := by omega
  rw [he]
  exact land_sub_eq_lsbN a 64 h1 h2

theorem updateLoop_spec (delta : Int) (j0 : Nat) :
    ∀ fuel (tree : Nat → Int) (n j : Nat), n < 2 ^ 64 → 1 ≤ j →
      j - lsbN j < j0 → j0 ≤ j → n + 1 - j ≤ fuel →
      ∀ i, 1 ≤ i → i ≤ n →
        FenwickTree.updateLoop fuel tree n j delta i =
          tree i + (if i - lsbN i < j0 ∧ j0 ≤ i ∧ j ≤ i then delta else 0) := by
  intro fuel
  induction fuel with
  | zero =>
    intro tree n j hn hj hcov1 hcov2 hfuel i hi1 hi2
    have hji : ¬ (j ≤ i) := by omega
    simp only [FenwickTree.updateLoop]
    have : ¬ (i - lsbN i < j0 ∧ j0 ≤ i ∧ j ≤ i) := by tauto
    rw [if_neg this]
    omega
  | succ fuel ih =>
    intro tree n j hn hj hcov1 hcov2 hfuel i hi1 hi2
    simp only [FenwickTree.updateLoop]
    by_cases hjn : j ≤ n
    · rw [if_pos hjn]
      have hlow : lowbit j = lsbN j := lowbit_eq_lsbN hj (by omega)
      have hlsb1 : 1 ≤ lsbN j := lsbN_pos hj
      have hlsble : lsbN j ≤ j := lsbN_le
      have hstep : 2 * lsbN j ≤ lsbN (j + lsbN j) := lsbN_add_self hj
      have hlsble' : lsbN (j + lsbN j) ≤ j + lsbN j := lsbN_le
      rw [hlow]
      rw [ih (Function.update tree j (tree j + delta)) n (j + lsbN j)
        hn (by omega) (by omega) (by omega) (by omega) i hi1 hi2]
      by_cases hij : i = j
      · subst hij
        rw [Function.update_same]
        have hneg : ¬ (i - lsbN i < j0 ∧ j0 ≤ i ∧ i + lsbN i ≤ i) := by
          intro h
          omega
        rw [if_neg hneg, if_pos ⟨hcov1, hcov2, le_refl i⟩]
        ring
      · rw [Function.update_noteq hij]
        congr 1
        by_cases hcovi : i - lsbN i < j0 ∧ j0 ≤ i
        · by_cases hji : j ≤ i
          · have hj_lt : j < i := by omega
            have hge : j + lsbN j ≤ i := by
              by_contra hlt
              have hb : i = j + (i - j) := by omega
              have hb1 : 1 ≤ i - j := by omega
              have hb2 : i - j < lsbN j := by omega
              have := lsbN_add_of_lt j (i - j) hb1 hb2
              rw [← hb] at this
              have hble : lsbN (i - j) ≤ i - j := lsbN_le
              omega
            rw [if_pos ⟨hcovi.1, hcovi.2, hge⟩, if_pos ⟨hcovi.1, hcovi.2, hji⟩]
          · have h1 : ¬ (i - lsbN i < j0 ∧ j0 ≤ i ∧ j + lsbN j ≤ i) := by
              intro h; omega
            have h2 : ¬ (i - lsbN i < j0 ∧ j0 ≤ i ∧ j ≤ i) := by tauto
            rw [if_neg h1, if_neg h2]
        · have h1 : ¬ (i - lsbN i < j0 ∧ j0 ≤ i ∧ j + lsbN j ≤ i) := by tauto
          have h2 : ¬ (i - lsbN i < j0 ∧ j0 ≤ i ∧ j ≤ i) := by tauto
          rw [if_neg h1, if_neg h2]
    · rw [if_neg hjn]
      have : ¬ (i - lsbN i < j0 ∧ j0 ≤ i ∧ j ≤ i) := by
        intro h; omega
      rw [if_neg this]
      omega

theorem update_tree_spec (t : FenwickTree) (idx : Nat) (delta : Int)
    (hn : t.n < 2 ^ 64) :
    ∀ i, 1 ≤ i → i ≤ t.n →
      (t.update idx delta).tree i =
        t.tree i + (if i - lsbN i ≤ idx ∧ idx < i then delta else 0) := by
  intro i hi1 hi2
  show FenwickTree.updateLoop (t.n + 1) t.tree t.n (idx + 1) delta i = _
  have hlsb1 : 1 ≤ lsbN (idx + 1) := lsbN_pos (by omega)
  have hlsble : lsbN (idx + 1) ≤ idx + 1 := lsbN_le
  rw [updateLoop_spec delta (idx + 1) (t.n + 1) t.tree t.n (idx + 1)
    hn (by omega) (by omega) (by omega) (by omega) i hi1 hi2]
  congr 1
  by_cases h : i - lsbN i ≤ idx ∧ idx < i
  · rw [if_pos (by omega), if_pos h]
  · rw [if_neg (by omega), if_neg h]

theorem update_n (t : FenwickTree) (idx : Nat) (delta : Int) :
    (t.update idx delta).n = t.n := rfl

theorem update_Inv {t : FenwickTree} {a : Nat → Int} (hn : t.n < 2 ^ 64)
    (hInv : t.Inv a) (idx : Nat) (delta : Int) :
    (t.update idx delta).Inv (fun i => if i = idx then a i + delta else a i) := by
  intro i hi1 hi2
  rw [update_n] at hi2
  rw [update_tree_spec t idx delta hn i hi1 hi2, hInv i hi1 hi2]
  have hrhs : ∑ j ∈ Finset.Ico (i - lsbN i) i, (if j = idx then a j + delta else a j)
      = (∑ j ∈ Finset.Ico (i - lsbN i) i, a j)
        + (if idx ∈ Finset.Ico (i - lsbN i) i then delta else 0) := by
    rw [← Finset.sum_ite_eq' (Finset.Ico (i - lsbN i) i) idx (fun _ => delta),
      ← Finset.sum_add_distrib]
    apply Finset.sum_congr rfl
    intro j _
    by_cases h : j = idx <;> simp [h]
  rw [hrhs]
  congr 1
  have hiff : (i - lsbN i ≤ idx ∧ idx < i) ↔ idx ∈ Finset.Ico (i - lsbN i) i := by
    rw [Finset.mem_Ico]
  rw [if_congr hiff rfl rfl]

theorem prefixLoop_spec {t : FenwickTree} {a : Nat → Int} (hn : t.n < 2 ^ 64)
    (hInv : t.Inv a) :
    ∀ fuel i acc, i ≤ t.n → i < fuel →
      FenwickTree.prefixLoop fuel t.tree i acc
        = acc + ∑ j ∈ Finset.Ico 0 i, a j := by
  intro fuel
  induction fuel with
  | zero => intro i acc _ h; omega
  | succ fuel ih =>
    intro i acc hi hfuel
    simp only [FenwickTree.prefixLoop]
    rcases Nat.eq_zero_or_pos i with h0 | hpos
    · subst h0
      simp
    · rw [if_pos hpos]
      have hlow : lowbit i = lsbN i := lowbit_eq_lsbN hpos (by omega)
      have hlsb1 : 1 ≤ lsbN i := lsbN_pos hpos
      have hlsble : lsbN i ≤ i := lsbN_le
      rw [hlow, ih (i - lsbN i) (acc + t.tree i) (by omega) (by omega),
        hInv i hpos hi]
      have hsplit := Finset.sum_Ico_consecutive a
        (Nat.zero_le (i - lsbN i)) (Nat.sub_le i (lsbN i))
      omega

theorem prefix_sum_spec {t : FenwickTree} {a : Nat → Int} (hn : t.n < 2 ^ 64)
    (hInv : t.Inv a) {idx : Nat} (hidx : idx < t.n) :
    t.prefix_sum idx = ∑ j ∈ Finset.Ico 0 (idx + 1), a j := by
  have := prefixLoop_spec hn hInv (idx + 2) (idx + 1) 0 (by omega) (by omega)
  rw [FenwickTree.prefix_sum, this]
  omega

theorem range_sum_spec {t : FenwickTree} {a : Nat → Int} (hn : t.n < 2 ^ 64)
    (hInv : t.Inv a) {l r : Nat} (hlr : l ≤ r) (hr : r < t.n) :
    t.range_sum l r = ∑ j ∈ Finset.Ico l (r + 1), a j := by
  rw [FenwickTree.range_sum]
  rcases Nat.eq_zero_or_pos l with h0 | hpos
  · subst h0
    rw [if_pos rfl, prefix_sum_spec hn hInv hr]
  · rw [if_neg (by omega), prefix_sum_spec hn hInv hr,
      prefix_sum_spec hn hInv (by omega : l - 1 < t.n)]
    have hl1 : l - 1 + 1 = l := by omega
    rw [hl1]
    have hsplit := Finset.sum_Ico_consecutive a
      (Nat.zero_le l) (by omega : l ≤ r + 1)
    omega

theorem applyUpdates_n (t : FenwickTree) (us : List (Nat × Int)) :
    (t.applyUpdates us).n = t.n := by
  induction us generalizing t with
  | nil => rfl
  | cons u us ih => exact ih (t.update u.1 u.2)

theorem applyUpdates_Inv : ∀ (us : List (Nat × Int)) (t : FenwickTree)
    (a : Nat → Int), t.n < 2 ^ 64 → t.Inv a →
    (t.applyUpdates us).Inv (refPointUpdates a us) := by
  intro us
  induction us with
  | nil => intro t a _ h; exact h
  | cons u us ih =>
    intro t a hn hInv
    exact ih (t.update u.1 u.2) _ hn (update_Inv hn hInv u.1 u.2)

theorem new_Inv (n : Nat) : (FenwickTree.new n).Inv (fun _ => 0) := by
  intro i _ _
  simp [FenwickTree.new]

theorem fenwick_Inv_congr {t : FenwickTree} {a b : Nat → Int}
    (hab : ∀ j, j < t.n → a j = b j) (hInv : t.Inv a) : t.Inv b := by
  intro i hi1 hi2
  rw [hInv i hi1 hi2]
  apply Finset.sum_congr rfl
  intro j hj
  rw [Finset.mem_Ico] at hj
  exact hab j (by have := lsbN_le (k := i); omega)

theorem refPointUpdates_enumFrom : ∀ (arr : List Int) (k : Nat) (a : Nat → Int)
    (j : Nat), refPointUpdates a (arr.enumFrom k) j
      = a j + (if k ≤ j ∧ j < k + arr.length then arr.getD (j - k) 0 else 0) := by
  intro arr
  induction arr with
  | nil => intro k a j; simp [refPointUpdates]
  | cons x xs ih =>
    intro k a j
    rw [List.enumFrom_cons]
    show refPointUpdates (fun i => if i = k then a i + x else a i)
      (xs.enumFrom (k + 1)) j = _
    rw [ih (k + 1) _ j]
    by_cases hjk : j = k
    · subst hjk
      rw [if_pos rfl, if_neg (by omega), if_pos (by simp)]
      simp
    · rw [if_neg hjk]
      by_cases hrange : k + 1 ≤ j ∧ j < k + 1 + xs.length
      · rw [if_pos hrange, if_pos (by simp only [List.length_cons]; omega)]
        have hgt : j - k = (j - (k + 1)) + 1 := by omega
        rw [hgt]
        simp
      · rw [if_neg hrange, if_neg (by simp only [List.length_cons]; omega)]

/-- `from_array` is the fold of `update` over the enumerated array. -/
theorem from_array_eq (arr : List Int) :
    FenwickTree.from_array arr
      = (FenwickTree.new arr.length).applyUpdates arr.enum := rfl

theorem from_array_Inv (arr : List Int) (hn : arr.length < 2 ^ 64) :
    (FenwickTree.from_array arr).Inv (fun j => arr.getD j 0) := by
  rw [from_array_eq]
  refine fenwick_Inv_congr ?_ (applyUpdates_Inv arr.enum (FenwickTree.new arr.length)
    (fun _ => 0) hn (new_Inv arr.length))
  intro j hj
  rw [applyUpdates_n] at hj
  have hj' : j < arr.length := hj
  rw [List.enum_eq_enumFrom, refPointUpdates_enumFrom arr 0 _ j,
    if_pos (by omega)]
  simp

theorem from_array_n (arr : List Int) :
    (FenwickTree.from_array arr).n = arr.length := by
  rw [from_array_eq, applyUpdates_n]
  rfl

/-- C2: after any sequence of `update(idx, delta)` calls with indices below
the constructed size `n` (seeded either by `from_array` or by `new`, the
all-zero array), every `range_sum(l, r)` with `l ≤ r < n` and every
`prefix_sum(idx)` with `idx < n` equals the brute-force sum over the
reference array maintained element-wise.  The bound `n < 2^63` makes the
64-bit index arithmetic of the Rust loop exact (a larger backing `Vec<i64>`
cannot exist in a 64-bit address space). -/
theorem fenwick_matches_reference (n : Nat) (arr : List Int)
    (us : List (Nat × Int)) (hn : n < 2 ^ 63) (harr : arr.length = n)
    (hus : ∀ u ∈ us, u.1 < n) :
    ((∀ l r, l ≤ r → r < n →
        ((FenwickTree.from_array arr).applyUpdates us).range_sum l r
          = ∑ j ∈ Finset.Ico l (r + 1),
              refPointUpdates (fun j => arr.getD j 0) us j)
      ∧ (∀ idx, idx < n →
        ((FenwickTree.from_array arr).applyUpdates us).prefix_sum idx
          = ∑ j ∈ Finset.Ico 0 (idx + 1),
              refPointUpdates (fun j => arr.getD j 0) us j))
    ∧ ((∀ l r, l ≤ r → r < n →
        ((FenwickTree.new n).applyUpdates us).range_sum l r
          = ∑ j ∈ Finset.Ico l (r + 1), refPointUpdates (fun _ => 0) us j)
      ∧ (∀ idx, idx < n →
        ((FenwickTree.new n).applyUpdates us).prefix_sum idx
          = ∑ j ∈ Finset.Ico 0 (idx + 1), refPointUpdates (fun _ => 0) us j)) := by
  have hn64 : n < 2 ^ 64 := by
    have : (2 : Nat) ^ 63 < 2 ^ 64 := by norm_num
    omega
  constructor
  · have hA : (FenwickTree.from_array arr).n < 2 ^ 64 := by
      rw [from_array_n]; omega
    have hInv := applyUpdates_Inv us (FenwickTree.from_array arr)
      (fun j => arr.getD j 0) hA (from_array_Inv arr (by omega))
    have hN : ((FenwickTree.from_array arr).applyUpdates us).n = n := by
      rw [applyUpdates_n, from_array_n, harr]
    constructor
    · intro l r hlr hr
      exact range_sum_spec (by rw [hN]; omega) hInv hlr (by rw [hN]; omega)
    · intro idx hidx
      exact prefix_sum_spec (by rw [hN]; omega) hInv (by rw [hN]; omega)
  · have hB : (FenwickTree.new n).n < 2 ^ 64 := hn64
    have hInv := applyUpdates_Inv us (FenwickTree.new n)
      (fun _ => 0) hB (new_Inv n)
    have hN : ((FenwickTree.new n).applyUpdates us).n = n := applyUpdates_n _ _
    constructor
    · intro l r hlr hr
      exact range_sum_spec (by rw [hN]; omega) hInv hlr (by rw [hN]; omega)
    · intro idx hidx
      exact prefix_sum_spec (by rw [hN]; omega) hInv (by rw [hN]; omega)

/-- Witness for C2: the theorem applied at `n = 2`, `arr = [1, 2]`,
`us = [(0, 3)]`, checking `range_sum 0 1 = 6`. -/
theorem fenwick_matches_reference_witness :
    (2 < 2 ^ 63) ∧ ([(1 : Int), 2].length = 2)
      ∧ (∀ u ∈ [((0 : Nat), (3 : Int))], u.1 < 2)
      ∧ ((FenwickTree.from_array [1, 2]).applyUpdates [(0, 3)]).range_sum 0 1
          = ∑ j ∈ Finset.Ico 0 2, refPointUpdates (fun j =>
              ([(1 : Int), 2]).getD j 0) [(0, 3)] j :=
  ⟨by norm_num, rfl, by decide,
    ((fenwick_matches_reference 2 [1, 2] [(0, 3)] (by norm_num) rfl
      (by decide)).1.1 0 1 (by omega) (by omega))⟩

/-- C8 counterexample: on `from_array [1,3,5,7,9,11]`, after `update(1, 2)`
the prefix sum through index 2 is `1 + 5 + 5 = 11`, not 17 (17 is the value
for the different seed array used by the repository's own update test). -/
theorem fenwick_scenario_claim_false :
    ((FenwickTree.from_array [1, 3, 5, 7, 9, 11]).update 1 2).prefix_sum 2
      ≠ 17 := by decide

/-- C8 (amended): on `from_array [1,3,5,7,9,11]`, `range_sum(1,3) = 15`, and
after `update(1, 2)`, `prefix_sum(2) = 11`. -/
theorem fenwick_scenario_amended :
    (FenwickTree.from_array [1, 3, 5, 7, 9, 11]).range_sum 1 3 = 15
      ∧ ((FenwickTree.from_array [1, 3, 5, 7, 9, 11]).update 1 2).prefix_sum 2
          = 11 := by decide

/-- C3: the uniform no-out-of-bounds policy is violated by the code:
`FenwickTree::new(1).prefix_sum(1)` reads `tree[2]` in a vector of length 2,
and `UnionFind::new(1).find(1)` reads `parent[1]` in a vector of length 1;
both abort instead of reporting out-of-range or performing a safe no-op
(modelled by the instrumented bounds-checked variants returning `none`). -/
theorem oob_access_violates_policy :
    FenwickTree.prefix_sum_checked 3 (FenwickTree.new 1) 1 = none
      ∧ UnionFind.find_checked 2 (UnionFind.new 1) 1 = none :=
  ⟨rfl, rfl⟩

/-- C7 counterexample: on the array `[1,3,5,7,9,11]`, after
`update_range(1, 3, 10)` the sum over `[0, 4]` is
`1 + 13 + 15 + 17 + 9 = 55`, not 45 (45 is the value for the different seed
array `[1,2,3,4,5]` used by the repository's own range-update test). -/
theorem sum_tree_scenario_claim_false :
    ((((SumSegmentTree.from_array [1, 3, 5, 7, 9, 11]).update_range 1 3 10).query
        0 4).2 : Int) ≠ 45 := by decide

/-- C7 (amended): on `from_array [1,3,5,7,9,11]`, `query(0,2) = 9`, and after
`update_range(1, 3, 10)`, `query(0,4) = 55`. -/
theorem sum_tree_scenario_amended :
    ((SumSegmentTree.from_array [1, 3, 5, 7, 9, 11]).query 0 2).2 = 9
      ∧ ((((SumSegmentTree.from_array [1, 3, 5, 7, 9, 11]).update_range 1 3 10).query
          0 4).2 : Int) = 55 := by decide

theorem inSub_self (r : Nat) : inSub r r :=
  ⟨0, by simp⟩

theorem inSub_left {r j : Nat} (h : inSub (2 * r) j) : inSub r j := by
  obtain ⟨k, hk⟩ := h
  refine ⟨k + 1, ?_⟩
  rw [pow_succ, ← Nat.div_div_eq_div_mul, hk]
  omega

theorem inSub_right {r j : Nat} (h : inSub (2 * r + 1) j) : inSub r j := by
  obtain ⟨k, hk⟩ := h
  refine ⟨k + 1, ?_⟩
  rw [pow_succ, ← Nat.div_div_eq_div_mul, hk]
  omega

theorem le_of_inSub {r j : Nat} (h : inSub r j) : r ≤ j := by
  obtain ⟨k, hk⟩ := h
  subst hk
  exact Nat.div_le_self j (2 ^ k)

theorem sibling_disjoint {r j : Nat} (hr : 1 ≤ r) (h1 : inSub (2 * r) j)
    (h2 : inSub (2 * r + 1) j) : False := by
  obtain ⟨k, hk⟩ := h1
  obtain ⟨m, hm⟩ := h2
  rcases Nat.lt_trichotomy k m with hkm | hkm | hkm
  · have hdd : j / 2 ^ m = (j / 2 ^ k) / 2 ^ (m - k) := by
      rw [Nat.div_div_eq_div_mul, ← pow_add]
      congr 2
      omega
    rw [hk] at hdd
    have h2m : 2 ≤ 2 ^ (m - k) := by
      have : 1 ≤ m - k := by omega
      calc 2 = 2 ^ 1 := by norm_num
        _ ≤ 2 ^ (m - k) := Nat.pow_le_pow_right (by norm_num) this
    have hle : 2 * r / 2 ^ (m - k) ≤ 2 * r / 2 := by
      exact Nat.div_le_div_left h2m (by norm_num)
    rw [hdd] at hm
    omega
  · subst hkm
    rw [hk] at hm
    omega
  · have hdd : j / 2 ^ k = (j / 2 ^ m) / 2 ^ (k - m) := by
      rw [Nat.div_div_eq_div_mul, ← pow_add]
      congr 2
      omega
    rw [hm] at hdd
    have h2m : 2 ≤ 2 ^ (k - m) := by
      have : 1 ≤ k - m := by omega
      calc 2 = 2 ^ 1 := by norm_num
        _ ≤ 2 ^ (k - m) := Nat.pow_le_pow_right (by norm_num) this
    have hle : (2 * r + 1) / 2 ^ (k - m) ≤ (2 * r + 1) / 2 := by
      exact Nat.div_le_div_left h2m (by norm_num)
    rw [hdd] at hk
    omega

theorem inSub_child_left (r : Nat) : inSub r (2 * r) :=
  ⟨1, by omega⟩

theorem inSub_child_right (r : Nat) : inSub r (2 * r + 1) :=
  ⟨1, by omega⟩

theorem not_inSub_left_self {r : Nat} (hr : 1 ≤ r) : ¬ inSub (2 * r) r := by
  intro h
  have := le_of_inSub h
  omega

theorem not_inSub_right_self {r : Nat} : ¬ inSub (2 * r + 1) r := by
  intro h
  have := le_of_inSub h
  omega

theorem not_inSub_left_sibling {r : Nat} (hr : 1 ≤ r) :
    ¬ inSub (2 * r) (2 * r + 1) :=
  fun h => sibling_disjoint hr h (inSub_self (2 * r + 1))

theorem not_inSub_right_sibling {r : Nat} (hr : 1 ≤ r) :
    ¬ inSub (2 * r + 1) (2 * r) :=
  fun h => sibling_disjoint hr (inSub_self (2 * r)) h

theorem SumSegmentTree.elemVal_leaf (t : SumSegmentTree) {s e : Nat}
    (h : s = e) (node i : Nat) :
    t.elemVal node s e i = t.tree node + t.lazy node := by
  rw [SumSegmentTree.elemVal, if_pos h]

theorem SumSegmentTree.elemVal_node (t : SumSegmentTree) {s e : Nat}
    (h : s < e) (node i : Nat) :
    t.elemVal node s e i = t.lazy node +
      (if i ≤ (s + e) / 2 then t.elemVal (2 * node) s ((s + e) / 2) i
       else t.elemVal (2 * node + 1) ((s + e) / 2 + 1) e i) := by
  rw [SumSegmentTree.elemVal, if_neg (by omega), if_neg (by omega)]

theorem SumSegmentTree.Inv_degenerate (t : SumSegmentTree) {s e : Nat}
    (h : e ≤ s) (node : Nat) : t.Inv node s e := by
  rw [SumSegmentTree.Inv]
  rcases Nat.eq_or_lt_of_le h with h1 | h1
  · rw [if_pos h1.symm]
    trivial
  · rw [if_neg (by omega), if_pos h]
    trivial

theorem SumSegmentTree.Inv_node (t : SumSegmentTree) {s e : Nat} (h : s < e)
    (node : Nat) :
    t.Inv node s e ↔
      (t.tree node
          = intervalSum (t.elemVal (2 * node) s ((s + e) / 2)) s ((s + e) / 2)
            + intervalSum (t.elemVal (2 * node + 1) ((s + e) / 2 + 1) e)
                ((s + e) / 2 + 1) e
        ∧ t.Inv (2 * node) s ((s + e) / 2)
        ∧ t.Inv (2 * node + 1) ((s + e) / 2 + 1) e) := by
  conv_lhs => rw [SumSegmentTree.Inv]
  rw [if_neg (by omega), if_neg (by omega)]

theorem SumSegmentTree.elemVal_low (t : SumSegmentTree) {s e : Nat}
    (h : e < s) (node i : Nat) : t.elemVal node s e i = 0 := by
  rw [SumSegmentTree.elemVal, if_neg (by omega), if_pos (by omega)]

/-- `elemVal` at `node` only reads slots inside the subtree of `node`. -/
theorem SumSegmentTree.elemVal_congr : ∀ (d : Nat) (t1 t2 : SumSegmentTree)
    (node s e i : Nat), e - s ≤ d →
    (∀ j, inSub node j → t1.tree j = t2.tree j ∧ t1.lazy j = t2.lazy j) →
    t1.elemVal node s e i = t2.elemVal node s e i := by
  intro d
  induction d with
  | zero =>
    intro t1 t2 node s e i hd hagree
    rcases Nat.lt_trichotomy s e with h | h | h
    · omega
    · subst h
      rw [t1.elemVal_leaf rfl, t2.elemVal_leaf rfl,
        (hagree node (inSub_self node)).1, (hagree node (inSub_self node)).2]
    · rw [t1.elemVal_low h, t2.elemVal_low h]
  | succ d ih =>
    intro t1 t2 node s e i hd hagree
    rcases Nat.lt_trichotomy s e with h | h | h
    · rw [t1.elemVal_node h, t2.elemVal_node h,
        (hagree node (inSub_self node)).2]
      congr 1
      by_cases hi : i ≤ (s + e) / 2
      · rw [if_pos hi, if_pos hi]
        exact ih t1 t2 (2 * node) s ((s + e) / 2) i (by omega)
          (fun j hj => hagree j (inSub_left hj))
      · rw [if_neg hi, if_neg hi]
        exact ih t1 t2 (2 * node + 1) ((s + e) / 2 + 1) e i (by omega)
          (fun j hj => hagree j (inSub_right hj))
    · subst h
      rw [t1.elemVal_leaf rfl, t2.elemVal_leaf rfl,
        (hagree node (inSub_self node)).1, (hagree node (inSub_self node)).2]
    · rw [t1.elemVal_low h, t2.elemVal_low h]

/-- `Inv` at `node` only reads slots inside the subtree of `node`, and never
the pending delta of `node` itself. -/
theorem SumSegmentTree.Inv_congr : ∀ (d : Nat) (t1 t2 : SumSegmentTree)
    (node s e : Nat), 1 ≤ node → e - s ≤ d →
    (∀ j, inSub node j → t1.tree j = t2.tree j
      ∧ (j ≠ node → t1.lazy j = t2.lazy j)) →
    t1.Inv node s e → t2.Inv node s e := by
  intro d
  induction d with
  | zero =>
    intro t1 t2 node s e hnode hd hagree _
    exact t2.Inv_degenerate (by omega) node
  | succ d ih =>
    intro t1 t2 node s e hnode hd hagree hInv
    rcases Nat.lt_or_ge s e with h | h
    · rw [t1.Inv_node h] at hInv
      rw [t2.Inv_node h]
      obtain ⟨heq, hl, hr⟩ := hInv
      have hagl : ∀ j, inSub (2 * node) j →
          t1.tree j = t2.tree j ∧ t1.lazy j = t2.lazy j := by
        intro j hj
        have hge := le_of_inSub hj
        exact ⟨(hagree j (inSub_left hj)).1,
          (hagree j (inSub_left hj)).2 (by omega)⟩
      have hagr : ∀ j, inSub (2 * node + 1) j →
          t1.tree j = t2.tree j ∧ t1.lazy j = t2.lazy j := by
        intro j hj
        have hge := le_of_inSub hj
        exact ⟨(hagree j (inSub_right hj)).1,
          (hagree j (inSub_right hj)).2 (by omega)⟩
      refine ⟨?_, ?_, ?_⟩
      · rw [← (hagree node (inSub_self node)).1, heq]
        congr 1
        · apply Finset.sum_congr rfl
          intro i _
          exact t1.elemVal_congr d t2 (2 * node) s ((s + e) / 2) i (by omega) hagl
        · apply Finset.sum_congr rfl
          intro i _
          exact t1.elemVal_congr d t2 (2 * node + 1) ((s + e) / 2 + 1) e i
            (by omega) hagr
      · exact ih t1 t2 (2 * node) s ((s + e) / 2) (by omega) (by omega)
          (fun j hj => ⟨(hagl j hj).1, fun _ => (hagl j hj).2⟩) hl
      · exact ih t1 t2 (2 * node + 1) ((s + e) / 2 + 1) e (by omega) (by omega)
          (fun j hj => ⟨(hagr j hj).1, fun _ => (hagr j hj).2⟩) hr
    · exact t2.Inv_degenerate h node

/-- Bumping the pending delta at the root of a subtree raises every
represented element of that subtree by the same amount. -/
theorem SumSegmentTree.elemVal_lazy_add (t t' : SumSegmentTree) (c : Nat)
    (hc : 1 ≤ c) (d : Int) (htree : t'.tree = t.tree)
    (hlazy : t'.lazy = Function.update t.lazy c (t.lazy c + d))
    (s e i : Nat) (hse : s ≤ e) :
    t'.elemVal c s e i = t.elemVal c s e i + d := by
  rcases Nat.eq_or_lt_of_le hse with he | he
  · rw [t'.elemVal_leaf he, t.elemVal_leaf he, htree, hlazy,
      Function.update_same]
    ring
  · rw [t'.elemVal_node he, t.elemVal_node he, hlazy, Function.update_same]
    have hagl : ∀ j, inSub (2 * c) j →
        t'.tree j = t.tree j ∧ t'.lazy j = t.lazy j := by
      intro j hj
      have := le_of_inSub hj
      exact ⟨by rw [htree], by rw [hlazy]; exact Function.update_noteq (by omega) _ _⟩
    have hagr : ∀ j, inSub (2 * c + 1) j →
        t'.tree j = t.tree j ∧ t'.lazy j = t.lazy j := by
      intro j hj
      have := le_of_inSub hj
      exact ⟨by rw [htree], by rw [hlazy]; exact Function.update_noteq (by omega) _ _⟩
    by_cases hi : i ≤ (s + e) / 2
    · rw [if_pos hi, if_pos hi,
        SumSegmentTree.elemVal_congr ((s + e) / 2 - s) t' t (2 * c) s
          ((s + e) / 2) i (by omega) hagl]
      ring
    · rw [if_neg hi, if_neg hi,
        SumSegmentTree.elemVal_congr (e - ((s + e) / 2 + 1)) t' t (2 * c + 1)
          ((s + e) / 2 + 1) e i (by omega) hagr]
      ring

theorem SumSegmentTree.push_os (t : SumSegmentTree) (node s e : Nat) :
    (t.push node s e).original_size = t.original_size := by
  rw [SumSegmentTree.push]
  by_cases h : t.lazy node ≠ 0
  · rw [if_pos h]
    by_cases hse : s ≠ e <;> simp [hse]
  · rw [if_neg h]

theorem SumSegmentTree.push_tree_node (t : SumSegmentTree) (node s e : Nat) :
    (t.push node s e).tree node
      = t.tree node + t.lazy node * ((e - s + 1 : Nat) : Int) := by
  rw [SumSegmentTree.push]
  by_cases h : t.lazy node ≠ 0
  · rw [if_pos h]
    by_cases hse : s ≠ e <;> simp [hse]
  · rw [if_neg h]
    push_neg at h
    rw [h]
    ring

theorem SumSegmentTree.push_tree_other (t : SumSegmentTree) (node s e : Nat)
    {j : Nat} (hj : j ≠ node) :
    (t.push node s e).tree j = t.tree j := by
  rw [SumSegmentTree.push]
  by_cases h : t.lazy node ≠ 0
  · rw [if_pos h]
    by_cases hse : s ≠ e <;> simp [hse, Function.update_noteq hj]
  · rw [if_neg h]

theorem SumSegmentTree.push_lazy_node (t : SumSegmentTree) (node s e : Nat) :
    (t.push node s e).lazy node = 0 := by
  rw [SumSegmentTree.push]
  by_cases h : t.lazy node ≠ 0
  · rw [if_pos h]
    by_cases hse : s ≠ e <;> simp [hse]
  · rw [if_neg h]
    push_neg at h
    exact h

theorem SumSegmentTree.push_lazy_left (t : SumSegmentTree) {node : Nat}
    (hnode : 1 ≤ node) {s e : Nat} (hse : s ≠ e) :
    (t.push node s e).lazy (2 * node) = t.lazy (2 * node) + t.lazy node := by
  rw [SumSegmentTree.push]
  by_cases h : t.lazy node ≠ 0
  · rw [if_pos h]
    have h1 : 2 * node ≠ node := by omega
    have h2 : 2 * node ≠ 2 * node + 1 := by omega
    simp [hse, Function.update_noteq h1, Function.update_noteq h2]
  · rw [if_neg h]
    push_neg at h
    rw [h]
    ring

theorem SumSegmentTree.push_lazy_right (t : SumSegmentTree) {node : Nat}
    (hnode : 1 ≤ node) {s e : Nat} (hse : s ≠ e) :
    (t.push node s e).lazy (2 * node + 1)
      = t.lazy (2 * node + 1) + t.lazy node := by
  rw [SumSegmentTree.push]
  by_cases h : t.lazy node ≠ 0
  · rw [if_pos h]
    have h1 : 2 * node + 1 ≠ node := by omega
    have h2 : 2 * node + 1 ≠ 2 * node := by omega
    have h3 : node ≠ 2 * node := by omega
    simp [hse, Function.update_noteq h1, Function.update_noteq h2,
      Function.update_noteq h3]
  · rw [if_neg h]
    push_neg at h
    rw [h]
    ring

theorem SumSegmentTree.push_lazy_other (t : SumSegmentTree) (node s e : Nat)
    {j : Nat} (h1 : j ≠ node) (h2 : j ≠ 2 * node) (h3 : j ≠ 2 * node + 1) :
    (t.push node s e).lazy j = t.lazy j := by
  rw [SumSegmentTree.push]
  by_cases h : t.lazy node ≠ 0
  · rw [if_pos h]
    by_cases hse : s ≠ e <;>
      simp [hse, Function.update_noteq h1, Function.update_noteq h2,
        Function.update_noteq h3]
  · rw [if_neg h]

theorem SumSegmentTree.push_lazy_leaf (t : SumSegmentTree) (node : Nat)
    {s e : Nat} (hse : s = e) {j : Nat} (hj : j ≠ node) :
    (t.push node s e).lazy j = t.lazy j := by
  rw [SumSegmentTree.push]
  by_cases h : t.lazy node ≠ 0
  · rw [if_pos h]
    simp [hse, Function.update_noteq hj]
  · rw [if_neg h]

/-- After `push node`, each element of the left child's subtree gains the
pushed-down delta. -/
theorem SumSegmentTree.push_elemVal_left (t : SumSegmentTree) {node : Nat}
    (hnode : 1 ≤ node) {s e : Nat} (hse : s ≠ e) (s' e' i : Nat)
    (hse2 : s' ≤ e') :
    (t.push node s e).elemVal (2 * node) s' e' i
      = t.elemVal (2 * node) s' e' i + t.lazy node := by
  have hcong : (t.push node s e).elemVal (2 * node) s' e' i
      = SumSegmentTree.elemVal
          { t with lazy := (Function.update t.lazy (2 * node)
              (t.lazy (2 * node) + t.lazy node)) } (2 * node) s' e' i := by
    apply SumSegmentTree.elemVal_congr (e' - s')
    · omega
    · intro j hj
      have hge := le_of_inSub hj
      by_cases hj2 : j = 2 * node
      · subst hj2
        refine ⟨t.push_tree_other node s e (by omega), ?_⟩
        rw [t.push_lazy_left hnode hse]
        exact (Function.update_same (2 * node)
          (t.lazy (2 * node) + t.lazy node) t.lazy).symm
      · have hjs : ¬ inSub (2 * node) (2 * node + 1) := not_inSub_left_sibling hnode
        have hj3 : j ≠ 2 * node + 1 := fun hx => hjs (hx ▸ hj)
        refine ⟨t.push_tree_other node s e (by omega), ?_⟩
        rw [t.push_lazy_other node s e (by omega) hj2 hj3]
        exact (Function.update_noteq hj2
          (t.lazy (2 * node) + t.lazy node) t.lazy).symm
  rw [hcong]
  exact SumSegmentTree.elemVal_lazy_add t
    { t with lazy := (Function.update t.lazy (2 * node)
        (t.lazy (2 * node) + t.lazy node)) }
    (2 * node) (by omega) (t.lazy node) rfl rfl s' e' i hse2

/-- After `push node`, each element of the right child's subtree gains the
pushed-down delta. -/
theorem SumSegmentTree.push_elemVal_right (t : SumSegmentTree) {node : Nat}
    (hnode : 1 ≤ node) {s e : Nat} (hse : s ≠ e) (s' e' i : Nat)
    (hse2 : s' ≤ e') :
    (t.push node s e).elemVal (2 * node + 1) s' e' i
      = t.elemVal (2 * node + 1) s' e' i + t.lazy node := by
  have hcong : (t.push node s e).elemVal (2 * node + 1) s' e' i
      = SumSegmentTree.elemVal
          { t with lazy := (Function.update t.lazy (2 * node + 1)
              (t.lazy (2 * node + 1) + t.lazy node)) } (2 * node + 1) s' e' i := by
    apply SumSegmentTree.elemVal_congr (e' - s')
    · omega
    · intro j hj
      have hge := le_of_inSub hj
      by_cases hj2 : j = 2 * node + 1
      · subst hj2
        refine ⟨t.push_tree_other node s e (by omega), ?_⟩
        rw [t.push_lazy_right hnode hse]
        exact (Function.update_same (2 * node + 1)
          (t.lazy (2 * node + 1) + t.lazy node) t.lazy).symm
      · have hjs : ¬ inSub (2 * node + 1) (2 * node) := not_inSub_right_sibling hnode
        have hj3 : j ≠ 2 * node := fun hx => hjs (hx ▸ hj)
        refine ⟨t.push_tree_other node s e (by omega), ?_⟩
        rw [t.push_lazy_other node s e (by omega) hj3 hj2]
        exact (Function.update_noteq hj2
          (t.lazy (2 * node + 1) + t.lazy node) t.lazy).symm
  rw [hcong]
  exact SumSegmentTree.elemVal_lazy_add t
    { t with lazy := (Function.update t.lazy (2 * node + 1)
        (t.lazy (2 * node + 1) + t.lazy node)) }
    (2 * node + 1) (by omega) (t.lazy node) rfl rfl s' e' i hse2

/-- `push` preserves every element represented by its subtree. -/
theorem SumSegmentTree.push_elemVal (t : SumSegmentTree) {node : Nat}
    (hnode : 1 ≤ node) (s e : Nat) :
    ∀ i, (t.push node s e).elemVal node s e i = t.elemVal node s e i := by
  intro i
  rcases Nat.lt_trichotomy s e with h | h | h
  · rw [(t.push node s e).elemVal_node h, t.elemVal_node h,
      t.push_lazy_node node s e]
    by_cases hi : i ≤ (s + e) / 2
    · rw [if_pos hi, if_pos hi,
        t.push_elemVal_left hnode (by omega) s ((s + e) / 2) i (by omega)]
      ring
    · rw [if_neg hi, if_neg hi,
        t.push_elemVal_right hnode (by omega) ((s + e) / 2 + 1) e i (by omega)]
      ring
  · subst h
    rw [(t.push node s s).elemVal_leaf rfl, t.elemVal_leaf rfl,
      t.push_tree_node node s s, t.push_lazy_node node s s]
    norm_num
  · rw [(t.push node s e).elemVal_low h, t.elemVal_low h]

/-- After `push`, the stored sum at `node` is the full represented sum of its
range (the pending delta having been folded in). -/
theorem SumSegmentTree.push_sum (t : SumSegmentTree) {node : Nat}
    (hnode : 1 ≤ node) {s e : Nat} (hse : s ≤ e) (hInv : t.Inv node s e) :
    (t.push node s e).tree node = intervalSum (t.elemVal node s e) s e := by
  rcases Nat.eq_or_lt_of_le hse with h | h
  · subst h
    rw [t.push_tree_node node s s, intervalSum, Nat.Ico_succ_singleton,
      Finset.sum_singleton, t.elemVal_leaf rfl]
    norm_num
  · rw [t.push_tree_node node s e]
    rw [t.Inv_node h] at hInv
    obtain ⟨heq, _, _⟩ := hInv
    rw [heq]
    simp only [intervalSum]
    rw [← Finset.sum_Ico_consecutive (t.elemVal node s e)
      (by omega : s ≤ (s + e) / 2 + 1) (by omega : (s + e) / 2 + 1 ≤ e + 1)]
    have h1 : ∑ i ∈ Finset.Ico s ((s + e) / 2 + 1), t.elemVal node s e i
        = ∑ i ∈ Finset.Ico s ((s + e) / 2 + 1),
            (t.lazy node + t.elemVal (2 * node) s ((s + e) / 2) i) := by
      apply Finset.sum_congr rfl
      intro i hi
      rw [Finset.mem_Ico] at hi
      rw [t.elemVal_node h, if_pos (by omega)]
    have h2 : ∑ i ∈ Finset.Ico ((s + e) / 2 + 1) (e + 1), t.elemVal node s e i
        = ∑ i ∈ Finset.Ico ((s + e) / 2 + 1) (e + 1),
            (t.lazy node + t.elemVal (2 * node + 1) ((s + e) / 2 + 1) e i) := by
      apply Finset.sum_congr rfl
      intro i hi
      rw [Finset.mem_Ico] at hi
      rw [t.elemVal_node h, if_neg (by omega)]
    rw [h1, h2, Finset.sum_add_distrib, Finset.sum_add_distrib,
      Finset.sum_const, Finset.sum_const, Nat.card_Ico, Nat.card_Ico,
      nsmul_eq_mul, nsmul_eq_mul]
    have : ((e - s + 1 : Nat) : Int)
        = (((s + e) / 2 + 1 - s : Nat) : Int)
          + ((e + 1 - ((s + e) / 2 + 1) : Nat) : Int) := by omega
    rw [this]
    ring

/-- `push` preserves the structural invariant. -/
theorem SumSegmentTree.push_Inv (t : SumSegmentTree) {node : Nat}
    (hnode : 1 ≤ node) (s e : Nat) (hInv : t.Inv node s e) :
    (t.push node s e).Inv node s e := by
  rcases Nat.lt_trichotomy s e with h | h | h
  · rw [t.Inv_node h] at hInv
    obtain ⟨heq, hl, hr⟩ := hInv
    rw [(t.push node s e).Inv_node h]
    have hagl : ∀ j, inSub (2 * node) j →
        t.tree j = (t.push node s e).tree j
        ∧ (j ≠ 2 * node → t.lazy j = (t.push node s e).lazy j) := by
      intro j hj
      have hge := le_of_inSub hj
      refine ⟨(t.push_tree_other node s e (by omega)).symm, fun hj2 => ?_⟩
      have hjs : ¬ inSub (2 * node) (2 * node + 1) := not_inSub_left_sibling hnode
      have hj3 : j ≠ 2 * node + 1 := fun hx => hjs (hx ▸ hj)
      exact (t.push_lazy_other node s e (by omega) hj2 hj3).symm
    have hagr : ∀ j, inSub (2 * node + 1) j →
        t.tree j = (t.push node s e).tree j
        ∧ (j ≠ 2 * node + 1 → t.lazy j = (t.push node s e).lazy j) := by
      intro j hj
      have hge := le_of_inSub hj
      refine ⟨(t.push_tree_other node s e (by omega)).symm, fun hj2 => ?_⟩
      have hjs : ¬ inSub (2 * node + 1) (2 * node) := not_inSub_right_sibling hnode
      have hj3 : j ≠ 2 * node := fun hx => hjs (hx ▸ hj)
      exact (t.push_lazy_other node s e (by omega) hj3 hj2).symm
    refine ⟨?_, ?_, ?_⟩
    · rw [t.push_tree_node node s e, heq]
      have hsl : intervalSum ((t.push node s e).elemVal (2 * node) s ((s + e) / 2))
          s ((s + e) / 2)
          = intervalSum (t.elemVal (2 * node) s ((s + e) / 2)) s ((s + e) / 2)
            + (((s + e) / 2 + 1 - s : Nat) : Int) * t.lazy node := by
        rw [intervalSum, intervalSum]
        have : ∀ i ∈ Finset.Ico s ((s + e) / 2 + 1),
            (t.push node s e).elemVal (2 * node) s ((s + e) / 2) i
              = t.elemVal (2 * node) s ((s + e) / 2) i + t.lazy node := by
          intro i _
          exact t.push_elemVal_left hnode (by omega) s ((s + e) / 2) i (by omega)
        rw [Finset.sum_congr rfl this, Finset.sum_add_distrib,
          Finset.sum_const, Nat.card_Ico, nsmul_eq_mul]
      have hsr : intervalSum
            ((t.push node s e).elemVal (2 * node + 1) ((s + e) / 2 + 1) e)
            ((s + e) / 2 + 1) e
          = intervalSum (t.elemVal (2 * node + 1) ((s + e) / 2 + 1) e)
              ((s + e) / 2 + 1) e
            + ((e + 1 - ((s + e) / 2 + 1) : Nat) : Int) * t.lazy node := by
        rw [intervalSum, intervalSum]
        have : ∀ i ∈ Finset.Ico ((s + e) / 2 + 1) (e + 1),
            (t.push node s e).elemVal (2 * node + 1) ((s + e) / 2 + 1) e i
              = t.elemVal (2 * node + 1) ((s + e) / 2 + 1) e i + t.lazy node := by
          intro i _
          exact t.push_elemVal_right hnode (by omega) ((s + e) / 2 + 1) e i (by omega)
        rw [Finset.sum_congr rfl this, Finset.sum_add_distrib,
          Finset.sum_const, Nat.card_Ico, nsmul_eq_mul]
      rw [hsl, hsr]
      have : ((e - s + 1 : Nat) : Int)
          = (((s + e) / 2 + 1 - s : Nat) : Int)
            + ((e + 1 - ((s + e) / 2 + 1) : Nat) : Int) := by omega
      rw [this]
      ring
    · exact SumSegmentTree.Inv_congr ((s + e) / 2 - s) t (t.push node s e)
        (2 * node) s ((s + e) / 2) (by omega) (by omega) hagl hl
    · exact SumSegmentTree.Inv_congr (e - ((s + e) / 2 + 1)) t (t.push node s e)
        (2 * node + 1) ((s + e) / 2 + 1) e (by omega) (by omega) hagr hr
  · exact (t.push node s e).Inv_degenerate (by omega) node
  · exact (t.push node s e).Inv_degenerate (by omega) node

theorem SumSegmentTree.push_frame (t : SumSegmentTree) (node s e : Nat)
    {j : Nat} (hj : ¬ inSub node j) :
    (t.push node s e).tree j = t.tree j
      ∧ (t.push node s e).lazy j = t.lazy j := by
  have h1 : j ≠ node := fun h => hj (by rw [h]; exact inSub_self node)
  have h2 : j ≠ 2 * node := fun h => hj (by rw [h]; exact inSub_child_left node)
  have h3 : j ≠ 2 * node + 1 := fun h =>
    hj (by rw [h]; exact inSub_child_right node)
  exact ⟨t.push_tree_other node s e h1, t.push_lazy_other node s e h1 h2 h3⟩

theorem SumSegmentTree.update_range_helper_frame :
    ∀ (fuel : Nat) (t : SumSegmentTree) (node s e l r : Nat) (val : Int),
    ∀ j, ¬ inSub node j →
      (SumSegmentTree.update_range_helper fuel t node s e l r val).tree j
          = t.tree j
        ∧ (SumSegmentTree.update_range_helper fuel t node s e l r val).lazy j
          = t.lazy j := by
  intro fuel
  induction fuel with
  | zero => intro t node s e l r val j hj; exact ⟨rfl, rfl⟩
  | succ fuel ih =>
    intro t node s e l r val j hj
    have h1 : j ≠ node := fun h => hj (by rw [h]; exact inSub_self node)
    have hjl : ¬ inSub (2 * node) j := fun h => hj (inSub_left h)
    have hjr : ¬ inSub (2 * node + 1) j := fun h => hj (inSub_right h)
    simp only [SumSegmentTree.update_range_helper]
    by_cases hA : r < s ∨ e < l
    · rw [if_pos hA]
      exact t.push_frame node s e hj
    · rw [if_neg hA]
      by_cases hB : l ≤ s ∧ e ≤ r
      · rw [if_pos hB]
        have hp0 := t.push_frame node s e hj
        have hp1 : (SumSegmentTree.lazy
            { t.push node s e with lazy := (Function.update (t.push node s e).lazy
                node ((t.push node s e).lazy node + val)) } j) = t.lazy j := by
          show Function.update (t.push node s e).lazy node
            ((t.push node s e).lazy node + val) j = t.lazy j
          rw [Function.update_noteq h1]
          exact hp0.2
        have hp2 := SumSegmentTree.push_frame
          { t.push node s e with lazy := (Function.update (t.push node s e).lazy
              node ((t.push node s e).lazy node + val)) } node s e hj
        exact ⟨hp2.1.trans hp0.1, hp2.2.trans hp1⟩
      · rw [if_neg hB]
        by_cases hC : e ≤ s
        · rw [if_pos hC]
          exact t.push_frame node s e hj
        · rw [if_neg hC]
          have hp0 := t.push_frame node s e hj
          have hu1 := ih (t.push node s e) (2 * node) s ((s + e) / 2) l r val j hjl
          have hu2 := ih
            (SumSegmentTree.update_range_helper fuel (t.push node s e)
              (2 * node) s ((s + e) / 2) l r val)
            (2 * node + 1) ((s + e) / 2 + 1) e l r val j hjr
          have hp3 := SumSegmentTree.push_frame
            (SumSegmentTree.update_range_helper fuel
              (SumSegmentTree.update_range_helper fuel (t.push node s e)
                (2 * node) s ((s + e) / 2) l r val)
              (2 * node + 1) ((s + e) / 2 + 1) e l r val)
            (2 * node) s ((s + e) / 2) hjl
          have hp4 := SumSegmentTree.push_frame
            ((SumSegmentTree.update_range_helper fuel
              (SumSegmentTree.update_range_helper fuel (t.push node s e)
                (2 * node) s ((s + e) / 2) l r val)
              (2 * node + 1) ((s + e) / 2 + 1) e l r val).push
              (2 * node) s ((s + e) / 2))
            (2 * node + 1) ((s + e) / 2 + 1) e hjr
          constructor
          · exact (Function.update_noteq h1 _ _).trans
              (hp4.1.trans (hp3.1.trans (hu2.1.trans (hu1.1.trans hp0.1))))
          · exact hp4.2.trans (hp3.2.trans (hu2.2.trans (hu1.2.trans hp0.2)))

/-- Transfer `Inv` along states that agree on the subtree. -/
theorem SumSegmentTree.Inv_of_agree {ta tb : SumSegmentTree} {c : Nat}
    (hc : 1 ≤ c)
    (hagree : ∀ j, inSub c j → tb.tree j = ta.tree j ∧ tb.lazy j = ta.lazy j)
    {s' e' : Nat} (h : ta.Inv c s' e') : tb.Inv c s' e' :=
  SumSegmentTree.Inv_congr (e' - s') ta tb c s' e' hc (le_refl _)
    (fun j hj => ⟨(hagree j hj).1.symm, fun _ => (hagree j hj).2.symm⟩) h

/-- Transfer `elemVal` along states that agree on the subtree. -/
theorem SumSegmentTree.elemVal_of_agree {ta tb : SumSegmentTree} {c : Nat}
    (hagree : ∀ j, inSub c j → tb.tree j = ta.tree j ∧ tb.lazy j = ta.lazy j)
    (s' e' i : Nat) : tb.elemVal c s' e' i = ta.elemVal c s' e' i :=
  SumSegmentTree.elemVal_congr (e' - s') tb ta c s' e' i (le_refl _) hagree

/-- A modification confined to the right sibling's subtree leaves the left
subtree untouched. -/
theorem agree_left_of_frame_right {r : Nat} (hr : 1 ≤ r)
    {ta tb : SumSegmentTree}
    (hout : ∀ j, ¬ inSub (2 * r + 1) j →
      tb.tree j = ta.tree j ∧ tb.lazy j = ta.lazy j) :
    ∀ j, inSub (2 * r) j → tb.tree j = ta.tree j ∧ tb.lazy j = ta.lazy j :=
  fun j hj => hout j (fun h => sibling_disjoint hr hj h)

/-- A modification confined to the left sibling's subtree leaves the right
subtree untouched. -/
theorem agree_right_of_frame_left {r : Nat} (hr : 1 ≤ r)
    {ta tb : SumSegmentTree}
    (hout : ∀ j, ¬ inSub (2 * r) j →
      tb.tree j = ta.tree j ∧ tb.lazy j = ta.lazy j) :
    ∀ j, inSub (2 * r + 1) j → tb.tree j = ta.tree j ∧ tb.lazy j = ta.lazy j :=
  fun j hj => hout j (fun h => sibling_disjoint hr h hj)

/-- `update_range_helper` preserves the invariant and adds `val` to exactly
the elements of `[l, r]` within the node's range. -/
theorem SumSegmentTree.update_range_helper_ok :
    ∀ (fuel : Nat) (t : SumSegmentTree) (node s e l r : Nat) (val : Int),
    1 ≤ node → s ≤ e → e - s < fuel → t.Inv node s e →
    (SumSegmentTree.update_range_helper fuel t node s e l r val).Inv node s e
    ∧ ∀ i, s ≤ i → i ≤ e →
        (SumSegmentTree.update_range_helper fuel t node s e l r val).elemVal
            node s e i
          = t.elemVal node s e i + (if l ≤ i ∧ i ≤ r then val else 0) := by
  intro fuel
  induction fuel with
  | zero => intro t node s e l r val hnode hse hfuel hInv; omega
  | succ fuel ih =>
    intro t node s e l r val hnode hse hfuel hInv
    simp only [SumSegmentTree.update_range_helper]
    by_cases hA : r < s ∨ e < l
    · rw [if_pos hA]
      refine ⟨t.push_Inv hnode s e hInv, fun i hi1 hi2 => ?_⟩
      rw [t.push_elemVal hnode s e i, if_neg (by omega)]
      ring
    · rw [if_neg hA]
      by_cases hB : l ≤ s ∧ e ≤ r
      · rw [if_pos hB]
        set t0 := t.push node s e with ht0
        have hInv0 : t0.Inv node s e := t.push_Inv hnode s e hInv
        have hag1 : ∀ j, inSub node j → j ≠ node →
            SumSegmentTree.lazy { t0 with lazy := (Function.update t0.lazy node
              (t0.lazy node + val)) } j = t0.lazy j :=
          fun j _ hjn => Function.update_noteq hjn _ _
        have hInv1 : SumSegmentTree.Inv { t0 with
            lazy := (Function.update t0.lazy node (t0.lazy node + val)) }
            node s e :=
          SumSegmentTree.Inv_congr (e - s) t0 _ node s e hnode (le_refl _)
            (fun j hj => ⟨rfl, fun hjn => (hag1 j hj hjn).symm⟩) hInv0
        refine ⟨SumSegmentTree.push_Inv _ hnode s e hInv1, fun i hi1 hi2 => ?_⟩
        rw [SumSegmentTree.push_elemVal _ hnode s e i]
        rw [SumSegmentTree.elemVal_lazy_add t0
          { t0 with lazy := (Function.update t0.lazy node (t0.lazy node + val)) }
          node hnode val rfl rfl s e i hse]
        rw [ht0, t.push_elemVal hnode s e i, if_pos ⟨by omega, by omega⟩]
      · by_cases hC : e ≤ s
        · exfalso; omega
        · rw [if_neg hB, if_neg hC]
          have hslt : s < e := by omega
          set m := (s + e) / 2 with hm
          have hsm : s ≤ m := by omega
          have hme : m < e := by omega
          set t0 := t.push node s e with ht0
          have hInv0 : t0.Inv node s e := t.push_Inv hnode s e hInv
          have hElem0 : ∀ i, t0.elemVal node s e i = t.elemVal node s e i :=
            t.push_elemVal hnode s e
          have hlazy0 : t0.lazy node = 0 := t.push_lazy_node node s e
          obtain ⟨heq0, hInvL0, hInvR0⟩ := (t0.Inv_node hslt node).mp hInv0
          set t1 := SumSegmentTree.update_range_helper fuel t0 (2 * node) s m
            l r val with ht1
          obtain ⟨hInvL1, hElemL1⟩ := ih t0 (2 * node) s m l r val
            (by omega) hsm (by omega) hInvL0
          have hfr1 : ∀ j, ¬ inSub (2 * node) j →
              t1.tree j = t0.tree j ∧ t1.lazy j = t0.lazy j :=
            fun j hj => SumSegmentTree.update_range_helper_frame fuel t0
              (2 * node) s m l r val j hj
          have hInvR1 : t1.Inv (2 * node + 1) (m + 1) e :=
            SumSegmentTree.Inv_of_agree (by omega)
              (agree_right_of_frame_left hnode hfr1) hInvR0
          have hElemR1 : ∀ i, t1.elemVal (2 * node + 1) (m + 1) e i
              = t0.elemVal (2 * node + 1) (m + 1) e i :=
            fun i => SumSegmentTree.elemVal_of_agree
              (agree_right_of_frame_left hnode hfr1) (m + 1) e i
          set t2 := SumSegmentTree.update_range_helper fuel t1 (2 * node + 1)
            (m + 1) e l r val with ht2
          obtain ⟨hInvR2, hElemR2⟩ := ih t1 (2 * node + 1) (m + 1) e l r val
            (by omega) (by omega) (by omega) hInvR1
          have hfr2 : ∀ j, ¬ inSub (2 * node + 1) j →
              t2.tree j = t1.tree j ∧ t2.lazy j = t1.lazy j :=
            fun j hj => SumSegmentTree.update_range_helper_frame fuel t1
              (2 * node + 1) (m + 1) e l r val j hj
          have hInvL2 : t2.Inv (2 * node) s m :=
            SumSegmentTree.Inv_of_agree (by omega)
              (agree_left_of_frame_right hnode hfr2) hInvL1
          have hElemL2 : ∀ i, t2.elemVal (2 * node) s m i
              = t1.elemVal (2 * node) s m i :=
            fun i => SumSegmentTree.elemVal_of_agree
              (agree_left_of_frame_right hnode hfr2) s m i
          set t3 := t2.push (2 * node) s m with ht3
          have htree3 : t3.tree (2 * node)
              = intervalSum (t2.elemVal (2 * node) s m) s m :=
            t2.push_sum (by omega) hsm hInvL2
          have hInvL3 : t3.Inv (2 * node) s m :=
            t2.push_Inv (by omega) s m hInvL2
          have hElemL3 : ∀ i, t3.elemVal (2 * node) s m i
              = t2.elemVal (2 * node) s m i :=
            t2.push_elemVal (by omega) s m
          have hfr3 : ∀ j, ¬ inSub (2 * node) j →
              t3.tree j = t2.tree j ∧ t3.lazy j = t2.lazy j :=
            fun j hj => t2.push_frame (2 * node) s m hj
          have hInvR3 : t3.Inv (2 * node + 1) (m + 1) e :=
            SumSegmentTree.Inv_of_agree (by omega)
              (agree_right_of_frame_left hnode hfr3) hInvR2
          have hElemR3 : ∀ i, t3.elemVal (2 * node + 1) (m + 1) e i
              = t2.elemVal (2 * node + 1) (m + 1) e i :=
            fun i => SumSegmentTree.elemVal_of_agree
              (agree_right_of_frame_left hnode hfr3) (m + 1) e i
          set t4 := t3.push (2 * node + 1) (m + 1) e with ht4
          have htree4 : t4.tree (2 * node + 1)
              = intervalSum (t3.elemVal (2 * node + 1) (m + 1) e) (m + 1) e :=
            t3.push_sum (by omega) (by omega) hInvR3
          have hInvR4 : t4.Inv (2 * node + 1) (m + 1) e :=
            t3.push_Inv (by omega) (m + 1) e hInvR3
          have hElemR4 : ∀ i, t4.elemVal (2 * node + 1) (m + 1) e i
              = t3.elemVal (2 * node + 1) (m + 1) e i :=
            t3.push_elemVal (by omega) (m + 1) e
          have hfr4 : ∀ j, ¬ inSub (2 * node + 1) j →
              t4.tree j = t3.tree j ∧ t4.lazy j = t3.lazy j :=
            fun j hj => t3.push_frame (2 * node + 1) (m + 1) e hj
          have hInvL4 : t4.Inv (2 * node) s m :=
            SumSegmentTree.Inv_of_agree (by omega)
              (agree_left_of_frame_right hnode hfr4) hInvL3
          have hElemL4 : ∀ i, t4.elemVal (2 * node) s m i
              = t3.elemVal (2 * node) s m i :=
            fun i => SumSegmentTree.elemVal_of_agree
              (agree_left_of_frame_right hnode hfr4) s m i
          have htree4L : t4.tree (2 * node) = t3.tree (2 * node) :=
            (hfr4 (2 * node) (not_inSub_right_sibling hnode)).1
          have hlazy4 : t4.lazy node = 0 := by
            have h1 := (hfr4 node not_inSub_right_self).2
            have h2 := (hfr3 node (not_inSub_left_self hnode)).2
            have h3 := (hfr2 node not_inSub_right_self).2
            have h4 := (hfr1 node (not_inSub_left_self hnode)).2
            rw [h1, h2, h3, h4, hlazy0]
          have hag5 : ∀ c, node < c → ∀ j, inSub c j →
              (SumSegmentTree.tree { t4 with tree := (Function.update t4.tree
                  node (t4.tree (2 * node) + t4.tree (2 * node + 1))) } j
                    = t4.tree j
                ∧ SumSegmentTree.lazy { t4 with tree := (Function.update t4.tree
                  node (t4.tree (2 * node) + t4.tree (2 * node + 1))) } j
                    = t4.lazy j) := by
            intro c hnc j hj
            have := le_of_inSub hj
            exact ⟨Function.update_noteq (by omega) _ _, rfl⟩
          have hInvL5 : SumSegmentTree.Inv { t4 with
              tree := (Function.update t4.tree node
                (t4.tree (2 * node) + t4.tree (2 * node + 1))) } (2 * node) s m :=
            SumSegmentTree.Inv_of_agree (by omega)
              (hag5 (2 * node) (by omega)) hInvL4
          have hInvR5 : SumSegmentTree.Inv { t4 with
              tree := (Function.update t4.tree node
                (t4.tree (2 * node) + t4.tree (2 * node + 1))) }
              (2 * node + 1) (m + 1) e :=
            SumSegmentTree.Inv_of_agree (by omega)
              (hag5 (2 * node + 1) (by omega)) hInvR4
          have hElemL5 : ∀ i, SumSegmentTree.elemVal { t4 with
              tree := (Function.update t4.tree node
                (t4.tree (2 * node) + t4.tree (2 * node + 1))) }
              (2 * node) s m i = t4.elemVal (2 * node) s m i :=
            fun i => SumSegmentTree.elemVal_of_agree
              (hag5 (2 * node) (by omega)) s m i
          have hElemR5 : ∀ i, SumSegmentTree.elemVal { t4 with
              tree := (Function.update t4.tree node
                (t4.tree (2 * node) + t4.tree (2 * node + 1))) }
              (2 * node + 1) (m + 1) e i
              = t4.elemVal (2 * node + 1) (m + 1) e i :=
            fun i => SumSegmentTree.elemVal_of_agree
              (hag5 (2 * node + 1) (by omega)) (m + 1) e i
          have h5n : SumSegmentTree.tree { t4 with
              tree := (Function.update t4.tree node
                (t4.tree (2 * node) + t4.tree (2 * node + 1))) } node
              = t4.tree (2 * node) + t4.tree (2 * node + 1) :=
            Function.update_same _ _ _
          have hsum1 : intervalSum (SumSegmentTree.elemVal { t4 with
                tree := (Function.update t4.tree node
                  (t4.tree (2 * node) + t4.tree (2 * node + 1))) }
                (2 * node) s m) s m
              = intervalSum (t2.elemVal (2 * node) s m) s m := by
            rw [intervalSum, intervalSum]
            apply Finset.sum_congr rfl
            intro i _
            rw [hElemL5 i, hElemL4 i, hElemL3 i]
          have hsum2 : intervalSum (SumSegmentTree.elemVal { t4 with
                tree := (Function.update t4.tree node
                  (t4.tree (2 * node) + t4.tree (2 * node + 1))) }
                (2 * node + 1) (m + 1) e) (m + 1) e
              = intervalSum (t3.elemVal (2 * node + 1) (m + 1) e) (m + 1) e := by
            rw [intervalSum, intervalSum]
            apply Finset.sum_congr rfl
            intro i _
            rw [hElemR5 i, hElemR4 i]
          constructor
          · rw [SumSegmentTree.Inv_node _ hslt, ← hm]
            refine ⟨?_, hInvL5, hInvR5⟩
            rw [hsum1, hsum2, h5n, htree4L, htree3, htree4]
          · intro i hi1 hi2
            rw [SumSegmentTree.elemVal_node _ hslt, ← hm]
            rw [← hElem0 i, t0.elemVal_node hslt, ← hm, hlazy0]
            have ht5lazy : SumSegmentTree.lazy { t4 with
                tree := (Function.update t4.tree node
                  (t4.tree (2 * node) + t4.tree (2 * node + 1))) } node
                = t4.lazy node := rfl
            rw [ht5lazy, hlazy4]
            by_cases hi : i ≤ m
            · rw [if_pos hi, if_pos hi, hElemL5 i, hElemL4 i, hElemL3 i,
                hElemL2 i, hElemL1 i hi1 hi]
              ring
            · rw [if_neg hi, if_neg hi, hElemR5 i, hElemR4 i, hElemR3 i,
                hElemR2 i (by omega) hi2, hElemR1 i]
              ring

theorem SumSegmentTree.query_helper_frame :
    ∀ (fuel : Nat) (t : SumSegmentTree) (node s e l r : Nat),
    ∀ j, ¬ inSub node j →
      (SumSegmentTree.query_helper fuel t node s e l r).1.tree j = t.tree j
        ∧ (SumSegmentTree.query_helper fuel t node s e l r).1.lazy j
            = t.lazy j := by
  intro fuel
  induction fuel with
  | zero => intro t node s e l r j hj; exact ⟨rfl, rfl⟩
  | succ fuel ih =>
    intro t node s e l r j hj
    have hjl : ¬ inSub (2 * node) j := fun h => hj (inSub_left h)
    have hjr : ¬ inSub (2 * node + 1) j := fun h => hj (inSub_right h)
    simp only [SumSegmentTree.query_helper]
    by_cases hA : r < s ∨ e < l
    · rw [if_pos hA]
      exact ⟨rfl, rfl⟩
    · rw [if_neg hA]
      by_cases hB : l ≤ s ∧ e ≤ r
      · rw [if_pos hB]
        exact t.push_frame node s e hj
      · rw [if_neg hB]
        by_cases hC : e ≤ s
        · rw [if_pos hC]
          exact t.push_frame node s e hj
        · rw [if_neg hC]
          have hp0 := t.push_frame node s e hj
          have hq1 := ih (t.push node s e) (2 * node) s ((s + e) / 2) l r j hjl
          have hq2 := ih (SumSegmentTree.query_helper fuel (t.push node s e)
            (2 * node) s ((s + e) / 2) l r).1 (2 * node + 1) ((s + e) / 2 + 1)
            e l r j hjr
          exact ⟨hq2.1.trans (hq1.1.trans hp0.1),
            hq2.2.trans (hq1.2.trans hp0.2)⟩

/-- A query never changes any represented element (for any state, with or
without the structural invariant). -/
theorem SumSegmentTree.query_helper_pres :
    ∀ (fuel : Nat) (t : SumSegmentTree) (node s e l r : Nat), 1 ≤ node →
    ∀ i, (SumSegmentTree.query_helper fuel t node s e l r).1.elemVal node s e i
      = t.elemVal node s e i := by
  intro fuel
  induction fuel with
  | zero => intro t node s e l r hnode i; rfl
  | succ fuel ih =>
    intro t node s e l r hnode i
    simp only [SumSegmentTree.query_helper]
    by_cases hA : r < s ∨ e < l
    · rw [if_pos hA]
    · rw [if_neg hA]
      by_cases hB : l ≤ s ∧ e ≤ r
      · rw [if_pos hB]
        exact t.push_elemVal hnode s e i
      · rw [if_neg hB]
        by_cases hC : e ≤ s
        · rw [if_pos hC]
          exact t.push_elemVal hnode s e i
        · rw [if_neg hC]
          have hslt : s < e := by omega
          set m := (s + e) / 2 with hm
          set t0 := t.push node s e with ht0
          set q1 := SumSegmentTree.query_helper fuel t0 (2 * node) s m l r
            with hq1
          set q2 := SumSegmentTree.query_helper fuel q1.1 (2 * node + 1)
            (m + 1) e l r with hq2
          have hfr1 : ∀ j, ¬ inSub (2 * node) j →
              q1.1.tree j = t0.tree j ∧ q1.1.lazy j = t0.lazy j :=
            fun j hj => SumSegmentTree.query_helper_frame fuel t0 (2 * node)
              s m l r j hj
          have hfr2 : ∀ j, ¬ inSub (2 * node + 1) j →
              q2.1.tree j = q1.1.tree j ∧ q2.1.lazy j = q1.1.lazy j :=
            fun j hj => SumSegmentTree.query_helper_frame fuel q1.1
              (2 * node + 1) (m + 1) e l r j hj
          have hpair : ((q2.1, q1.2 + q2.2) : SumSegmentTree × Int).1 = q2.1 :=
            rfl
          rw [SumSegmentTree.elemVal_node _ hslt, ← hm,
            ← t.push_elemVal hnode s e i, ← ht0, t0.elemVal_node hslt, ← hm,
            hpair]
          have hlz : q2.1.lazy node = t0.lazy node := by
            rw [(hfr2 node not_inSub_right_self).2,
              (hfr1 node (not_inSub_left_self hnode)).2]
          rw [hlz]
          congr 1
          by_cases hi : i ≤ m
          · rw [if_pos hi, if_pos hi]
            have h1 : q2.1.elemVal (2 * node) s m i = q1.1.elemVal (2 * node) s m i :=
              SumSegmentTree.elemVal_of_agree
                (agree_left_of_frame_right hnode hfr2) s m i
            rw [h1, ih t0 (2 * node) s m l r (by omega) i]
          · rw [if_neg hi, if_neg hi]
            have h1 : q1.1.elemVal (2 * node + 1) (m + 1) e i
                = t0.elemVal (2 * node + 1) (m + 1) e i :=
              SumSegmentTree.elemVal_of_agree
                (agree_right_of_frame_left hnode hfr1) (m + 1) e i
            rw [ih q1.1 (2 * node + 1) (m + 1) e l r (by omega) i, h1]

/-- Splitting a clipped interval sum at the midpoint. -/
theorem sum_Ico_split_mid (f : Nat → Int) {s e mm l r : Nat} (h1 : s ≤ mm)
    (h2 : mm < e) :
    (∑ i ∈ Finset.Ico (max s l) (min e r + 1), f i)
      = (∑ i ∈ Finset.Ico (max s l) (min mm r + 1), f i)
        + ∑ i ∈ Finset.Ico (max (mm + 1) l) (min e r + 1), f i := by
  by_cases hempty : min e r + 1 ≤ max s l
  · rw [Finset.Ico_eq_empty (by omega), Finset.Ico_eq_empty (by omega),
      Finset.Ico_eq_empty (by omega)]
    simp
  · by_cases hrm : r ≤ mm
    · rw [Finset.Ico_eq_empty (a := max (mm + 1) l) (by omega)]
      have hmin : min mm r = min e r := by omega
      rw [hmin]
      simp
    · by_cases hlm : mm + 1 ≤ l
      · rw [Finset.Ico_eq_empty (a := max s l) (b := min mm r + 1) (by omega)]
        have hmax : max (mm + 1) l = max s l := by omega
        rw [hmax]
        simp
      · have hminl : min mm r = mm := by omega
        have hmaxr : max (mm + 1) l = mm + 1 := by omega
        rw [hminl, hmaxr]
        exact (Finset.sum_Ico_consecutive f (by omega) (by omega)).symm

/-- With the invariant, a query returns the sum of the represented elements
over the clipped range, and preserves the invariant. -/
theorem SumSegmentTree.query_helper_ok :
    ∀ (fuel : Nat) (t : SumSegmentTree) (node s e l r : Nat),
    1 ≤ node → s ≤ e → e - s < fuel → t.Inv node s e →
    (SumSegmentTree.query_helper fuel t node s e l r).1.Inv node s e
    ∧ (SumSegmentTree.query_helper fuel t node s e l r).2
        = ∑ i ∈ Finset.Ico (max s l) (min e r + 1), t.elemVal node s e i := by
  intro fuel
  induction fuel with
  | zero => intro t node s e l r hnode hse hfuel hInv; omega
  | succ fuel ih =>
    intro t node s e l r hnode hse hfuel hInv
    simp only [SumSegmentTree.query_helper]
    by_cases hA : r < s ∨ e < l
    · rw [if_pos hA]
      refine ⟨hInv, ?_⟩
      rw [Finset.Ico_eq_empty (by omega)]
      simp
    · rw [if_neg hA]
      by_cases hB : l ≤ s ∧ e ≤ r
      · rw [if_pos hB]
        refine ⟨t.push_Inv hnode s e hInv, ?_⟩
        show (t.push node s e).tree node = _
        rw [t.push_sum hnode hse hInv]
        have hmax : max s l = s := by omega
        have hmin : min e r = e := by omega
        rw [hmax, hmin, intervalSum]
      · by_cases hC : e ≤ s
        · exfalso; omega
        · rw [if_neg hB, if_neg hC]
          have hslt : s < e := by omega
          set m := (s + e) / 2 with hm
          set t0 := t.push node s e with ht0
          have hInv0 : t0.Inv node s e := t.push_Inv hnode s e hInv
          have hElem0 : ∀ i, t0.elemVal node s e i = t.elemVal node s e i :=
            t.push_elemVal hnode s e
          have hlazy0 : t0.lazy node = 0 := t.push_lazy_node node s e
          obtain ⟨heq0, hInvL0, hInvR0⟩ := (t0.Inv_node hslt node).mp hInv0
          set q1 := SumSegmentTree.query_helper fuel t0 (2 * node) s m l r
            with hq1
          obtain ⟨hInvL1, hval1⟩ := ih t0 (2 * node) s m l r (by omega)
            (by omega) (by omega) hInvL0
          have hfr1 : ∀ j, ¬ inSub (2 * node) j →
              q1.1.tree j = t0.tree j ∧ q1.1.lazy j = t0.lazy j :=
            fun j hj => SumSegmentTree.query_helper_frame fuel t0 (2 * node)
              s m l r j hj
          have hInvR1 : q1.1.Inv (2 * node + 1) (m + 1) e :=
            SumSegmentTree.Inv_of_agree (by omega)
              (agree_right_of_frame_left hnode hfr1) hInvR0
          have hElemR1 : ∀ i, q1.1.elemVal (2 * node + 1) (m + 1) e i
              = t0.elemVal (2 * node + 1) (m + 1) e i :=
            fun i => SumSegmentTree.elemVal_of_agree
              (agree_right_of_frame_left hnode hfr1) (m + 1) e i
          have hElemL1 : ∀ i, q1.1.elemVal (2 * node) s m i
              = t0.elemVal (2 * node) s m i :=
            fun i => SumSegmentTree.query_helper_pres fuel t0 (2 * node) s m
              l r (by omega) i
          set q2 := SumSegmentTree.query_helper fuel q1.1 (2 * node + 1)
            (m + 1) e l r with hq2
          obtain ⟨hInvR2, hval2⟩ := ih q1.1 (2 * node + 1) (m + 1) e l r
            (by omega) (by omega) (by omega) hInvR1
          have hfr2 : ∀ j, ¬ inSub (2 * node + 1) j →
              q2.1.tree j = q1.1.tree j ∧ q2.1.lazy j = q1.1.lazy j :=
            fun j hj => SumSegmentTree.query_helper_frame fuel q1.1
              (2 * node + 1) (m + 1) e l r j hj
          have hInvL2 : q2.1.Inv (2 * node) s m :=
            SumSegmentTree.Inv_of_agree (by omega)
              (agree_left_of_frame_right hnode hfr2) hInvL1
          have hElemL2 : ∀ i, q2.1.elemVal (2 * node) s m i
              = q1.1.elemVal (2 * node) s m i :=
            fun i => SumSegmentTree.elemVal_of_agree
              (agree_left_of_frame_right hnode hfr2) s m i
          have hElemR2 : ∀ i, q2.1.elemVal (2 * node + 1) (m + 1) e i
              = q1.1.elemVal (2 * node + 1) (m + 1) e i :=
            fun i => SumSegmentTree.query_helper_pres fuel q1.1 (2 * node + 1)
              (m + 1) e l r (by omega) i
          have htreeN : q2.1.tree node = t0.tree node := by
            rw [(hfr2 node not_inSub_right_self).1,
              (hfr1 node (not_inSub_left_self hnode)).1]
          have hpair1 : ((q2.1, q1.2 + q2.2) : SumSegmentTree × Int).1 = q2.1 :=
            rfl
          have hpair2 : ((q2.1, q1.2 + q2.2) : SumSegmentTree × Int).2
              = q1.2 + q2.2 := rfl
          constructor
          · rw [hpair1, SumSegmentTree.Inv_node _ hslt, ← hm]
            refine ⟨?_, hInvL2, hInvR2⟩
            rw [htreeN, heq0, ← hm]
            congr 1
            · rw [intervalSum, intervalSum]
              apply Finset.sum_congr rfl
              intro i _
              rw [hElemL2 i, hElemL1 i]
            · rw [intervalSum, intervalSum]
              apply Finset.sum_congr rfl
              intro i _
              rw [hElemR2 i, hElemR1 i]
          · rw [hpair2, hval2, hval1]
            have hsplit := sum_Ico_split_mid (t.elemVal node s e) (l := l)
              (r := r) (show s ≤ m by omega) (show m < e by omega)
            rw [hsplit]
            congr 1
            · apply Finset.sum_congr rfl
              intro i hi
              rw [Finset.mem_Ico] at hi
              rw [← hElem0 i, t0.elemVal_node hslt, ← hm, if_pos (by omega),
                hlazy0]
              ring
            · apply Finset.sum_congr rfl
              intro i hi
              rw [Finset.mem_Ico] at hi
              rw [hElemR1 i, ← hElem0 i, t0.elemVal_node hslt, ← hm,
                if_neg (by omega), hlazy0]
              ring

/-- An inverted range (`r < l`) always queries to 0, in any state. -/
theorem SumSegmentTree.query_helper_empty :
    ∀ (fuel : Nat) (t : SumSegmentTree) (node s e l r : Nat), r < l →
    (SumSegmentTree.query_helper fuel t node s e l r).2 = 0 := by
  intro fuel
  induction fuel with
  | zero => intro t node s e l r hrl; rfl
  | succ fuel ih =>
    intro t node s e l r hrl
    simp only [SumSegmentTree.query_helper]
    by_cases hA : r < s ∨ e < l
    · rw [if_pos hA]
    · rw [if_neg hA]
      by_cases hB : l ≤ s ∧ e ≤ r
      · exfalso; omega
      · rw [if_neg hB]
        by_cases hC : e ≤ s
        · rw [if_pos hC]
        · rw [if_neg hC]
          show (SumSegmentTree.query_helper fuel (t.push node s e) (2 * node)
              s ((s + e) / 2) l r).2
            + (SumSegmentTree.query_helper fuel _ (2 * node + 1)
                ((s + e) / 2 + 1) e l r).2 = 0
          rw [ih _ (2 * node) s ((s + e) / 2) l r hrl,
            ih _ (2 * node + 1) ((s + e) / 2 + 1) e l r hrl]
          ring

theorem SumSegmentTree.update_range_helper_os :
    ∀ (fuel : Nat) (t : SumSegmentTree) (node s e l r : Nat) (val : Int),
    (SumSegmentTree.update_range_helper fuel t node s e l r val).original_size
      = t.original_size := by
  intro fuel
  induction fuel with
  | zero => intro t node s e l r val; rfl
  | succ fuel ih =>
    intro t node s e l r val
    simp only [SumSegmentTree.update_range_helper]
    by_cases hA : r < s ∨ e < l
    · rw [if_pos hA]
      exact t.push_os node s e
    · rw [if_neg hA]
      by_cases hB : l ≤ s ∧ e ≤ r
      · rw [if_pos hB]
        exact (SumSegmentTree.push_os _ node s e).trans (t.push_os node s e)
      · rw [if_neg hB]
        by_cases hC : e ≤ s
        · rw [if_pos hC]
          exact t.push_os node s e
        · rw [if_neg hC]
          show (SumSegmentTree.push _ (2 * node + 1) ((s + e) / 2 + 1)
            e).original_size = t.original_size
          rw [SumSegmentTree.push_os, SumSegmentTree.push_os, ih, ih,
            t.push_os node s e]

theorem SumSegmentTree.query_helper_os :
    ∀ (fuel : Nat) (t : SumSegmentTree) (node s e l r : Nat),
    (SumSegmentTree.query_helper fuel t node s e l r).1.original_size
      = t.original_size := by
  intro fuel
  induction fuel with
  | zero => intro t node s e l r; rfl
  | succ fuel ih =>
    intro t node s e l r
    simp only [SumSegmentTree.query_helper]
    by_cases hA : r < s ∨ e < l
    · rw [if_pos hA]
    · rw [if_neg hA]
      by_cases hB : l ≤ s ∧ e ≤ r
      · rw [if_pos hB]
        exact t.push_os node s e
      · rw [if_neg hB]
        by_cases hC : e ≤ s
        · rw [if_pos hC]
          exact t.push_os node s e
        · rw [if_neg hC]
          show (SumSegmentTree.query_helper fuel _ (2 * node + 1)
            ((s + e) / 2 + 1) e l r).1.original_size = t.original_size
          rw [ih, ih, t.push_os node s e]

theorem SumSegmentTree.update_point_helper_os :
    ∀ (fuel : Nat) (t : SumSegmentTree) (node s e idx : Nat) (val : Int),
    (SumSegmentTree.update_point_helper fuel t node s e idx val).original_size
      = t.original_size := by
  intro fuel
  induction fuel with
  | zero => intro t node s e idx val; rfl
  | succ fuel ih =>
    intro t node s e idx val
    simp only [SumSegmentTree.update_point_helper]
    by_cases hA : s = e
    · rw [if_pos hA]
      exact t.push_os node s e
    · rw [if_neg hA]
      by_cases hB : e < s
      · rw [if_pos hB]
        exact t.push_os node s e
      · rw [if_neg hB]
        by_cases hi : idx ≤ (s + e) / 2
        · rw [if_pos hi]
          show (SumSegmentTree.push _ (2 * node + 1) ((s + e) / 2 + 1)
            e).original_size = t.original_size
          rw [SumSegmentTree.push_os, SumSegmentTree.push_os, ih,
            t.push_os node s e]
        · rw [if_neg hi]
          show (SumSegmentTree.push _ (2 * node + 1) ((s + e) / 2 + 1)
            e).original_size = t.original_size
          rw [SumSegmentTree.push_os, SumSegmentTree.push_os, ih,
            t.push_os node s e]

theorem SumSegmentTree.build_os :
    ∀ (fuel : Nat) (t : SumSegmentTree) (arr : List Int) (node s e : Nat),
    (SumSegmentTree.build fuel t arr node s e).original_size
      = t.original_size := by
  intro fuel
  induction fuel with
  | zero => intro t arr node s e; rfl
  | succ fuel ih =>
    intro t arr node s e
    simp only [SumSegmentTree.build]
    by_cases hA : s = e
    · rw [if_pos hA]
    · rw [if_neg hA]
      by_cases hB : e < s
      · rw [if_pos hB]
      · rw [if_neg hB]
        show (SumSegmentTree.build fuel _ arr (2 * node + 1) ((s + e) / 2 + 1)
          e).original_size = t.original_size
        rw [ih, ih]

/-- `build` on a lazily-clean subtree establishes the invariant and makes the
subtree represent the source array. -/
theorem SumSegmentTree.build_ok :
    ∀ (fuel : Nat) (t : SumSegmentTree) (arr : List Int) (node s e : Nat),
    1 ≤ node → s ≤ e → e - s < fuel →
    (∀ j, inSub node j → t.lazy j = 0) →
    (∀ j, ¬ inSub node j →
        (SumSegmentTree.build fuel t arr node s e).tree j = t.tree j)
    ∧ (SumSegmentTree.build fuel t arr node s e).lazy = t.lazy
    ∧ (SumSegmentTree.build fuel t arr node s e).Inv node s e
    ∧ (SumSegmentTree.build fuel t arr node s e).tree node
        = intervalSum
            ((SumSegmentTree.build fuel t arr node s e).elemVal node s e) s e
    ∧ ∀ i, s ≤ i → i ≤ e →
        (SumSegmentTree.build fuel t arr node s e).elemVal node s e i
          = arr.getD i 0 := by
  intro fuel
  induction fuel with
  | zero => intro t arr node s e hnode hse hfuel hlz; omega
  | succ fuel ih =>
    intro t arr node s e hnode hse hfuel hlz
    simp only [SumSegmentTree.build]
    rcases Nat.eq_or_lt_of_le hse with hseq | hslt
    · rw [if_pos hseq]
      subst hseq
      have helem : ∀ i, SumSegmentTree.elemVal
          { t with tree := Function.update t.tree node (arr.getD s 0) }
          node s s i = arr.getD s 0 := by
        intro i
        rw [SumSegmentTree.elemVal_leaf _ rfl]
        show Function.update t.tree node (arr.getD s 0) node + t.lazy node = _
        rw [Function.update_same, hlz node (inSub_self node)]
        ring
      refine ⟨fun j hj => ?_, rfl, ?_, ?_, fun i hi1 hi2 => ?_⟩
      · have h1 : j ≠ node := fun h => hj (by rw [h]; exact inSub_self node)
        exact Function.update_noteq h1 _ _
      · exact SumSegmentTree.Inv_degenerate _ (by omega) node
      · rw [intervalSum, Nat.Ico_succ_singleton, Finset.sum_singleton,
          helem s]
        exact Function.update_same _ _ _
      · have hi : i = s := by omega
        rw [helem i, hi]
    · rw [if_neg (by omega), if_neg (by omega)]
      set m := (s + e) / 2 with hm
      have hsm : s ≤ m := by omega
      have hme : m < e := by omega
      set t1 := SumSegmentTree.build fuel t arr (2 * node) s m with ht1
      obtain ⟨hfr1, hlzeq1, hInv1, htr1, helem1⟩ := ih t arr (2 * node) s m
        (by omega) hsm (by omega) (fun j hj => hlz j (inSub_left hj))
      set t2 := SumSegmentTree.build fuel t1 arr (2 * node + 1) (m + 1) e
        with ht2
      obtain ⟨hfr2, hlzeq2, hInv2, htr2, helem2⟩ := ih t1 arr (2 * node + 1)
        (m + 1) e (by omega) (by omega) (by omega)
        (fun j hj => by rw [hlzeq1]; exact hlz j (inSub_right hj))
      have hag2L : ∀ j, inSub (2 * node) j →
          t2.tree j = t1.tree j ∧ t2.lazy j = t1.lazy j := by
        intro j hj
        exact ⟨hfr2 j (fun h => sibling_disjoint hnode hj h), by rw [hlzeq2]⟩
      have hInv1' : t2.Inv (2 * node) s m :=
        SumSegmentTree.Inv_of_agree (by omega) hag2L hInv1
      have helem1' : ∀ i, t2.elemVal (2 * node) s m i = t1.elemVal (2 * node) s m i :=
        fun i => SumSegmentTree.elemVal_of_agree hag2L s m i
      have htr2L : t2.tree (2 * node) = t1.tree (2 * node) :=
        hfr2 (2 * node) (not_inSub_right_sibling hnode)
      have hag3 : ∀ c, node < c → ∀ j, inSub c j →
          (SumSegmentTree.tree { t2 with tree := (Function.update t2.tree node
              (t2.tree (2 * node) + t2.tree (2 * node + 1))) } j = t2.tree j
            ∧ SumSegmentTree.lazy { t2 with tree := (Function.update t2.tree
              node (t2.tree (2 * node) + t2.tree (2 * node + 1))) } j
                = t2.lazy j) := by
        intro c hnc j hj
        have := le_of_inSub hj
        exact ⟨Function.update_noteq (by omega) _ _, rfl⟩
      have hInvL3 : SumSegmentTree.Inv { t2 with
          tree := (Function.update t2.tree node
            (t2.tree (2 * node) + t2.tree (2 * node + 1))) } (2 * node) s m :=
        SumSegmentTree.Inv_of_agree (by omega) (hag3 (2 * node) (by omega))
          hInv1'
      have hInvR3 : SumSegmentTree.Inv { t2 with
          tree := (Function.update t2.tree node
            (t2.tree (2 * node) + t2.tree (2 * node + 1))) }
          (2 * node + 1) (m + 1) e :=
        SumSegmentTree.Inv_of_agree (by omega) (hag3 (2 * node + 1) (by omega))
          hInv2
      have helemL3 : ∀ i, SumSegmentTree.elemVal { t2 with
          tree := (Function.update t2.tree node
            (t2.tree (2 * node) + t2.tree (2 * node + 1))) } (2 * node) s m i
          = t2.elemVal (2 * node) s m i :=
        fun i => SumSegmentTree.elemVal_of_agree (hag3 (2 * node) (by omega))
          s m i
      have helemR3 : ∀ i, SumSegmentTree.elemVal { t2 with
          tree := (Function.update t2.tree node
            (t2.tree (2 * node) + t2.tree (2 * node + 1))) }
          (2 * node + 1) (m + 1) e i
          = t2.elemVal (2 * node + 1) (m + 1) e i :=
        fun i => SumSegmentTree.elemVal_of_agree (hag3 (2 * node + 1) (by omega))
          (m + 1) e i
      have hlz3 : SumSegmentTree.lazy { t2 with
          tree := (Function.update t2.tree node
            (t2.tree (2 * node) + t2.tree (2 * node + 1))) } node
          = 0 := by
        show t2.lazy node = 0
        rw [hlzeq2, hlzeq1]
        exact hlz node (inSub_self node)
      have h3n : SumSegmentTree.tree { t2 with
          tree := (Function.update t2.tree node
            (t2.tree (2 * node) + t2.tree (2 * node + 1))) } node
          = t2.tree (2 * node) + t2.tree (2 * node + 1) :=
        Function.update_same _ _ _
      have helemN : ∀ i, s ≤ i → i ≤ e →
          SumSegmentTree.elemVal { t2 with
            tree := (Function.update t2.tree node
              (t2.tree (2 * node) + t2.tree (2 * node + 1))) } node s e i
            = arr.getD i 0 := by
        intro i hi1 hi2
        rw [SumSegmentTree.elemVal_node _ hslt, ← hm, hlz3]
        by_cases hi : i ≤ m
        · rw [if_pos hi, helemL3 i, helem1' i, helem1 i hi1 hi]
          ring
        · rw [if_neg hi, helemR3 i, helem2 i (by omega) hi2]
          ring
      refine ⟨fun j hj => ?_, ?_, ?_, ?_, helemN⟩
      · have h1 : j ≠ node := fun h => hj (by rw [h]; exact inSub_self node)
        have hjl : ¬ inSub (2 * node) j := fun h => hj (inSub_left h)
        have hjr : ¬ inSub (2 * node + 1) j := fun h => hj (inSub_right h)
        exact (Function.update_noteq h1 _ _).trans
          ((hfr2 j hjr).trans (hfr1 j hjl))
      · show t2.lazy = t.lazy
        rw [hlzeq2, hlzeq1]
      · have hsumL : intervalSum (SumSegmentTree.elemVal { t2 with
              tree := (Function.update t2.tree node
                (t2.tree (2 * node) + t2.tree (2 * node + 1))) }
              (2 * node) s m) s m
            = intervalSum (t1.elemVal (2 * node) s m) s m := by
          rw [intervalSum, intervalSum]
          apply Finset.sum_congr rfl
          intro i _
          rw [helemL3 i, helem1' i]
        have hsumR : intervalSum (SumSegmentTree.elemVal { t2 with
              tree := (Function.update t2.tree node
                (t2.tree (2 * node) + t2.tree (2 * node + 1))) }
              (2 * node + 1) (m + 1) e) (m + 1) e
            = intervalSum (t2.elemVal (2 * node + 1) (m + 1) e) (m + 1) e := by
          rw [intervalSum, intervalSum]
          apply Finset.sum_congr rfl
          intro i _
          rw [helemR3 i]
        rw [SumSegmentTree.Inv_node _ hslt, ← hm]
        refine ⟨?_, hInvL3, hInvR3⟩
        rw [hsumL, hsumR, h3n, htr2L, htr1, htr2]
      · have hgetDL : intervalSum (t1.elemVal (2 * node) s m) s m
            = ∑ i ∈ Finset.Ico s (m + 1), arr.getD i 0 := by
          rw [intervalSum]
          apply Finset.sum_congr rfl
          intro i hi
          rw [Finset.mem_Ico] at hi
          exact helem1 i (by omega) (by omega)
        have hgetDR : intervalSum (t2.elemVal (2 * node + 1) (m + 1) e)
              (m + 1) e
            = ∑ i ∈ Finset.Ico (m + 1) (e + 1), arr.getD i 0 := by
          rw [intervalSum]
          apply Finset.sum_congr rfl
          intro i hi
          rw [Finset.mem_Ico] at hi
          exact helem2 i (by omega) (by omega)
        have hgoal4 : intervalSum (SumSegmentTree.elemVal { t2 with
              tree := (Function.update t2.tree node
                (t2.tree (2 * node) + t2.tree (2 * node + 1))) } node s e) s e
            = (∑ i ∈ Finset.Ico s (m + 1), arr.getD i 0)
              + ∑ i ∈ Finset.Ico (m + 1) (e + 1), arr.getD i 0 := by
          rw [intervalSum, ← Finset.sum_Ico_consecutive _
            (by omega : s ≤ m + 1) (by omega : m + 1 ≤ e + 1)]
          congr 1
          · apply Finset.sum_congr rfl
            intro i hi
            rw [Finset.mem_Ico] at hi
            exact helemN i (by omega) (by omega)
          · apply Finset.sum_congr rfl
            intro i hi
            rw [Finset.mem_Ico] at hi
            exact helemN i (by omega) (by omega)
        rw [hgoal4, h3n, htr2L, htr1, htr2, hgetDL, hgetDR]

theorem SumSegmentTree.update_point_helper_frame :
    ∀ (fuel : Nat) (t : SumSegmentTree) (node s e idx : Nat) (val : Int),
    ∀ j, ¬ inSub node j →
      (SumSegmentTree.update_point_helper fuel t node s e idx val).tree j
          = t.tree j
        ∧ (SumSegmentTree.update_point_helper fuel t node s e idx val).lazy j
          = t.lazy j := by
  intro fuel
  induction fuel with
  | zero => intro t node s e idx val j hj; exact ⟨rfl, rfl⟩
  | succ fuel ih =>
    intro t node s e idx val j hj
    have h1 : j ≠ node := fun h => hj (by rw [h]; exact inSub_self node)
    have hjl : ¬ inSub (2 * node) j := fun h => hj (inSub_left h)
    have hjr : ¬ inSub (2 * node + 1) j := fun h => hj (inSub_right h)
    have hp0 := t.push_frame node s e hj
    simp only [SumSegmentTree.update_point_helper]
    by_cases hA : s = e
    · rw [if_pos hA]
      exact ⟨(Function.update_noteq h1 _ _).trans hp0.1, hp0.2⟩
    · rw [if_neg hA]
      by_cases hB : e < s
      · rw [if_pos hB]
        exact hp0
      · rw [if_neg hB]
        by_cases hi : idx ≤ (s + e) / 2
        · rw [if_pos hi]
          have hu1 := ih (t.push node s e) (2 * node) s ((s + e) / 2) idx val
            j hjl
          have hp3 := SumSegmentTree.push_frame
            (SumSegmentTree.update_point_helper fuel (t.push node s e)
              (2 * node) s ((s + e) / 2) idx val) (2 * node) s ((s + e) / 2)
            hjl
          have hp4 := SumSegmentTree.push_frame
            ((SumSegmentTree.update_point_helper fuel (t.push node s e)
              (2 * node) s ((s + e) / 2) idx val).push (2 * node) s
              ((s + e) / 2)) (2 * node + 1) ((s + e) / 2 + 1) e hjr
          exact ⟨(Function.update_noteq h1 _ _).trans
              (hp4.1.trans (hp3.1.trans (hu1.1.trans hp0.1))),
            hp4.2.trans (hp3.2.trans (hu1.2.trans hp0.2))⟩
        · rw [if_neg hi]
          have hu1 := ih (t.push node s e) (2 * node + 1) ((s + e) / 2 + 1) e
            idx val j hjr
          have hp3 := SumSegmentTree.push_frame
            (SumSegmentTree.update_point_helper fuel (t.push node s e)
              (2 * node + 1) ((s + e) / 2 + 1) e idx val) (2 * node) s
            ((s + e) / 2) hjl
          have hp4 := SumSegmentTree.push_frame
            ((SumSegmentTree.update_point_helper fuel (t.push node s e)
              (2 * node + 1) ((s + e) / 2 + 1) e idx val).push (2 * node) s
              ((s + e) / 2)) (2 * node + 1) ((s + e) / 2 + 1) e hjr
          exact ⟨(Function.update_noteq h1 _ _).trans
              (hp4.1.trans (hp3.1.trans (hu1.1.trans hp0.1))),
            hp4.2.trans (hp3.2.trans (hu1.2.trans hp0.2))⟩

/-- `update_point_helper` preserves the invariant and overwrites exactly the
element at `idx` (which every call keeps inside `[s, e]`). -/
theorem SumSegmentTree.update_point_helper_ok :
    ∀ (fuel : Nat) (t : SumSegmentTree) (node s e idx : Nat) (val : Int),
    1 ≤ node → s ≤ e → e - s < fuel → s ≤ idx → idx ≤ e → t.Inv node s e →
    (SumSegmentTree.update_point_helper fuel t node s e idx val).Inv node s e
    ∧ ∀ i, s ≤ i → i ≤ e →
        (SumSegmentTree.update_point_helper fuel t node s e idx val).elemVal
            node s e i
          = if i = idx then val else t.elemVal node s e i := by
  intro fuel
  induction fuel with
  | zero => intro t node s e idx val hnode hse hfuel hi1 hi2 hInv; omega
  | succ fuel ih =>
    intro t node s e idx val hnode hse hfuel hix1 hix2 hInv
    simp only [SumSegmentTree.update_point_helper]
    by_cases hA : s = e
    · rw [if_pos hA]
      subst hA
      set t0 := t.push node s s with ht0
      have hlazy0 : t0.lazy node = 0 := t.push_lazy_node node s s
      constructor
      · exact SumSegmentTree.Inv_degenerate _ (le_refl s) node
      · intro i hi1 hi2
        have hi : i = s := by omega
        have hx : idx = s := by omega
        rw [SumSegmentTree.elemVal_leaf _ rfl]
        show Function.update t0.tree node val node + t0.lazy node = _
        rw [Function.update_same, hlazy0, if_pos (by omega)]
        ring
    · rw [if_neg hA]
      by_cases hB : e < s
      · exfalso; omega
      · rw [if_neg hB]
        have hslt : s < e := by omega
        set m := (s + e) / 2 with hm
        have hsm : s ≤ m := by omega
        have hme : m < e := by omega
        set t0 := t.push node s e with ht0
        have hInv0 : t0.Inv node s e := t.push_Inv hnode s e hInv
        have hElem0 : ∀ i, t0.elemVal node s e i = t.elemVal node s e i :=
          t.push_elemVal hnode s e
        have hlazy0 : t0.lazy node = 0 := t.push_lazy_node node s e
        obtain ⟨heq0, hInvL0, hInvR0⟩ := (t0.Inv_node hslt node).mp hInv0
        by_cases hI : idx ≤ m
        · rw [if_pos hI]
          set t1 := SumSegmentTree.update_point_helper fuel t0 (2 * node) s m
            idx val with ht1
          obtain ⟨hInvL1, hElemL1⟩ := ih t0 (2 * node) s m idx val (by omega)
            hsm (by omega) hix1 hI hInvL0
          have hfr1 : ∀ j, ¬ inSub (2 * node) j →
              t1.tree j = t0.tree j ∧ t1.lazy j = t0.lazy j :=
            fun j hj => SumSegmentTree.update_point_helper_frame fuel t0
              (2 * node) s m idx val j hj
          have hInvR1 : t1.Inv (2 * node + 1) (m + 1) e :=
            SumSegmentTree.Inv_of_agree (by omega)
              (agree_right_of_frame_left hnode hfr1) hInvR0
          have hElemR1 : ∀ i, t1.elemVal (2 * node + 1) (m + 1) e i
              = t0.elemVal (2 * node + 1) (m + 1) e i :=
            fun i => SumSegmentTree.elemVal_of_agree
              (agree_right_of_frame_left hnode hfr1) (m + 1) e i
          set t2 := t1.push (2 * node) s m with ht2
          have htree2 : t2.tree (2 * node)
              = intervalSum (t1.elemVal (2 * node) s m) s m :=
            t1.push_sum (by omega) hsm hInvL1
          have hInvL2 : t2.Inv (2 * node) s m :=
            t1.push_Inv (by omega) s m hInvL1
          have hElemL2 : ∀ i, t2.elemVal (2 * node) s m i
              = t1.elemVal (2 * node) s m i :=
            t1.push_elemVal (by omega) s m
          have hfr2 : ∀ j, ¬ inSub (2 * node) j →
              t2.tree j = t1.tree j ∧ t2.lazy j = t1.lazy j :=
            fun j hj => t1.push_frame (2 * node) s m hj
          have hInvR2 : t2.Inv (2 * node + 1) (m + 1) e :=
            SumSegmentTree.Inv_of_agree (by omega)
              (agree_right_of_frame_left hnode hfr2) hInvR1
          have hElemR2 : ∀ i, t2.elemVal (2 * node + 1) (m + 1) e i
              = t1.elemVal (2 * node + 1) (m + 1) e i :=
            fun i => SumSegmentTree.elemVal_of_agree
              (agree_right_of_frame_left hnode hfr2) (m + 1) e i
          set t3 := t2.push (2 * node + 1) (m + 1) e with ht3
          have htree3 : t3.tree (2 * node + 1)
              = intervalSum (t2.elemVal (2 * node + 1) (m + 1) e) (m + 1) e :=
            t2.push_sum (by omega) (by omega) hInvR2
          have hInvR3 : t3.Inv (2 * node + 1) (m + 1) e :=
            t2.push_Inv (by omega) (m + 1) e hInvR2
          have hElemR3 : ∀ i, t3.elemVal (2 * node + 1) (m + 1) e i
              = t2.elemVal (2 * node + 1) (m + 1) e i :=
            t2.push_elemVal (by omega) (m + 1) e
          have hfr3 : ∀ j, ¬ inSub (2 * node + 1) j →
              t3.tree j = t2.tree j ∧ t3.lazy j = t2.lazy j :=
            fun j hj => t2.push_frame (2 * node + 1) (m + 1) e hj
          have hInvL3 : t3.Inv (2 * node) s m :=
            SumSegmentTree.Inv_of_agree (by omega)
              (agree_left_of_frame_right hnode hfr3) hInvL2
          have hElemL3 : ∀ i, t3.elemVal (2 * node) s m i
              = t2.elemVal (2 * node) s m i :=
            fun i => SumSegmentTree.elemVal_of_agree
              (agree_left_of_frame_right hnode hfr3) s m i
          have htree3L : t3.tree (2 * node) = t2.tree (2 * node) :=
            (hfr3 (2 * node) (not_inSub_right_sibling hnode)).1
          have hlazy3 : t3.lazy node = 0 := by
            have h1 := (hfr3 node not_inSub_right_self).2
            have h2 := (hfr2 node (not_inSub_left_self hnode)).2
            have h3 := (hfr1 node (not_inSub_left_self hnode)).2
            rw [h1, h2, h3, hlazy0]
          have hag4 : ∀ c, node < c → ∀ j, inSub c j →
              (SumSegmentTree.tree { t3 with tree := (Function.update t3.tree
                  node (t3.tree (2 * node) + t3.tree (2 * node + 1))) } j
                    = t3.tree j
                ∧ SumSegmentTree.lazy { t3 with tree := (Function.update t3.tree
                  node (t3.tree (2 * node) + t3.tree (2 * node + 1))) } j
                    = t3.lazy j) := by
            intro c hnc j hj
            have := le_of_inSub hj
            exact ⟨Function.update_noteq (by omega) _ _, rfl⟩
          have hInvL4 : SumSegmentTree.Inv { t3 with
              tree := (Function.update t3.tree node
                (t3.tree (2 * node) + t3.tree (2 * node + 1))) } (2 * node) s m :=
            SumSegmentTree.Inv_of_agree (by omega)
              (hag4 (2 * node) (by omega)) hInvL3
          have hInvR4 : SumSegmentTree.Inv { t3 with
              tree := (Function.update t3.tree node
                (t3.tree (2 * node) + t3.tree (2 * node + 1))) }
              (2 * node + 1) (m + 1) e :=
            SumSegmentTree.Inv_of_agree (by omega)
              (hag4 (2 * node + 1) (by omega)) hInvR3
          have hElemL4 : ∀ i, SumSegmentTree.elemVal { t3 with
              tree := (Function.update t3.tree node
                (t3.tree (2 * node) + t3.tree (2 * node + 1))) }
              (2 * node) s m i = t3.elemVal (2 * node) s m i :=
            fun i => SumSegmentTree.elemVal_of_agree
              (hag4 (2 * node) (by omega)) s m i
          have hElemR4 : ∀ i, SumSegmentTree.elemVal { t3 with
              tree := (Function.update t3.tree node
                (t3.tree (2 * node) + t3.tree (2 * node + 1))) }
              (2 * node + 1) (m + 1) e i
              = t3.elemVal (2 * node + 1) (m + 1) e i :=
            fun i => SumSegmentTree.elemVal_of_agree
              (hag4 (2 * node + 1) (by omega)) (m + 1) e i
          have h4n : SumSegmentTree.tree { t3 with
              tree := (Function.update t3.tree node
                (t3.tree (2 * node) + t3.tree (2 * node + 1))) } node
              = t3.tree (2 * node) + t3.tree (2 * node + 1) :=
            Function.update_same _ _ _
          have hsum1 : intervalSum (SumSegmentTree.elemVal { t3 with
                tree := (Function.update t3.tree node
                  (t3.tree (2 * node) + t3.tree (2 * node + 1))) }
                (2 * node) s m) s m
              = intervalSum (t1.elemVal (2 * node) s m) s m := by
            rw [intervalSum, intervalSum]
            apply Finset.sum_congr rfl
            intro i _
            rw [hElemL4 i, hElemL3 i, hElemL2 i]
          have hsum2 : intervalSum (SumSegmentTree.elemVal { t3 with
                tree := (Function.update t3.tree node
                  (t3.tree (2 * node) + t3.tree (2 * node + 1))) }
                (2 * node + 1) (m + 1) e) (m + 1) e
              = intervalSum (t2.elemVal (2 * node + 1) (m + 1) e) (m + 1) e := by
            rw [intervalSum, intervalSum]
            apply Finset.sum_congr rfl
            intro i _
            rw [hElemR4 i, hElemR3 i]
          constructor
          · rw [SumSegmentTree.Inv_node _ hslt, ← hm]
            refine ⟨?_, hInvL4, hInvR4⟩
            rw [hsum1, hsum2, h4n, htree3L, htree2, htree3]
          · intro i hi1 hi2
            rw [SumSegmentTree.elemVal_node _ hslt, ← hm]
            have ht4lazy : SumSegmentTree.lazy { t3 with
                tree := (Function.update t3.tree node
                  (t3.tree (2 * node) + t3.tree (2 * node + 1))) } node
                = t3.lazy node := rfl
            rw [ht4lazy, hlazy3]
            by_cases hi : i ≤ m
            · rw [if_pos hi, hElemL4 i, hElemL3 i, hElemL2 i,
                hElemL1 i hi1 hi]
              by_cases hidx : i = idx
              · rw [if_pos hidx, if_pos hidx]
                ring
              · rw [if_neg hidx, if_neg hidx, ← hElem0 i,
                  t0.elemVal_node hslt, ← hm, if_pos hi, hlazy0]
            · rw [if_neg hi, hElemR4 i, hElemR3 i, hElemR2 i, hElemR1 i,
                if_neg (by omega), ← hElem0 i, t0.elemVal_node hslt, ← hm,
                if_neg hi, hlazy0]
        · rw [if_neg hI]
          set t1 := SumSegmentTree.update_point_helper fuel t0 (2 * node + 1)
            (m + 1) e idx val with ht1
          obtain ⟨hInvR1, hElemR1⟩ := ih t0 (2 * node + 1) (m + 1) e idx val
            (by omega) (by omega) (by omega) (by omega) hix2 hInvR0
          have hfr1 : ∀ j, ¬ inSub (2 * node + 1) j →
              t1.tree j = t0.tree j ∧ t1.lazy j = t0.lazy j :=
            fun j hj => SumSegmentTree.update_point_helper_frame fuel t0
              (2 * node + 1) (m + 1) e idx val j hj
          have hInvL1 : t1.Inv (2 * node) s m :=
            SumSegmentTree.Inv_of_agree (by omega)
              (agree_left_of_frame_right hnode hfr1) hInvL0
          have hElemL1 : ∀ i, t1.elemVal (2 * node) s m i
              = t0.elemVal (2 * node) s m i :=
            fun i => SumSegmentTree.elemVal_of_agree
              (agree_left_of_frame_right hnode hfr1) s m i
          set t2 := t1.push (2 * node) s m with ht2
          have htree2 : t2.tree (2 * node)
              = intervalSum (t1.elemVal (2 * node) s m) s m :=
            t1.push_sum (by omega) hsm hInvL1
          have hInvL2 : t2.Inv (2 * node) s m :=
            t1.push_Inv (by omega) s m hInvL1
          have hElemL2 : ∀ i, t2.elemVal (2 * node) s m i
              = t1.elemVal (2 * node) s m i :=
            t1.push_elemVal (by omega) s m
          have hfr2 : ∀ j, ¬ inSub (2 * node) j →
              t2.tree j = t1.tree j ∧ t2.lazy j = t1.lazy j :=
            fun j hj => t1.push_frame (2 * node) s m hj
          have hInvR2 : t2.Inv (2 * node + 1) (m + 1) e :=
            SumSegmentTree.Inv_of_agree (by omega)
              (agree_right_of_frame_left hnode hfr2) hInvR1
          have hElemR2 : ∀ i, t2.elemVal (2 * node + 1) (m + 1) e i
              = t1.elemVal (2 * node + 1) (m + 1) e i :=
            fun i => SumSegmentTree.elemVal_of_agree
              (agree_right_of_frame_left hnode hfr2) (m + 1) e i
          set t3 := t2.push (2 * node + 1) (m + 1) e with ht3
          have htree3 : t3.tree (2 * node + 1)
              = intervalSum (t2.elemVal (2 * node + 1) (m + 1) e) (m + 1) e :=
            t2.push_sum (by omega) (by omega) hInvR2
          have hInvR3 : t3.Inv (2 * node + 1) (m + 1) e :=
            t2.push_Inv (by omega) (m + 1) e hInvR2
          have hElemR3 : ∀ i, t3.elemVal (2 * node + 1) (m + 1) e i
              = t2.elemVal (2 * node + 1) (m + 1) e i :=
            t2.push_elemVal (by omega) (m + 1) e
          have hfr3 : ∀ j, ¬ inSub (2 * node + 1) j →
              t3.tree j = t2.tree j ∧ t3.lazy j = t2.lazy j :=
            fun j hj => t2.push_frame (2 * node + 1) (m + 1) e hj
          have hInvL3 : t3.Inv (2 * node) s m :=
            SumSegmentTree.Inv_of_agree (by omega)
              (agree_left_of_frame_right hnode hfr3) hInvL2
          have hElemL3 : ∀ i, t3.elemVal (2 * node) s m i
              = t2.elemVal (2 * node) s m i :=
            fun i => SumSegmentTree.elemVal_of_agree
              (agree_left_of_frame_right hnode hfr3) s m i
          have htree3L : t3.tree (2 * node) = t2.tree (2 * node) :=
            (hfr3 (2 * node) (not_inSub_right_sibling hnode)).1
          have hlazy3 : t3.lazy node = 0 := by
            have h1 := (hfr3 node not_inSub_right_self).2
            have h2 := (hfr2 node (not_inSub_left_self hnode)).2
            have h3 := (hfr1 node not_inSub_right_self).2
            rw [h1, h2, h3, hlazy0]
          have hag4 : ∀ c, node < c → ∀ j, inSub c j →
              (SumSegmentTree.tree { t3 with tree := (Function.update t3.tree
                  node (t3.tree (2 * node) + t3.tree (2 * node + 1))) } j
                    = t3.tree j
                ∧ SumSegmentTree.lazy { t3 with tree := (Function.update t3.tree
                  node (t3.tree (2 * node) + t3.tree (2 * node + 1))) } j
                    = t3.lazy j) := by
            intro c hnc j hj
            have := le_of_inSub hj
            exact ⟨Function.update_noteq (by omega) _ _, rfl⟩
          have hInvL4 : SumSegmentTree.Inv { t3 with
              tree := (Function.update t3.tree node
                (t3.tree (2 * node) + t3.tree (2 * node + 1))) } (2 * node) s m :=
            SumSegmentTree.Inv_of_agree (by omega)
              (hag4 (2 * node) (by omega)) hInvL3
          have hInvR4 : SumSegmentTree.Inv { t3 with
              tree := (Function.update t3.tree node
                (t3.tree (2 * node) + t3.tree (2 * node + 1))) }
              (2 * node + 1) (m + 1) e :=
            SumSegmentTree.Inv_of_agree (by omega)
              (hag4 (2 * node + 1) (by omega)) hInvR3
          have hElemL4 : ∀ i, SumSegmentTree.elemVal { t3 with
              tree := (Function.update t3.tree node
                (t3.tree (2 * node) + t3.tree (2 * node + 1))) }
              (2 * node) s m i = t3.elemVal (2 * node) s m i :=
            fun i => SumSegmentTree.elemVal_of_agree
              (hag4 (2 * node) (by omega)) s m i
          have hElemR4 : ∀ i, SumSegmentTree.elemVal { t3 with
              tree := (Function.update t3.tree node
                (t3.tree (2 * node) + t3.tree (2 * node + 1))) }
              (2 * node + 1) (m + 1) e i
              = t3.elemVal (2 * node + 1) (m + 1) e i :=
            fun i => SumSegmentTree.elemVal_of_agree
              (hag4 (2 * node + 1) (by omega)) (m + 1) e i
          have h4n : SumSegmentTree.tree { t3 with
              tree := (Function.update t3.tree node
                (t3.tree (2 * node) + t3.tree (2 * node + 1))) } node
              = t3.tree (2 * node) + t3.tree (2 * node + 1) :=
            Function.update_same _ _ _
          have hsum1 : intervalSum (SumSegmentTree.elemVal { t3 with
                tree := (Function.update t3.tree node
                  (t3.tree (2 * node) + t3.tree (2 * node + 1))) }
                (2 * node) s m) s m
              = intervalSum (t1.elemVal (2 * node) s m) s m := by
            rw [intervalSum, intervalSum]
            apply Finset.sum_congr rfl
            intro i _
            rw [hElemL4 i, hElemL3 i, hElemL2 i]
          have hsum2 : intervalSum (SumSegmentTree.elemVal { t3 with
                tree := (Function.update t3.tree node
                  (t3.tree (2 * node) + t3.tree (2 * node + 1))) }
                (2 * node + 1) (m + 1) e) (m + 1) e
              = intervalSum (t2.elemVal (2 * node + 1) (m + 1) e) (m + 1) e := by
            rw [intervalSum, intervalSum]
            apply Finset.sum_congr rfl
            intro i _
            rw [hElemR4 i, hElemR3 i]
          constructor
          · rw [SumSegmentTree.Inv_node _ hslt, ← hm]
            refine ⟨?_, hInvL4, hInvR4⟩
            rw [hsum1, hsum2, h4n, htree3L, htree2, htree3]
          · intro i hi1 hi2
            rw [SumSegmentTree.elemVal_node _ hslt, ← hm]
            have ht4lazy : SumSegmentTree.lazy { t3 with
                tree := (Function.update t3.tree node
                  (t3.tree (2 * node) + t3.tree (2 * node + 1))) } node
                = t3.lazy node := rfl
            rw [ht4lazy, hlazy3]
            by_cases hi : i ≤ m
            · rw [if_pos hi, hElemL4 i, hElemL3 i, hElemL2 i, hElemL1 i,
                if_neg (by omega), ← hElem0 i, t0.elemVal_node hslt, ← hm,
                if_pos hi, hlazy0]
            · rw [if_neg hi, hElemR4 i, hElemR3 i, hElemR2 i,
                hElemR1 i (by omega) hi2]
              by_cases hidx : i = idx
              · rw [if_pos hidx, if_pos hidx]
                ring
              · rw [if_neg hidx, if_neg hidx, ← hElem0 i,
                  t0.elemVal_node hslt, ← hm, if_neg hi, hlazy0]

theorem SumSegmentTree.Good_congr {t : SumSegmentTree} {a b : Nat → Int}
    (hab : ∀ i, i < t.original_size → a i = b i) (h : t.Good a) : t.Good b :=
  fun hn => ⟨(h hn).1, fun i hi => ((h hn).2 i hi).trans (hab i hi)⟩

theorem SumSegmentTree.update_range_os (t : SumSegmentTree) (l r : Nat)
    (v : Int) : (t.update_range l r v).original_size = t.original_size := by
  rw [SumSegmentTree.update_range]
  by_cases hg : l < t.original_size ∧ r < t.original_size
  · rw [if_pos hg]
    exact SumSegmentTree.update_range_helper_os _ _ _ _ _ _ _ _
  · rw [if_neg hg]

theorem SumSegmentTree.update_point_os (t : SumSegmentTree) (idx : Nat)
    (v : Int) : (t.update_point idx v).original_size = t.original_size := by
  rw [SumSegmentTree.update_point]
  by_cases hg : idx < t.original_size
  · rw [if_pos hg]
    exact SumSegmentTree.update_point_helper_os _ _ _ _ _ _ _
  · rw [if_neg hg]

theorem SumSegmentTree.query_os (t : SumSegmentTree) (l r : Nat) :
    (t.query l r).1.original_size = t.original_size := by
  rw [SumSegmentTree.query]
  by_cases hg : l < t.original_size ∧ r < t.original_size
  · rw [if_pos hg]
    exact SumSegmentTree.query_helper_os _ _ _ _ _ _ _
  · rw [if_neg hg]

theorem SumSegmentTree.update_range_Good {t : SumSegmentTree} {a : Nat → Int}
    (h : t.Good a) (l r : Nat) (v : Int) :
    (t.update_range l r v).Good (refRangeAdd t.original_size a l r v) := by
  rw [SumSegmentTree.update_range]
  by_cases hg : l < t.original_size ∧ r < t.original_size
  · rw [if_pos hg]
    intro hn
    rw [SumSegmentTree.update_range_helper_os] at hn
    rw [SumSegmentTree.update_range_helper_os]
    obtain ⟨hInv, helem⟩ := h hn
    obtain ⟨hInv', helem'⟩ := SumSegmentTree.update_range_helper_ok
      t.original_size t 1 0 (t.original_size - 1) l r v (le_refl 1)
      (by omega) (by omega) hInv
    refine ⟨hInv', fun i hi => ?_⟩
    rw [helem' i (by omega) (by omega), helem i hi]
    simp only [refRangeAdd]
    by_cases hir : l ≤ i ∧ i ≤ r
    · rw [if_pos hir, if_pos ⟨hg, hir⟩]
    · rw [if_neg hir, if_neg (fun hx => hir hx.2)]
      ring
  · rw [if_neg hg]
    refine SumSegmentTree.Good_congr (fun i hi => ?_) h
    simp only [refRangeAdd]
    rw [if_neg (fun hx => hg hx.1)]

theorem SumSegmentTree.update_point_Good {t : SumSegmentTree} {a : Nat → Int}
    (h : t.Good a) (idx : Nat) (v : Int) :
    (t.update_point idx v).Good (refPointSet t.original_size a idx v) := by
  rw [SumSegmentTree.update_point]
  by_cases hg : idx < t.original_size
  · rw [if_pos hg]
    intro hn
    rw [SumSegmentTree.update_point_helper_os] at hn
    rw [SumSegmentTree.update_point_helper_os]
    obtain ⟨hInv, helem⟩ := h hn
    obtain ⟨hInv', helem'⟩ := SumSegmentTree.update_point_helper_ok
      t.original_size t 1 0 (t.original_size - 1) idx v (le_refl 1)
      (by omega) (by omega) (by omega) (by omega) hInv
    refine ⟨hInv', fun i hi => ?_⟩
    rw [helem' i (by omega) (by omega)]
    simp only [refPointSet]
    by_cases hix : i = idx
    · rw [if_pos hix, if_pos ⟨hg, hix⟩]
    · rw [if_neg hix, if_neg (fun hx => hix hx.2), helem i hi]
  · rw [if_neg hg]
    refine SumSegmentTree.Good_congr (fun i hi => ?_) h
    simp only [refPointSet]
    rw [if_neg (fun hx => hg hx.1)]

theorem SumSegmentTree.query_Good {t : SumSegmentTree} {a : Nat → Int}
    (h : t.Good a) (l r : Nat) :
    (t.query l r).1.Good a
      ∧ (t.query l r).2 = refQuery t.original_size a l r := by
  rw [SumSegmentTree.query, refQuery]
  by_cases hg : l < t.original_size ∧ r < t.original_size
  · rw [if_pos hg, if_pos hg]
    have hn : 1 ≤ t.original_size := by omega
    obtain ⟨hInv, helem⟩ := h hn
    obtain ⟨hInv', hval⟩ := SumSegmentTree.query_helper_ok t.original_size t 1
      0 (t.original_size - 1) l r (le_refl 1) (by omega) (by omega) hInv
    constructor
    · intro hn'
      rw [SumSegmentTree.query_helper_os]
      refine ⟨hInv', fun i hi => ?_⟩
      rw [SumSegmentTree.query_helper_pres t.original_size t 1 0
        (t.original_size - 1) l r (le_refl 1) i, helem i hi]
    · rw [hval]
      have hmax : max 0 l = l := by omega
      have hmin : min (t.original_size - 1) r = r := by omega
      rw [hmax, hmin]
      apply Finset.sum_congr rfl
      intro i hi
      rw [Finset.mem_Ico] at hi
      rw [helem i (by omega)]
  · rw [if_neg hg, if_neg hg]
    exact ⟨h, rfl⟩

theorem SumSegmentTree.runOps_spec :
    ∀ (ops : List SOp) (t : SumSegmentTree) (a : Nat → Int), t.Good a →
    (t.runOps ops).1.original_size = t.original_size
    ∧ (t.runOps ops).1.Good (ops.foldl (refStep t.original_size) a)
    ∧ (t.runOps ops).2 = refOutputs t.original_size a ops := by
  intro ops
  induction ops with
  | nil => intro t a h; exact ⟨rfl, h, rfl⟩
  | cons op ops ih =>
    intro t a h
    cases op with
    | updateRange l r v =>
      have h' := SumSegmentTree.update_range_Good h l r v
      have hos := t.update_range_os l r v
      obtain ⟨h1, h2, h3⟩ := ih (t.update_range l r v) _ h'
      rw [hos] at h1 h2 h3
      exact ⟨h1, h2, h3⟩
    | updatePoint idx v =>
      have h' := SumSegmentTree.update_point_Good h idx v
      have hos := t.update_point_os idx v
      obtain ⟨h1, h2, h3⟩ := ih (t.update_point idx v) _ h'
      rw [hos] at h1 h2 h3
      exact ⟨h1, h2, h3⟩
    | query l r =>
      obtain ⟨hg, hv⟩ := SumSegmentTree.query_Good h l r
      have hos := t.query_os l r
      obtain ⟨h1, h2, h3⟩ := ih (t.query l r).1 a hg
      rw [hos] at h1 h2 h3
      refine ⟨h1, h2, ?_⟩
      have hpair : (t.runOps (SOp.query l r :: ops)).2
          = (t.query l r).2 :: ((t.query l r).1.runOps ops).2 := rfl
      have hro : refOutputs t.original_size a (SOp.query l r :: ops)
          = refQuery t.original_size a l r
            :: refOutputs t.original_size a ops := rfl
      rw [hpair, hro, h3, hv]

theorem SumSegmentTree.from_array_Good (A : List Int) :
    (SumSegmentTree.from_array A).Good (fun i => A.getD i 0)
    ∧ (SumSegmentTree.from_array A).original_size = A.length := by
  rw [SumSegmentTree.from_array]
  by_cases hA : A.length ≠ 0
  · rw [if_pos hA]
    have hos : (SumSegmentTree.build A.length (SumSegmentTree.new A.length)
        A 1 0 (A.length - 1)).original_size = A.length :=
      (SumSegmentTree.build_os A.length (SumSegmentTree.new A.length)
        A 1 0 (A.length - 1)).trans rfl
    obtain ⟨_, _, hInv, _, helem⟩ := SumSegmentTree.build_ok A.length
      (SumSegmentTree.new A.length) A 1 0 (A.length - 1) (le_refl 1)
      (by omega) (by omega) (fun j _ => rfl)
    constructor
    · intro hn
      rw [hos] at hn
      rw [hos]
      refine ⟨hInv, fun i hi => ?_⟩
      exact helem i (by omega) (by omega)
    · exact hos
  · rw [if_neg hA]
    push_neg at hA
    constructor
    · intro hn
      exfalso
      simp only [SumSegmentTree.new] at hn
      omega
    · rfl

theorem applyRangeUpdates_Good :
    ∀ (us : List (Nat × Nat × Int)) (t : SumSegmentTree) (a : Nat → Int),
    t.Good a → (∀ u ∈ us, u.1 ≤ u.2.1 ∧ u.2.1 < t.original_size) →
    (t.applyRangeUpdates us).original_size = t.original_size
    ∧ (t.applyRangeUpdates us).Good (refRangeUpdates a us) := by
  intro us
  induction us with
  | nil => intro t a h _; exact ⟨rfl, h⟩
  | cons u us ih =>
    intro t a h hus
    have hu := hus u (List.mem_cons_self u us)
    have hg : u.1 < t.original_size ∧ u.2.1 < t.original_size := by omega
    have h' := SumSegmentTree.update_range_Good h u.1 u.2.1 u.2.2
    have heq : refRangeAdd t.original_size a u.1 u.2.1 u.2.2
        = fun i => if u.1 ≤ i ∧ i ≤ u.2.1 then a i + u.2.2 else a i := by
      funext i
      simp only [refRangeAdd]
      by_cases hir : u.1 ≤ i ∧ i ≤ u.2.1
      · rw [if_pos ⟨hg, hir⟩, if_pos hir]
      · rw [if_neg (fun hx => hir hx.2), if_neg hir]
    rw [heq] at h'
    have hos := t.update_range_os u.1 u.2.1 u.2.2
    obtain ⟨h1, h2⟩ := ih (t.update_range u.1 u.2.1 u.2.2) _ h'
      (by rw [hos]; exact fun w hw => hus w (List.mem_cons_of_mem u hw))
    rw [hos] at h1
    exact ⟨h1, h2⟩

/-- C1: for every array `A`, every sequence of in-range `update_range` calls,
and every valid query range `[lo, hi]`, the tree built by `from_array A` and
mutated by that sequence answers `query(lo, hi)` with exactly the sum of the
reference array obtained by applying the same range-adds element-wise. -/
theorem sum_segment_tree_correct (A : List Int) (us : List (Nat × Nat × Int))
    (lo hi : Nat) (hus : ∀ u ∈ us, u.1 ≤ u.2.1 ∧ u.2.1 < A.length)
    (hlo : lo ≤ hi) (hhi : hi < A.length) :
    (((SumSegmentTree.from_array A).applyRangeUpdates us).query lo hi).2
      = ∑ i ∈ Finset.Ico lo (hi + 1),
          refRangeUpdates (fun i => A.getD i 0) us i := by
  obtain ⟨hG0, hos0⟩ := SumSegmentTree.from_array_Good A
  obtain ⟨hos1, hG1⟩ := applyRangeUpdates_Good us _ _ hG0
    (by rw [hos0]; exact hus)
  obtain ⟨_, hv⟩ := SumSegmentTree.query_Good hG1 lo hi
  rw [hv, refQuery, hos1, hos0, if_pos ⟨by omega, hhi⟩]

/-- Witness for C1: the theorem applied at `A = [1, 2, 3]`,
`us = [(0, 1, 5)]`, `lo = 0`, `hi = 2`. -/
theorem sum_segment_tree_correct_witness :
    (∀ u ∈ [((0 : Nat), (1 : Nat), (5 : Int))],
        u.1 ≤ u.2.1 ∧ u.2.1 < ([(1 : Int), 2, 3]).length)
    ∧ (0 : Nat) ≤ 2 ∧ 2 < ([(1 : Int), 2, 3]).length
    ∧ (((SumSegmentTree.from_array [1, 2, 3]).applyRangeUpdates
          [(0, 1, 5)]).query 0 2).2
        = ∑ i ∈ Finset.Ico 0 3,
            refRangeUpdates (fun i => ([(1 : Int), 2, 3]).getD i 0)
              [(0, 1, 5)] i :=
  ⟨by decide, by omega, by decide,
    sum_segment_tree_correct [1, 2, 3] [(0, 1, 5)] 0 2 (by decide) (by omega)
      (by decide)⟩

theorem SegmentTree.query_helper_inverted {T : Type} :
    ∀ (fuel : Nat) (st : SegmentTree T) (node s e l r : Nat), r < l →
    st.op st.identity st.identity = st.identity →
    SegmentTree.query_helper fuel st node s e l r = st.identity := by
  intro fuel
  induction fuel with
  | zero => intro st node s e l r hrl hid; rfl
  | succ fuel ih =>
    intro st node s e l r hrl hid
    simp only [SegmentTree.query_helper]
    by_cases hA : r < s ∨ e < l
    · rw [if_pos hA]
    · rw [if_neg hA]
      by_cases hB : l ≤ s ∧ e ≤ r
      · exfalso; omega
      · rw [if_neg hB]
        by_cases hC : e ≤ s
        · rw [if_pos hC]
        · rw [if_neg hC]
          rw [ih st (2 * node) s ((s + e) / 2) l r hrl hid,
            ih st (2 * node + 1) ((s + e) / 2 + 1) e l r hrl hid, hid]

/-- C6: an inverted range (`lo > hi`, both below the size) queries to the
identity (0 for the sum tree) without failing; the sum tree's represented
array is unchanged by the call, and the generic tree (whose `identity` is an
identity for `op`) returns `identity`. -/
theorem empty_range_query (t : SumSegmentTree) (lo hi : Nat) (hinv : hi < lo)
    (hlo : lo < t.original_size) (hhi : hi < t.original_size) :
    (t.query lo hi).2 = 0
    ∧ (∀ i, (t.query lo hi).1.elemVal 1 0 (t.original_size - 1) i
        = t.elemVal 1 0 (t.original_size - 1) i)
    ∧ ∀ (T : Type) (st : SegmentTree T),
        st.op st.identity st.identity = st.identity → lo < st.original_size →
        hi < st.original_size → st.query lo hi = st.identity := by
  refine ⟨?_, fun i => ?_, fun T st hid hlo' hhi' => ?_⟩
  · rw [SumSegmentTree.query, if_pos ⟨hlo, hhi⟩]
    exact SumSegmentTree.query_helper_empty _ _ _ _ _ _ _ hinv
  · rw [SumSegmentTree.query, if_pos ⟨hlo, hhi⟩]
    exact SumSegmentTree.query_helper_pres _ _ _ _ _ _ _ (le_refl 1) i
  · rw [SegmentTree.query, if_pos ⟨hlo', hhi'⟩]
    exact SegmentTree.query_helper_inverted _ _ _ _ _ _ _ hinv hid

/-- Witness for C6: the theorem applied to the sum tree over `[1, 2, 3]` with
`lo = 2`, `hi = 1`. -/
theorem empty_range_query_witness :
    ((1 : Nat) < 2) ∧ 2 < (SumSegmentTree.from_array [1, 2, 3]).original_size
    ∧ 1 < (SumSegmentTree.from_array [1, 2, 3]).original_size
    ∧ (((SumSegmentTree.from_array [1, 2, 3]).query 2 1).2 = 0
      ∧ (∀ i, ((SumSegmentTree.from_array [1, 2, 3]).query 2 1).1.elemVal 1 0
            ((SumSegmentTree.from_array [1, 2, 3]).original_size - 1) i
          = (SumSegmentTree.from_array [1, 2, 3]).elemVal 1 0
              ((SumSegmentTree.from_array [1, 2, 3]).original_size - 1) i)
      ∧ ∀ (T : Type) (st : SegmentTree T),
          st.op st.identity st.identity = st.identity →
          2 < st.original_size → 1 < st.original_size →
          st.query 2 1 = st.identity) :=
  ⟨by omega, by decide, by decide,
    empty_range_query (SumSegmentTree.from_array [1, 2, 3]) 2 1 (by omega)
      (by decide) (by decide)⟩

/-- C10: although `query` takes `&mut self` and rewrites the `tree`/`lazy`
arrays, it is observationally pure: on any tree reachable from `from_array`
by any operation sequence, a repeated identical query returns the same value,
and inserting a query before any further operation sequence leaves every
later output unchanged. -/
theorem query_observationally_pure (A : List Int) (ops1 ops2 : List SOp)
    (ql qr : Nat) :
    ((((SumSegmentTree.from_array A).runOps ops1).1.query ql qr).1.query
        ql qr).2
      = (((SumSegmentTree.from_array A).runOps ops1).1.query ql qr).2
    ∧ ((((SumSegmentTree.from_array A).runOps ops1).1.query ql qr).1.runOps
          ops2).2
      = (((SumSegmentTree.from_array A).runOps ops1).1.runOps ops2).2 := by
  obtain ⟨hG0, hos0⟩ := SumSegmentTree.from_array_Good A
  obtain ⟨hos1, hG1, _⟩ := SumSegmentTree.runOps_spec ops1
    (SumSegmentTree.from_array A) (fun i => A.getD i 0) hG0
  obtain ⟨hG2, hv1⟩ := SumSegmentTree.query_Good hG1 ql qr
  obtain ⟨hG3, hv2⟩ := SumSegmentTree.query_Good hG2 ql qr
  constructor
  · rw [hv2, hv1, SumSegmentTree.query_os]
  · obtain ⟨_, _, ho1⟩ := SumSegmentTree.runOps_spec ops2 _ _ hG2
    obtain ⟨_, _, ho2⟩ := SumSegmentTree.runOps_spec ops2 _ _ hG1
    rw [ho1, ho2, SumSegmentTree.query_os]

theorem iterParent_succ_outer (p : Nat → Nat) :
    ∀ (k x : Nat), iterParent p (k + 1) x = p (iterParent p k x) := by
  intro k
  induction k with
  | zero => intro x; rfl
  | succ k ih =>
    intro x
    show iterParent p (k + 1) (p x) = p (iterParent p (k + 1) x)
    rw [ih (p x)]
    rfl

theorem iterParent_fix (p : Nat → Nat) (y : Nat) (h : p y = y) :
    ∀ k, iterParent p k y = y := by
  intro k
  induction k with
  | zero => rfl
  | succ k ih => rw [iterParent_succ_outer, ih, h]

theorem iterParent_add (p : Nat → Nat) :
    ∀ (a b x : Nat), iterParent p (a + b) x = iterParent p b (iterParent p a x) := by
  intro a
  induction a with
  | zero => intro b x; rw [Nat.zero_add]; rfl
  | succ a ih =>
    intro b x
    have h1 : a + 1 + b = (a + b) + 1 := by omega
    rw [h1]
    show iterParent p (a + b) (p x) = iterParent p b (iterParent p (a + 1) x)
    rw [ih b (p x)]
    rfl

theorem UnionFind.iterParent_lt (uf : UnionFind) (hwf : uf.WF) :
    ∀ (k x : Nat), x < uf.n → iterParent uf.parent k x < uf.n := by
  intro k
  induction k with
  | zero => intro x hx; exact hx
  | succ k ih =>
    intro x hx
    show iterParent uf.parent k (uf.parent x) < uf.n
    exact ih (uf.parent x) (hwf.1 x hx)

theorem UnionFind.rankAbove_le (uf : UnionFind) (x : Nat) :
    uf.rankAbove x ≤ uf.n := by
  have h := Finset.card_filter_le (Finset.range uf.n)
    (fun j => uf.rank x < uf.rank j)
  simpa using h

theorem UnionFind.rankAbove_parent_lt (uf : UnionFind) (hwf : uf.WF) (x : Nat)
    (hx : x < uf.n) (hroot : uf.parent x ≠ x) :
    uf.rankAbove (uf.parent x) < uf.rankAbove x := by
  have hrk := hwf.2 x hx hroot
  have hpx := hwf.1 x hx
  apply Finset.card_lt_card
  rw [Finset.ssubset_iff_of_subset]
  · exact ⟨uf.parent x, Finset.mem_filter.2 ⟨Finset.mem_range.2 hpx, hrk⟩,
      fun hmem => lt_irrefl _ (Finset.mem_filter.1 hmem).2⟩
  · intro j hj
    have hj' := Finset.mem_filter.1 hj
    exact Finset.mem_filter.2 ⟨hj'.1, lt_trans hrk hj'.2⟩

theorem UnionFind.reach_aux (uf : UnionFind) (hwf : uf.WF) :
    ∀ (m x : Nat), x < uf.n → uf.rankAbove x ≤ m →
    ∃ d, d ≤ m ∧ uf.parent (iterParent uf.parent d x) = iterParent uf.parent d x := by
  intro m
  induction m with
  | zero =>
    intro x hx hm
    by_cases h : uf.parent x = x
    · exact ⟨0, le_refl 0, h⟩
    · exact absurd (uf.rankAbove_parent_lt hwf x hx h) (by omega)
  | succ m ih =>
    intro x hx hm
    by_cases h : uf.parent x = x
    · exact ⟨0, Nat.zero_le _, h⟩
    · have hlt := uf.rankAbove_parent_lt hwf x hx h
      obtain ⟨d, hd, hroot⟩ := ih (uf.parent x) (hwf.1 x hx) (by omega)
      exact ⟨d + 1, by omega, hroot⟩

theorem UnionFind.rootOf_fix (uf : UnionFind) (x : Nat) (h : uf.parent x = x) :
    uf.rootOf x = x :=
  iterParent_fix uf.parent x h uf.n

theorem UnionFind.rootOf_lt (uf : UnionFind) (hwf : uf.WF) (x : Nat)
    (hx : x < uf.n) : uf.rootOf x < uf.n :=
  uf.iterParent_lt hwf uf.n x hx

theorem UnionFind.rootOf_isRoot (uf : UnionFind) (hwf : uf.WF) (x : Nat)
    (hx : x < uf.n) : uf.parent (uf.rootOf x) = uf.rootOf x := by
  obtain ⟨d, hd, hroot⟩ := uf.reach_aux hwf (uf.rankAbove x) x hx (le_refl _)
  have hdn : d ≤ uf.n := le_trans hd (uf.rankAbove_le x)
  have h1 : uf.rootOf x = iterParent uf.parent d x := by
    show iterParent uf.parent uf.n x = iterParent uf.parent d x
    have h2 : uf.n = d + (uf.n - d) := by omega
    rw [h2, iterParent_add, iterParent_fix uf.parent _ hroot]
  rw [h1]
  exact hroot

theorem UnionFind.rootOf_parent (uf : UnionFind) (hwf : uf.WF) (x : Nat)
    (hx : x < uf.n) : uf.rootOf (uf.parent x) = uf.rootOf x := by
  show iterParent uf.parent uf.n (uf.parent x) = uf.rootOf x
  have h1 : iterParent uf.parent uf.n (uf.parent x)
      = iterParent uf.parent (uf.n + 1) x := rfl
  rw [h1, iterParent_succ_outer]
  exact uf.rootOf_isRoot hwf x hx

theorem UnionFind.rank_lt_rootOf (uf : UnionFind) (hwf : uf.WF) :
    ∀ (m x : Nat), x < uf.n → uf.rankAbove x ≤ m → uf.parent x ≠ x →
    uf.rank x < uf.rank (uf.rootOf x) := by
  intro m
  induction m with
  | zero =>
    intro x hx hm h
    exact absurd (uf.rankAbove_parent_lt hwf x hx h) (by omega)
  | succ m ih =>
    intro x hx hm h
    have hrk := hwf.2 x hx h
    have hpx := hwf.1 x hx
    rw [← uf.rootOf_parent hwf x hx]
    by_cases h2 : uf.parent (uf.parent x) = uf.parent x
    · rw [uf.rootOf_fix (uf.parent x) h2]
      exact hrk
    · have hlt := uf.rankAbove_parent_lt hwf x hx h
      exact lt_trans hrk (ih (uf.parent x) hpx (by omega) h2)

/-! ## Union-find: path compression preserves roots and components -/

theorem UnionFind.compress_WF (uf uf' : UnionFind) (hwf : uf.WF) (x : Nat)
    (hx : x < uf.n) (hp : uf'.parent = Function.update uf.parent x (uf.rootOf x))
    (hr : uf'.rank = uf.rank) (hn : uf'.n = uf.n) : uf'.WF := by
  constructor
  · intro j hj
    rw [hn] at hj ⊢
    rw [hp]
    by_cases hjx : j = x
    · rw [hjx, Function.update_same x (uf.rootOf x) uf.parent]
      exact uf.rootOf_lt hwf x hx
    · rw [Function.update_noteq hjx (uf.rootOf x) uf.parent]
      exact hwf.1 j hj
  · intro j hj hne
    rw [hn] at hj
    rw [hp] at hne ⊢
    rw [hr]
    by_cases hjx : j = x
    · rw [hjx] at hne ⊢
      rw [Function.update_same x (uf.rootOf x) uf.parent] at hne ⊢
      have hroot : uf.parent x ≠ x := fun hh => hne (uf.rootOf_fix x hh)
      exact uf.rank_lt_rootOf hwf (uf.rankAbove x) x hx (le_refl _) hroot
    · rw [Function.update_noteq hjx (uf.rootOf x) uf.parent] at hne ⊢
      exact hwf.2 j hj hne

theorem UnionFind.compress_roots (uf uf' : UnionFind) (hwf : uf.WF) (x : Nat)
    (hx : x < uf.n) (hp : uf'.parent = Function.update uf.parent x (uf.rootOf x)) :
    ∀ j, (uf'.parent j = j ↔ uf.parent j = j) := by
  intro j
  rw [hp]
  by_cases hjx : j = x
  · rw [hjx, Function.update_same x (uf.rootOf x) uf.parent]
    constructor
    · intro h
      by_contra hne
      have h2 := uf.rank_lt_rootOf hwf (uf.rankAbove x) x hx (le_refl _) hne
      rw [h] at h2
      exact lt_irrefl _ h2
    · exact fun h => uf.rootOf_fix x h
  · rw [Function.update_noteq hjx (uf.rootOf x) uf.parent]

theorem UnionFind.compress_rootOf (uf uf' : UnionFind) (hwf : uf.WF) (x : Nat)
    (hx : x < uf.n) (hp : uf'.parent = Function.update uf.parent x (uf.rootOf x))
    (hr : uf'.rank = uf.rank) (hn : uf'.n = uf.n) :
    ∀ (m j : Nat), j < uf.n → uf'.rankAbove j ≤ m → uf'.rootOf j = uf.rootOf j := by
  have hwf' := UnionFind.compress_WF uf uf' hwf x hx hp hr hn
  intro m
  induction m with
  | zero =>
    intro j hj hm
    by_cases h : uf'.parent j = j
    · rw [uf'.rootOf_fix j h,
        uf.rootOf_fix j ((UnionFind.compress_roots uf uf' hwf x hx hp j).1 h)]
    · exact absurd (uf'.rankAbove_parent_lt hwf' j (by omega) h) (by omega)
  | succ m ih =>
    intro j hj hm
    by_cases h : uf'.parent j = j
    · rw [uf'.rootOf_fix j h,
        uf.rootOf_fix j ((UnionFind.compress_roots uf uf' hwf x hx hp j).1 h)]
    · have hj' : j < uf'.n := by omega
      have hlt := uf'.rankAbove_parent_lt hwf' j hj' h
      have hp_lt : uf'.parent j < uf.n := by
        have h3 := hwf'.1 j hj'
        omega
      have h2 := ih (uf'.parent j) hp_lt (by omega)
      rw [← uf'.rootOf_parent hwf' j hj', h2]
      by_cases hjx : j = x
      · rw [hjx] at h ⊢
        have hpx : uf'.parent x = uf.rootOf x := by
          rw [hp]
          exact Function.update_same x (uf.rootOf x) uf.parent
        rw [hpx, uf.rootOf_fix (uf.rootOf x) (uf.rootOf_isRoot hwf x hx)]
      · have hpj : uf'.parent j = uf.parent j := by
          rw [hp]
          exact Function.update_noteq hjx (uf.rootOf x) uf.parent
        rw [hpj]
        exact uf.rootOf_parent hwf j hj

theorem UnionFind.find_root_eval (uf : UnionFind) (x : Nat)
    (h : uf.parent x = x) : ∀ fuel, 0 < fuel → uf.find fuel x = (uf, x) := by
  intro fuel hf
  cases fuel with
  | zero => omega
  | succ ff =>
    show UnionFind.find (ff + 1) uf x = (uf, x)
    simp only [UnionFind.find]
    rw [if_neg (fun hh => hh h)]

theorem UnionFind.find_spec_root (uf : UnionFind) (hwf : uf.WF) (x fuel : Nat)
    (hx : x < uf.n) (h : uf.parent x = x) (hf : 0 < fuel) :
    uf.FindSpec x fuel := by
  have hroot : uf.rootOf x = x := uf.rootOf_fix x h
  unfold UnionFind.FindSpec
  rw [uf.find_root_eval x h fuel hf]
  refine ⟨hroot.symm, rfl, rfl, rfl, rfl, fun j => Iff.rfl, fun j hj => rfl,
    hwf, ?_, ?_⟩
  · intro k
    show uf.parent (iterParent uf.parent k x) = uf.rootOf x
    rw [iterParent_fix uf.parent x h k, h, hroot]
  · intro fuel' hf'
    rw [uf.find_root_eval x h fuel' (by omega)]

theorem UnionFind.find_combine (uf q s2 : UnionFind) (x r : Nat)
    (hwf : uf.WF) (hx : x < uf.n)
    (h1 : r = uf.rootOf (uf.parent x))
    (h5 : q.n = uf.n)
    (h7 : ∀ j, j < uf.n → q.rootOf j = uf.rootOf j)
    (h8 : q.WF)
    (h9 : ∀ k, q.parent (iterParent uf.parent k (uf.parent x))
        = uf.rootOf (uf.parent x))
    (hs2 : s2 = { q with parent := Function.update q.parent x r }) :
    s2.WF ∧ (∀ j, (s2.parent j = j ↔ q.parent j = j))
    ∧ (∀ j, j < uf.n → s2.rootOf j = uf.rootOf j)
    ∧ (∀ k, s2.parent (iterParent uf.parent k x) = uf.rootOf x) := by
  have hr2 : r = uf.rootOf x := by rw [h1, uf.rootOf_parent hwf x hx]
  have hxq : x < q.n := by rw [h5]; exact hx
  have hqroot : q.rootOf x = r := by rw [hr2, h7 x hx]
  have hp2 : s2.parent = Function.update q.parent x (q.rootOf x) := by
    rw [hs2, hqroot]
  have hrk2 : s2.rank = q.rank := by rw [hs2]
  have hn2 : s2.n = q.n := by rw [hs2]
  refine ⟨UnionFind.compress_WF q s2 h8 x hxq hp2 hrk2 hn2,
    UnionFind.compress_roots q s2 h8 x hxq hp2,
    fun j hj => Eq.trans
      (UnionFind.compress_rootOf q s2 h8 x hxq hp2 hrk2 hn2 (s2.rankAbove j) j
        (by rw [h5]; exact hj) (le_refl _))
      (h7 j hj), ?_⟩
  intro k
  cases k with
  | zero =>
    show s2.parent x = uf.rootOf x
    rw [hs2]
    show Function.update q.parent x r x = uf.rootOf x
    rw [Function.update_same x r q.parent]
    exact hr2
  | succ k =>
    show s2.parent (iterParent uf.parent k (uf.parent x)) = uf.rootOf x
    rw [hs2]
    show Function.update q.parent x r (iterParent uf.parent k (uf.parent x))
        = uf.rootOf x
    by_cases hyx : iterParent uf.parent k (uf.parent x) = x
    · rw [hyx, Function.update_same x r q.parent]
      exact hr2
    · rw [Function.update_noteq hyx r q.parent, h9 k,
        uf.rootOf_parent hwf x hx]

theorem UnionFind.find_spec (uf : UnionFind) (hwf : uf.WF) :
    ∀ (m x fuel : Nat), x < uf.n → uf.rankAbove x ≤ m → uf.rankAbove x < fuel →
    uf.FindSpec x fuel := by
  intro m
  induction m with
  | zero =>
    intro x fuel hx hm hfuel
    by_cases h : uf.parent x = x
    · exact uf.find_spec_root hwf x fuel hx h (by omega)
    · exact absurd (uf.rankAbove_parent_lt hwf x hx h) (by omega)
  | succ m ih =>
    intro x fuel hx hm hfuel
    by_cases h : uf.parent x = x
    · exact uf.find_spec_root hwf x fuel hx h (by omega)
    · have hpx : uf.parent x < uf.n := hwf.1 x hx
      have hlt := uf.rankAbove_parent_lt hwf x hx h
      have hunfold : ∀ f, uf.find (f + 1) x
          = ({ (uf.find f (uf.parent x)).1 with
                parent := (Function.update (uf.find f (uf.parent x)).1.parent x
                  (uf.find f (uf.parent x)).2) },
             (uf.find f (uf.parent x)).2) := by
        intro f
        show UnionFind.find (f + 1) uf x = _
        simp only [UnionFind.find]
        rw [if_pos h]
      cases fuel with
      | zero => omega
      | succ ff =>
        obtain ⟨ih1, ih2, ih3, ih4, ih5, ih6, ih7, ih8, ih9, ih10⟩ :=
          ih (uf.parent x) ff hpx (by omega) (by omega)
        obtain ⟨w1, w2, w3, w4⟩ := UnionFind.find_combine uf
          (uf.find ff (uf.parent x)).1
          ({ (uf.find ff (uf.parent x)).1 with
              parent := (Function.update (uf.find ff (uf.parent x)).1.parent x
                (uf.find ff (uf.parent x)).2) })
          x (uf.find ff (uf.parent x)).2 hwf hx ih1 ih5 ih7 ih8 ih9 rfl
        unfold UnionFind.FindSpec
        rw [hunfold ff]
        refine ⟨ih1.trans (uf.rootOf_parent hwf x hx), ih2, ih3, ih4, ih5,
          fun j => Iff.trans (w2 j) (ih6 j), w3, w1, w4, ?_⟩
        intro fuel' hf'
        cases fuel' with
        | zero => omega
        | succ ff' =>
          rw [hunfold ff', ih10 ff' (by omega)]

theorem UnionFind.find_spec' (uf : UnionFind) (hwf : uf.WF) (x : Nat)
    (hx : x < uf.n) : uf.FindSpec x (uf.n + 1) :=
  uf.find_spec hwf (uf.rankAbove x) x (uf.n + 1) hx (le_refl _)
    (by have h := uf.rankAbove_le x; omega)

/-! ## Union-find: linking two roots -/

theorem UnionFind.WF_link (uf uf' : UnionFind) (hwf : uf.WF) (a b : Nat)
    (hb : b < uf.n) (hab : a ≠ b) (hrb : uf.parent b = b)
    (hp : uf'.parent = Function.update uf.parent a b)
    (hn : uf'.n = uf.n)
    (hmono : ∀ j, uf.rank j ≤ uf'.rank j)
    (heq : ∀ j, j ≠ b → uf'.rank j = uf.rank j)
    (hr : uf'.rank a < uf'.rank b) : uf'.WF := by
  constructor
  · intro j hj
    rw [hn] at hj ⊢
    rw [hp]
    by_cases hja : j = a
    · rw [hja, Function.update_same a b uf.parent]
      exact hb
    · rw [Function.update_noteq hja b uf.parent]
      exact hwf.1 j hj
  · intro j hj hne
    rw [hn] at hj
    rw [hp] at hne ⊢
    by_cases hja : j = a
    · rw [hja] at hne ⊢
      rw [Function.update_same a b uf.parent] at hne ⊢
      exact hr
    · rw [Function.update_noteq hja b uf.parent] at hne ⊢
      have hlt := hwf.2 j hj hne
      by_cases hjb : j = b
      · rw [hjb] at hne
        exact absurd hrb hne
      · rw [heq j hjb]
        exact lt_of_lt_of_le hlt (hmono (uf.parent j))

theorem UnionFind.rootsCard_congr (uf uf' : UnionFind) (hn : uf'.n = uf.n)
    (h : ∀ j, (uf'.parent j = j ↔ uf.parent j = j)) :
    uf'.rootsCard = uf.rootsCard := by
  show ((Finset.range uf'.n).filter (fun j => uf'.parent j = j)).card
      = ((Finset.range uf.n).filter (fun j => uf.parent j = j)).card
  congr 1
  apply Finset.ext
  intro j
  simp only [Finset.mem_filter, Finset.mem_range, hn]
  constructor
  · rintro ⟨h1, h2⟩
    exact ⟨h1, (h j).1 h2⟩
  · rintro ⟨h1, h2⟩
    exact ⟨h1, (h j).2 h2⟩

theorem UnionFind.rootsCard_link (uf uf' : UnionFind) (a b : Nat)
    (ha : a < uf.n) (hb : b < uf.n) (hab : a ≠ b)
    (hra : uf.parent a = a) (hrb : uf.parent b = b)
    (hp : uf'.parent = Function.update uf.parent a b)
    (hn : uf'.n = uf.n) :
    uf'.rootsCard + 1 = uf.rootsCard ∧ 2 ≤ uf.rootsCard := by
  have hmem_a : a ∈ (Finset.range uf.n).filter (fun j => uf.parent j = j) :=
    Finset.mem_filter.2 ⟨Finset.mem_range.2 ha, hra⟩
  have hmem_b : b ∈ (Finset.range uf.n).filter (fun j => uf.parent j = j) :=
    Finset.mem_filter.2 ⟨Finset.mem_range.2 hb, hrb⟩
  have h2le : 2 ≤ ((Finset.range uf.n).filter (fun j => uf.parent j = j)).card :=
    Finset.one_lt_card.2 ⟨a, hmem_a, b, hmem_b, hab⟩
  have hfe : (Finset.range uf'.n).filter (fun j => uf'.parent j = j)
      = ((Finset.range uf.n).filter (fun j => uf.parent j = j)).erase a := by
    apply Finset.ext
    intro j
    simp only [Finset.mem_filter, Finset.mem_erase, Finset.mem_range, hn, hp]
    by_cases hja : j = a
    · rw [hja, Function.update_same a b uf.parent]
      constructor
      · rintro ⟨h1, h2⟩
        exact absurd h2 (Ne.symm hab)
      · rintro ⟨h1, h2⟩
        exact absurd rfl h1
    · rw [Function.update_noteq hja b uf.parent]
      constructor
      · rintro ⟨h1, h2⟩
        exact ⟨hja, h1, h2⟩
      · rintro ⟨h1, h2, h3⟩
        exact ⟨h2, h3⟩
  have hcard := Finset.card_erase_of_mem hmem_a
  refine ⟨?_, h2le⟩
  show ((Finset.range uf'.n).filter (fun j => uf'.parent j = j)).card + 1
      = ((Finset.range uf.n).filter (fun j => uf.parent j = j)).card
  rw [hfe, hcard]
  omega

theorem UnionFind.new_WF (n : Nat) : (UnionFind.new n).WF := by
  constructor
  · intro x hx
    exact hx
  · intro x hx hne
    exact absurd rfl hne

theorem UnionFind.new_CInv (n : Nat) : (UnionFind.new n).CInv := by
  show n = ((Finset.range n).filter (fun j => j = j)).card
  rw [Finset.filter_true_of_mem (fun j hj => rfl), Finset.card_range]

theorem UnionFind.union_eval (uf : UnionFind) (hwf : uf.WF) (x y : Nat)
    (hx : x < uf.n) (hy : y < uf.n) :
    ∃ uf2 : UnionFind,
      uf2.rank = uf.rank ∧ uf2.size = uf.size
      ∧ uf2.components = uf.components ∧ uf2.n = uf.n
      ∧ (∀ j, (uf2.parent j = j ↔ uf.parent j = j))
      ∧ (∀ j, j < uf.n → uf2.rootOf j = uf.rootOf j)
      ∧ uf2.WF
      ∧ uf2.parent (uf.rootOf x) = uf.rootOf x
      ∧ uf2.parent (uf.rootOf y) = uf.rootOf y
      ∧ uf.union x y =
        (if uf.rootOf x = uf.rootOf y then (uf2, false)
         else if uf2.rank (uf.rootOf x) < uf2.rank (uf.rootOf y) then
           ({ uf2 with
               parent := (Function.update uf2.parent (uf.rootOf x) (uf.rootOf y)),
               size := (Function.update uf2.size (uf.rootOf y)
                 (uf2.size (uf.rootOf y) + uf2.size (uf.rootOf x))),
               components := uf2.components - 1 }, true)
         else if uf2.rank (uf.rootOf y) < uf2.rank (uf.rootOf x) then
           ({ uf2 with
               parent := (Function.update uf2.parent (uf.rootOf y) (uf.rootOf x)),
               size := (Function.update uf2.size (uf.rootOf x)
                 (uf2.size (uf.rootOf x) + uf2.size (uf.rootOf y))),
               components := uf2.components - 1 }, true)
         else
           ({ uf2 with
               parent := (Function.update uf2.parent (uf.rootOf y) (uf.rootOf x)),
               size := (Function.update uf2.size (uf.rootOf x)
                 (uf2.size (uf.rootOf x) + uf2.size (uf.rootOf y))),
               rank := (Function.update uf2.rank (uf.rootOf x)
                 (uf2.rank (uf.rootOf x) + 1)),
               components := uf2.components - 1 }, true)) := by
  obtain ⟨a1, a2, a3, a4, a5, a6, a7, a8, a9, a10⟩ := uf.find_spec' hwf x hx
  have hy1 : y < (uf.find (uf.n + 1) x).1.n := by rw [a5]; exact hy
  obtain ⟨b1, b2, b3, b4, b5, b6, b7, b8, b9, b10⟩ :=
    (uf.find (uf.n + 1) x).1.find_spec' a8 y hy1
  refine ⟨((uf.find (uf.n + 1) x).1.find ((uf.find (uf.n + 1) x).1.n + 1) y).1,
    b2.trans a2, b3.trans a3, b4.trans a4, b5.trans a5,
    fun j => (b6 j).trans (a6 j),
    fun j hj => (b7 j (by rw [a5]; exact hj)).trans (a7 j hj),
    b8,
    (b6 (uf.rootOf x)).2 ((a6 (uf.rootOf x)).2 (uf.rootOf_isRoot hwf x hx)),
    (b6 (uf.rootOf y)).2 ((a6 (uf.rootOf y)).2 (uf.rootOf_isRoot hwf y hy)),
    ?_⟩
  show uf.union x y = _
  simp only [UnionFind.union]
  rw [a1, b1, a7 y hy]
  by_cases hroots : uf.rootOf x = uf.rootOf y
  · rw [if_pos hroots, if_pos hroots]
  · rw [if_neg hroots, if_neg hroots]
    by_cases h2 : ((uf.find (uf.n + 1) x).1.find
          ((uf.find (uf.n + 1) x).1.n + 1) y).1.rank (uf.rootOf x)
        < ((uf.find (uf.n + 1) x).1.find
          ((uf.find (uf.n + 1) x).1.n + 1) y).1.rank (uf.rootOf y)
    · rw [if_pos h2, if_pos h2]
    · rw [if_neg h2, if_neg h2]
      by_cases h3 : ((uf.find (uf.n + 1) x).1.find
            ((uf.find (uf.n + 1) x).1.n + 1) y).1.rank (uf.rootOf y)
          < ((uf.find (uf.n + 1) x).1.find
            ((uf.find (uf.n + 1) x).1.n + 1) y).1.rank (uf.rootOf x)
      · rw [if_pos h3, if_pos h3]
      · rw [if_neg h3, if_neg h3]

theorem UnionFind.union_link_spec (uf uf2 s : UnionFind)
    (e3 : uf2.components = uf.components) (e4 : uf2.n = uf.n)
    (e5 : ∀ j, (uf2.parent j = j ↔ uf.parent j = j))
    (e7 : uf2.WF) (a b : Nat)
    (ha : a < uf.n) (hb : b < uf.n) (hab : a ≠ b)
    (hra : uf2.parent a = a) (hrb : uf2.parent b = b)
    (hsp : s.parent = Function.update uf2.parent a b)
    (hsn : s.n = uf2.n) (hsc : s.components = uf2.components - 1)
    (hmono : ∀ j, uf2.rank j ≤ s.rank j)
    (heq : ∀ j, j ≠ b → s.rank j = uf2.rank j)
    (hrk : s.rank a < s.rank b) :
    s.n = uf.n ∧ s.WF
    ∧ (uf.CInv → 2 ≤ uf.components ∧ s.components + 1 = uf.components)
    ∧ (uf.CInv → s.CInv) := by
  have hWF := UnionFind.WF_link uf2 s e7 a b (by rw [e4]; exact hb) hab hrb
    hsp hsn hmono heq hrk
  have hlink := UnionFind.rootsCard_link uf2 s a b (by rw [e4]; exact ha)
    (by rw [e4]; exact hb) hab hra hrb hsp hsn
  have hcongr := UnionFind.rootsCard_congr uf uf2 e4 e5
  refine ⟨hsn.trans e4, hWF, fun hc => ?_, fun hc => ?_⟩
  · have h1 := hlink.1
    have h2 := hlink.2
    have hc' : uf.components = uf.rootsCard := hc
    omega
  · have h1 := hlink.1
    have hc' : uf.components = uf.rootsCard := hc
    show s.components = s.rootsCard
    omega

theorem UnionFind.union_spec (uf : UnionFind) (hwf : uf.WF) (x y : Nat)
    (hx : x < uf.n) (hy : y < uf.n) :
    (uf.union x y).1.n = uf.n
    ∧ (uf.union x y).1.WF
    ∧ ((uf.union x y).2 = false ↔ uf.rootOf x = uf.rootOf y)
    ∧ ((uf.union x y).2 = false → (uf.union x y).1.components = uf.components)
    ∧ ((uf.union x y).2 = true → uf.CInv →
        2 ≤ uf.components ∧ (uf.union x y).1.components + 1 = uf.components)
    ∧ (uf.CInv → (uf.union x y).1.CInv) := by
  obtain ⟨uf2, e1, e2, e3, e4, e5, e6, e7, e8, e9, e10⟩ :=
    uf.union_eval hwf x y hx hy
  rw [e10]
  by_cases hroots : uf.rootOf x = uf.rootOf y
  · rw [if_pos hroots]
    refine ⟨e4, e7, ⟨fun h => hroots, fun h => rfl⟩, fun h => e3,
      fun ht => Bool.noConfusion ht, fun hc => ?_⟩
    show uf2.components = uf2.rootsCard
    have hc' : uf.components = uf.rootsCard := hc
    have hcongr := UnionFind.rootsCard_congr uf uf2 e4 e5
    omega
  · have hrx : uf.rootOf x < uf.n := uf.rootOf_lt hwf x hx
    have hry : uf.rootOf y < uf.n := uf.rootOf_lt hwf y hy
    rw [if_neg hroots]
    by_cases h2 : uf2.rank (uf.rootOf x) < uf2.rank (uf.rootOf y)
    · rw [if_pos h2]
      obtain ⟨l1, l2, l3, l4⟩ := UnionFind.union_link_spec uf uf2
        ({ uf2 with
            parent := (Function.update uf2.parent (uf.rootOf x) (uf.rootOf y)),
            size := (Function.update uf2.size (uf.rootOf y)
              (uf2.size (uf.rootOf y) + uf2.size (uf.rootOf x))),
            components := uf2.components - 1 })
        e3 e4 e5 e7 (uf.rootOf x) (uf.rootOf y) hrx hry hroots e8 e9
        rfl rfl rfl (fun j => le_refl _) (fun j hj => rfl) h2
      exact ⟨l1, l2, ⟨fun ht => Bool.noConfusion ht, fun hre => absurd hre hroots⟩,
        fun ht => Bool.noConfusion ht, fun ht hc => l3 hc, l4⟩
    · rw [if_neg h2]
      by_cases h3 : uf2.rank (uf.rootOf y) < uf2.rank (uf.rootOf x)
      · rw [if_pos h3]
        obtain ⟨l1, l2, l3, l4⟩ := UnionFind.union_link_spec uf uf2
          ({ uf2 with
              parent := (Function.update uf2.parent (uf.rootOf y) (uf.rootOf x)),
              size := (Function.update uf2.size (uf.rootOf x)
                (uf2.size (uf.rootOf x) + uf2.size (uf.rootOf y))),
              components := uf2.components - 1 })
          e3 e4 e5 e7 (uf.rootOf y) (uf.rootOf x) hry hrx
          (fun hh => hroots hh.symm) e9 e8
          rfl rfl rfl (fun j => le_refl _) (fun j hj => rfl) h3
        exact ⟨l1, l2, ⟨fun ht => Bool.noConfusion ht, fun hre => absurd hre hroots⟩,
          fun ht => Bool.noConfusion ht, fun ht hc => l3 hc, l4⟩
      · rw [if_neg h3]
        have hre : uf2.rank (uf.rootOf x) = uf2.rank (uf.rootOf y) := by omega
        obtain ⟨l1, l2, l3, l4⟩ := UnionFind.union_link_spec uf uf2
          ({ uf2 with
              parent := (Function.update uf2.parent (uf.rootOf y) (uf.rootOf x)),
              size := (Function.update uf2.size (uf.rootOf x)
                (uf2.size (uf.rootOf x) + uf2.size (uf.rootOf y))),
              rank := (Function.update uf2.rank (uf.rootOf x)
                (uf2.rank (uf.rootOf x) + 1)),
              components := uf2.components - 1 })
          e3 e4 e5 e7 (uf.rootOf y) (uf.rootOf x) hry hrx
          (fun hh => hroots hh.symm) e9 e8
          rfl rfl rfl
          (by
            intro j
            show uf2.rank j ≤ Function.update uf2.rank (uf.rootOf x)
              (uf2.rank (uf.rootOf x) + 1) j
            by_cases hj : j = uf.rootOf x
            · rw [hj, Function.update_same (uf.rootOf x)
                (uf2.rank (uf.rootOf x) + 1) uf2.rank]
              omega
            · rw [Function.update_noteq hj (uf2.rank (uf.rootOf x) + 1) uf2.rank])
          (by
            intro j hj
            show Function.update uf2.rank (uf.rootOf x)
              (uf2.rank (uf.rootOf x) + 1) j = uf2.rank j
            rw [Function.update_noteq hj (uf2.rank (uf.rootOf x) + 1) uf2.rank])
          (by
            show Function.update uf2.rank (uf.rootOf x)
                (uf2.rank (uf.rootOf x) + 1) (uf.rootOf y)
              < Function.update uf2.rank (uf.rootOf x)
                (uf2.rank (uf.rootOf x) + 1) (uf.rootOf x)
            rw [Function.update_same (uf.rootOf x)
              (uf2.rank (uf.rootOf x) + 1) uf2.rank,
              Function.update_noteq (fun hh => hroots hh.symm)
              (uf2.rank (uf.rootOf x) + 1) uf2.rank]
            omega)
        exact ⟨l1, l2, ⟨fun ht => Bool.noConfusion ht, fun hre => absurd hre hroots⟩,
          fun ht => Bool.noConfusion ht, fun ht hc => l3 hc, l4⟩

theorem UnionFind.connected_eval (uf : UnionFind) (hwf : uf.WF) (x y : Nat)
    (hx : x < uf.n) (hy : y < uf.n) :
    ((uf.connected x y).2 = true ↔ uf.rootOf x = uf.rootOf y) := by
  obtain ⟨a1, a2, a3, a4, a5, a6, a7, a8, a9, a10⟩ := uf.find_spec' hwf x hx
  have hy1 : y < (uf.find (uf.n + 1) x).1.n := by rw [a5]; exact hy
  obtain ⟨b1, b2, b3, b4, b5, b6, b7, b8, b9, b10⟩ :=
    (uf.find (uf.n + 1) x).1.find_spec' a8 y hy1
  show (decide ((uf.find (uf.n + 1) x).2
      = ((uf.find (uf.n + 1) x).1.find ((uf.find (uf.n + 1) x).1.n + 1) y).2)
        = true) ↔ _
  rw [decide_eq_true_iff, a1, b1, a7 y hy]

theorem UnionFind.runUnions_spec :
    ∀ (ps : List (Nat × Nat)) (uf : UnionFind), uf.WF → uf.CInv →
    (∀ p ∈ ps, p.1 < uf.n ∧ p.2 < uf.n) →
    (uf.runUnions ps).1.n = uf.n ∧ (uf.runUnions ps).1.WF
    ∧ (uf.runUnions ps).1.CInv
    ∧ (uf.runUnions ps).1.components + countTrue (uf.runUnions ps).2
        = uf.components := by
  intro ps
  induction ps with
  | nil =>
    intro uf h1 h2 h3
    exact ⟨rfl, h1, h2, rfl⟩
  | cons p ps ih =>
    intro uf h1 h2 h3
    have hp := h3 p (List.mem_cons_self p ps)
    obtain ⟨u1, u2, u3, u4, u5, u6⟩ := uf.union_spec h1 p.1 p.2 hp.1 hp.2
    have hCInv2 := u6 h2
    obtain ⟨r1, r2, r3, r4⟩ := ih (uf.union p.1 p.2).1 u2 hCInv2
      (fun w hw => by rw [u1]; exact h3 w (List.mem_cons_of_mem p hw))
    have hrun : uf.runUnions (p :: ps)
        = (((uf.union p.1 p.2).1.runUnions ps).1,
           (uf.union p.1 p.2).2 :: ((uf.union p.1 p.2).1.runUnions ps).2) := by
      show UnionFind.runUnions uf (p :: ps) = _
      simp only [UnionFind.runUnions]
    rw [hrun]
    refine ⟨r1.trans u1, r2, r3, ?_⟩
    show ((uf.union p.1 p.2).1.runUnions ps).1.components
        + countTrue ((uf.union p.1 p.2).2 :: ((uf.union p.1 p.2).1.runUnions ps).2)
        = uf.components
    have hcnt : countTrue ((uf.union p.1 p.2).2
          :: ((uf.union p.1 p.2).1.runUnions ps).2)
        = cond (uf.union p.1 p.2).2 1 0
          + countTrue ((uf.union p.1 p.2).1.runUnions ps).2 := rfl
    rw [hcnt]
    rcases Bool.eq_false_or_eq_true (uf.union p.1 p.2).2 with hb | hb
    · have h5 := u5 hb h2
      rw [hb]
      show ((uf.union p.1 p.2).1.runUnions ps).1.components
          + (1 + countTrue ((uf.union p.1 p.2).1.runUnions ps).2) = uf.components
      omega
    · have hcomp := u4 hb
      rw [hb]
      show ((uf.union p.1 p.2).1.runUnions ps).1.components
          + (0 + countTrue ((uf.union p.1 p.2).1.runUnions ps).2) = uf.components
      omega

theorem UnionFind.reachable_WF (uf : UnionFind) (h : uf.Reachable) :
    uf.WF ∧ uf.CInv := by
  induction h with
  | new n => exact ⟨UnionFind.new_WF n, UnionFind.new_CInv n⟩
  | union_step x y hx hy hr ih =>
    obtain ⟨u1, u2, u3, u4, u5, u6⟩ := UnionFind.union_spec _ ih.1 x y hx hy
    exact ⟨u2, u6 ih.2⟩
  | find_step x hx hr ih =>
    obtain ⟨c1, c2, c3, c4, c5, c6, c7, c8, c9, c10⟩ :=
      UnionFind.find_spec' _ ih.1 x hx
    refine ⟨c8, ?_⟩
    have h2 : ∀ (v : UnionFind), v.CInv → v.components = v.rootsCard :=
      fun v hv => hv
    have h3 := h2 _ ih.2
    have hcongr := UnionFind.rootsCard_congr _ _ c5 c6
    show (UnionFind.find _ _ x).1.components = (UnionFind.find _ _ x).1.rootsCard
    omega

/-- C4: on `UnionFind::new(n)`, for any sequence of in-range `union` calls,
`component_count` equals `n` minus the number of unions that returned `true`;
a `union(x, y)` on an already-connected pair (same root, including `x = y`)
returns `false` and leaves `component_count` unchanged (and `connected`
agrees with root equality). -/
theorem union_idempotent_component_count (n : Nat) (ps : List (Nat × Nat))
    (hps : ∀ p ∈ ps, p.1 < n ∧ p.2 < n) (x y : Nat) (hx : x < n) (hy : y < n) :
    ((UnionFind.new n).runUnions ps).1.component_count
        = n - countTrue ((UnionFind.new n).runUnions ps).2
    ∧ ((((UnionFind.new n).runUnions ps).1.connected x y).2 = true ↔
        ((UnionFind.new n).runUnions ps).1.rootOf x
          = ((UnionFind.new n).runUnions ps).1.rootOf y)
    ∧ (((UnionFind.new n).runUnions ps).1.rootOf x
          = ((UnionFind.new n).runUnions ps).1.rootOf y →
        (((UnionFind.new n).runUnions ps).1.union x y).2 = false
        ∧ (((UnionFind.new n).runUnions ps).1.union x y).1.component_count
            = ((UnionFind.new n).runUnions ps).1.component_count) := by
  obtain ⟨r1, r2, r3, r4⟩ := UnionFind.runUnions_spec ps (UnionFind.new n)
    (UnionFind.new_WF n) (UnionFind.new_CInv n) hps
  have hx' : x < ((UnionFind.new n).runUnions ps).1.n := by rw [r1]; exact hx
  have hy' : y < ((UnionFind.new n).runUnions ps).1.n := by rw [r1]; exact hy
  obtain ⟨u1, u2, u3, u4, u5, u6⟩ :=
    ((UnionFind.new n).runUnions ps).1.union_spec r2 x y hx' hy'
  refine ⟨?_, ?_, fun hre => ?_⟩
  · show ((UnionFind.new n).runUnions ps).1.components = _
    have hnc : (UnionFind.new n).components = n := rfl
    omega
  · exact ((UnionFind.new n).runUnions ps).1.connected_eval r2 x y hx' hy'
  · have hf := u3.2 hre
    exact ⟨hf, u4 hf⟩

/-- Witness for C4: `n = 3`, unions `(0,1), (0,1), (1,2)` (the second returns
`false`), then the idempotence part at `x = 0`, `y = 1`. -/
theorem union_idempotent_component_count_witness :
    (∀ p ∈ [((0 : Nat), (1 : Nat)), (0, 1), (1, 2)], p.1 < 3 ∧ p.2 < 3)
    ∧ (0 : Nat) < 3 ∧ (1 : Nat) < 3
    ∧ (((UnionFind.new 3).runUnions [(0, 1), (0, 1), (1, 2)]).1.component_count
        = 3 - countTrue ((UnionFind.new 3).runUnions [(0, 1), (0, 1), (1, 2)]).2
    ∧ ((((UnionFind.new 3).runUnions [(0, 1), (0, 1), (1, 2)]).1.connected 0 1).2
          = true ↔
        ((UnionFind.new 3).runUnions [(0, 1), (0, 1), (1, 2)]).1.rootOf 0
          = ((UnionFind.new 3).runUnions [(0, 1), (0, 1), (1, 2)]).1.rootOf 1)
    ∧ (((UnionFind.new 3).runUnions [(0, 1), (0, 1), (1, 2)]).1.rootOf 0
          = ((UnionFind.new 3).runUnions [(0, 1), (0, 1), (1, 2)]).1.rootOf 1 →
        (((UnionFind.new 3).runUnions [(0, 1), (0, 1), (1, 2)]).1.union 0 1).2
            = false
        ∧ (((UnionFind.new 3).runUnions
              [(0, 1), (0, 1), (1, 2)]).1.union 0 1).1.component_count
            = ((UnionFind.new 3).runUnions
                [(0, 1), (0, 1), (1, 2)]).1.component_count)) :=
  ⟨by decide, by omega, by omega,
    union_idempotent_component_count 3 [(0, 1), (0, 1), (1, 2)] (by decide)
      0 1 (by omega) (by omega)⟩

set_option maxHeartbeats 1600000 in
/-- C5 is false as stated: `union` merges by rank, not by size.  After
`union(0,1)`, `union(2,3)`, `union(2,4)` on `new(5)`, root `0` has size 2 and
root `2` has size 3, both with rank 1; `union(0,2)` then makes the
*smaller-size* root `0` the parent of the larger-size root `2` (the claim's
union-by-size policy would make `2` absorb `0`). -/
theorem union_by_size_claim_false :
    ((((UnionFind.new 5).union 0 1).1.union 2 3).1.union 2 4).1.size 0 = 2
    ∧ ((((UnionFind.new 5).union 0 1).1.union 2 3).1.union 2 4).1.size 2 = 3
    ∧ ((((UnionFind.new 5).union 0 1).1.union 2 3).1.union 2 4).1.parent 0 = 0
    ∧ ((((UnionFind.new 5).union 0 1).1.union 2 3).1.union 2 4).1.parent 2 = 2
    ∧ (((((UnionFind.new 5).union 0 1).1.union 2 3).1.union 2 4).1.union 0 2).2
        = true
    ∧ (((((UnionFind.new 5).union 0 1).1.union 2 3).1.union 2 4).1.union
        0 2).1.parent 2 = 0
    ∧ (((((UnionFind.new 5).union 0 1).1.union 2 3).1.union 2 4).1.union
        0 2).1.parent 0 = 0
    ∧ (((((UnionFind.new 5).union 0 1).1.union 2 3).1.union 2 4).1.union
        0 2).1.size 0 = 5 := by
  decide

/-- C5 (amended): when `union(x, y)` merges two distinct components the merge
is by *rank*: the higher-rank root becomes the parent of the lower-rank root
and sizes accumulate into it; on a rank tie the first argument's root `x`
survives, absorbs the sizes, and its rank increases by one. -/
theorem union_by_rank (uf : UnionFind) (hwf : uf.WF) (x y : Nat)
    (hx : x < uf.n) (hy : y < uf.n)
    (hne : uf.rootOf x ≠ uf.rootOf y) :
    (uf.union x y).2 = true
    ∧ (uf.rank (uf.rootOf x) < uf.rank (uf.rootOf y) →
        (uf.union x y).1.parent (uf.rootOf x) = uf.rootOf y
        ∧ (uf.union x y).1.size (uf.rootOf y)
            = uf.size (uf.rootOf y) + uf.size (uf.rootOf x)
        ∧ (uf.union x y).1.rank = uf.rank)
    ∧ (uf.rank (uf.rootOf y) < uf.rank (uf.rootOf x) →
        (uf.union x y).1.parent (uf.rootOf y) = uf.rootOf x
        ∧ (uf.union x y).1.size (uf.rootOf x)
            = uf.size (uf.rootOf x) + uf.size (uf.rootOf y)
        ∧ (uf.union x y).1.rank = uf.rank)
    ∧ (uf.rank (uf.rootOf x) = uf.rank (uf.rootOf y) →
        (uf.union x y).1.parent (uf.rootOf y) = uf.rootOf x
        ∧ (uf.union x y).1.size (uf.rootOf x)
            = uf.size (uf.rootOf x) + uf.size (uf.rootOf y)
        ∧ (uf.union x y).1.rank (uf.rootOf x) = uf.rank (uf.rootOf x) + 1) := by
  obtain ⟨uf2, e1, e2, e3, e4, e5, e6, e7, e8, e9, e10⟩ :=
    uf.union_eval hwf x y hx hy
  rw [e10, if_neg hne]
  by_cases h2 : uf2.rank (uf.rootOf x) < uf2.rank (uf.rootOf y)
  · rw [if_pos h2]
    rw [e1] at h2
    refine ⟨rfl, fun h => ⟨?_, ?_, e1⟩, fun h => absurd h (by omega),
      fun h => absurd h (by omega)⟩
    · show Function.update uf2.parent (uf.rootOf x) (uf.rootOf y) (uf.rootOf x)
          = uf.rootOf y
      rw [Function.update_same (uf.rootOf x) (uf.rootOf y) uf2.parent]
    · show Function.update uf2.size (uf.rootOf y)
          (uf2.size (uf.rootOf y) + uf2.size (uf.rootOf x)) (uf.rootOf y)
          = uf.size (uf.rootOf y) + uf.size (uf.rootOf x)
      rw [Function.update_same (uf.rootOf y)
        (uf2.size (uf.rootOf y) + uf2.size (uf.rootOf x)) uf2.size, e2]
  · rw [if_neg h2]
    rw [e1] at h2
    by_cases h3 : uf2.rank (uf.rootOf y) < uf2.rank (uf.rootOf x)
    · rw [if_pos h3]
      rw [e1] at h3
      refine ⟨rfl, fun h => absurd h (by omega), fun h => ⟨?_, ?_, e1⟩,
        fun h => absurd h (by omega)⟩
      · show Function.update uf2.parent (uf.rootOf y) (uf.rootOf x) (uf.rootOf y)
            = uf.rootOf x
        rw [Function.update_same (uf.rootOf y) (uf.rootOf x) uf2.parent]
      · show Function.update uf2.size (uf.rootOf x)
            (uf2.size (uf.rootOf x) + uf2.size (uf.rootOf y)) (uf.rootOf x)
            = uf.size (uf.rootOf x) + uf.size (uf.rootOf y)
        rw [Function.update_same (uf.rootOf x)
          (uf2.size (uf.rootOf x) + uf2.size (uf.rootOf y)) uf2.size, e2]
    · rw [if_neg h3]
      rw [e1] at h3
      refine ⟨rfl, fun h => absurd h (by omega), fun h => absurd h (by omega),
        fun h => ⟨?_, ?_, ?_⟩⟩
      · show Function.update uf2.parent (uf.rootOf y) (uf.rootOf x) (uf.rootOf y)
            = uf.rootOf x
        rw [Function.update_same (uf.rootOf y) (uf.rootOf x) uf2.parent]
      · show Function.update uf2.size (uf.rootOf x)
            (uf2.size (uf.rootOf x) + uf2.size (uf.rootOf y)) (uf.rootOf x)
            = uf.size (uf.rootOf x) + uf.size (uf.rootOf y)
        rw [Function.update_same (uf.rootOf x)
          (uf2.size (uf.rootOf x) + uf2.size (uf.rootOf y)) uf2.size, e2]
      · show Function.update uf2.rank (uf.rootOf x)
            (uf2.rank (uf.rootOf x) + 1) (uf.rootOf x)
            = uf.rank (uf.rootOf x) + 1
        rw [Function.update_same (uf.rootOf x)
          (uf2.rank (uf.rootOf x) + 1) uf2.rank, e1]

/-- Witness for C5's amended statement: `new 2` with `x = 0`, `y = 1`. -/
theorem union_by_rank_witness :
    ((UnionFind.new 2).WF ∧ (0 : Nat) < (UnionFind.new 2).n
    ∧ (1 : Nat) < (UnionFind.new 2).n
    ∧ (UnionFind.new 2).rootOf 0 ≠ (UnionFind.new 2).rootOf 1)
    ∧ (((UnionFind.new 2).union 0 1).2 = true
    ∧ ((UnionFind.new 2).rank ((UnionFind.new 2).rootOf 0)
          < (UnionFind.new 2).rank ((UnionFind.new 2).rootOf 1) →
        ((UnionFind.new 2).union 0 1).1.parent ((UnionFind.new 2).rootOf 0)
            = (UnionFind.new 2).rootOf 1
        ∧ ((UnionFind.new 2).union 0 1).1.size ((UnionFind.new 2).rootOf 1)
            = (UnionFind.new 2).size ((UnionFind.new 2).rootOf 1)
              + (UnionFind.new 2).size ((UnionFind.new 2).rootOf 0)
        ∧ ((UnionFind.new 2).union 0 1).1.rank = (UnionFind.new 2).rank)
    ∧ ((UnionFind.new 2).rank ((UnionFind.new 2).rootOf 1)
          < (UnionFind.new 2).rank ((UnionFind.new 2).rootOf 0) →
        ((UnionFind.new 2).union 0 1).1.parent ((UnionFind.new 2).rootOf 1)
            = (UnionFind.new 2).rootOf 0
        ∧ ((UnionFind.new 2).union 0 1).1.size ((UnionFind.new 2).rootOf 0)
            = (UnionFind.new 2).size ((UnionFind.new 2).rootOf 0)
              + (UnionFind.new 2).size ((UnionFind.new 2).rootOf 1)
        ∧ ((UnionFind.new 2).union 0 1).1.rank = (UnionFind.new 2).rank)
    ∧ ((UnionFind.new 2).rank ((UnionFind.new 2).rootOf 0)
          = (UnionFind.new 2).rank ((UnionFind.new 2).rootOf 1) →
        ((UnionFind.new 2).union 0 1).1.parent ((UnionFind.new 2).rootOf 1)
            = (UnionFind.new 2).rootOf 0
        ∧ ((UnionFind.new 2).union 0 1).1.size ((UnionFind.new 2).rootOf 0)
            = (UnionFind.new 2).size ((UnionFind.new 2).rootOf 0)
              + (UnionFind.new 2).size ((UnionFind.new 2).rootOf 1)
        ∧ ((UnionFind.new 2).union 0 1).1.rank ((UnionFind.new 2).rootOf 0)
            = (UnionFind.new 2).rank ((UnionFind.new 2).rootOf 0) + 1)) :=
  ⟨⟨UnionFind.new_WF 2, by decide, by decide, by decide⟩,
    union_by_rank (UnionFind.new 2) (UnionFind.new_WF 2) 0 1 (by decide)
      (by decide) (by decide)⟩

/-- C9: on every reachable state and every `x < n`, `find(x)` terminates (any
fuel at least `n + 1` yields the same result, and `n + 1` dominates the
recursion depth) and returns the root `r` of `x` with `parent[r] = r` before
and after; afterwards every node on the traversed path (`x` and each ancestor)
has its parent set directly to `r`; and the call changes no component datum:
roots, the root-of map (hence the connected relation), the size array, and
`component_count` are all preserved. -/
theorem find_terminates_compresses (uf : UnionFind) (hr : uf.Reachable)
    (x : Nat) (hx : x < uf.n) :
    (∀ fuel, uf.n + 1 ≤ fuel → uf.find fuel x = uf.find (uf.n + 1) x)
    ∧ (uf.find (uf.n + 1) x).2 = uf.rootOf x
    ∧ uf.parent (uf.rootOf x) = uf.rootOf x
    ∧ (uf.find (uf.n + 1) x).1.parent (uf.rootOf x) = uf.rootOf x
    ∧ (∀ k, (uf.find (uf.n + 1) x).1.parent (iterParent uf.parent k x)
        = uf.rootOf x)
    ∧ (∀ j, ((uf.find (uf.n + 1) x).1.parent j = j ↔ uf.parent j = j))
    ∧ (∀ j, j < uf.n → (uf.find (uf.n + 1) x).1.rootOf j = uf.rootOf j)
    ∧ (uf.find (uf.n + 1) x).1.size = uf.size
    ∧ (uf.find (uf.n + 1) x).1.component_count = uf.component_count := by
  obtain ⟨hwf, hc⟩ := uf.reachable_WF hr
  obtain ⟨c1, c2, c3, c4, c5, c6, c7, c8, c9, c10⟩ := uf.find_spec' hwf x hx
  have hroot := uf.rootOf_isRoot hwf x hx
  refine ⟨?_, c1, hroot, (c6 (uf.rootOf x)).2 hroot, c9, c6, c7, c3, c4⟩
  intro fuel hf
  exact c10 fuel (by have h := uf.rankAbove_le x; omega)

/-- Witness for C9: the state reached from `new(3)` by `union(0, 1)`, at
`x = 1`. -/
theorem find_terminates_compresses_witness :
    (((UnionFind.new 3).union 0 1).1.Reachable
    ∧ 1 < ((UnionFind.new 3).union 0 1).1.n)
    ∧ ((∀ fuel, ((UnionFind.new 3).union 0 1).1.n + 1 ≤ fuel →
        ((UnionFind.new 3).union 0 1).1.find fuel 1
          = ((UnionFind.new 3).union 0 1).1.find
              (((UnionFind.new 3).union 0 1).1.n + 1) 1)
    ∧ (((UnionFind.new 3).union 0 1).1.find
        (((UnionFind.new 3).union 0 1).1.n + 1) 1).2
        = ((UnionFind.new 3).union 0 1).1.rootOf 1
    ∧ ((UnionFind.new 3).union 0 1).1.parent
          (((UnionFind.new 3).union 0 1).1.rootOf 1)
        = ((UnionFind.new 3).union 0 1).1.rootOf 1
    ∧ (((UnionFind.new 3).union 0 1).1.find
        (((UnionFind.new 3).union 0 1).1.n + 1) 1).1.parent
          (((UnionFind.new 3).union 0 1).1.rootOf 1)
        = ((UnionFind.new 3).union 0 1).1.rootOf 1
    ∧ (∀ k, (((UnionFind.new 3).union 0 1).1.find
        (((UnionFind.new 3).union 0 1).1.n + 1) 1).1.parent
          (iterParent ((UnionFind.new 3).union 0 1).1.parent k 1)
        = ((UnionFind.new 3).union 0 1).1.rootOf 1)
    ∧ (∀ j, ((((UnionFind.new 3).union 0 1).1.find
        (((UnionFind.new 3).union 0 1).1.n + 1) 1).1.parent j = j ↔
          ((UnionFind.new 3).union 0 1).1.parent j = j))
    ∧ (∀ j, j < ((UnionFind.new 3).union 0 1).1.n →
        (((UnionFind.new 3).union 0 1).1.find
          (((UnionFind.new 3).union 0 1).1.n + 1) 1).1.rootOf j
          = ((UnionFind.new 3).union 0 1).1.rootOf j)
    ∧ (((UnionFind.new 3).union 0 1).1.find
        (((UnionFind.new 3).union 0 1).1.n + 1) 1).1.size
        = ((UnionFind.new 3).union 0 1).1.size
    ∧ (((UnionFind.new 3).union 0 1).1.find
        (((UnionFind.new 3).union 0 1).1.n + 1) 1).1.component_count
        = ((UnionFind.new 3).union 0 1).1.component_count) :=
  ⟨⟨UnionFind.Reachable.union_step 0 1 (by decide) (by decide)
      (UnionFind.Reachable.new 3), by decide⟩,
    find_terminates_compresses ((UnionFind.new 3).union 0 1).1
      (UnionFind.Reachable.union_step 0 1 (by decide) (by decide)
        (UnionFind.Reachable.new 3)) 1 (by decide)⟩
